import Mathlib

/-!
Verification of the bencodex-rs codec: a shallow embedding of the value
model (`src/codec/types.rs`), the binary decoder (`src/codec/decode.rs`),
the binary encoder (`src/codec/encode.rs`) and the JSON bridge
(`src/json/encode.rs`, `src/json/decode.rs`), together with theorems about
the round-trip, ordering, error-handling and boundary properties of the
code.

Modelling conventions:
* Rust `u8` bytes are `Nat`; byte buffers (`Vec<u8>`, `&[u8]`) are `List Nat`.
* Rust `String` is modelled by its UTF-8 byte representation (`List Nat`),
  which is exactly how Rust stores it; `str::as_bytes`/`String::into_bytes`
  are the identity in the model.
* `num_bigint::BigInt` is `Int`.
* `BTreeMap<BencodexKey, BencodexValue>` is an association list strictly
  sorted by the derived `Ord` on `BencodexKey` (`cmpKeyOrd`), which is the
  iteration order of the Rust map.
* Fallible decoding returns an explicit result type `DRes`; the Rust
  panics reachable in the decoder (`todo!()` on duplicate dictionary keys
  and `BigInt::to_usize().unwrap()` on lengths exceeding `usize::MAX`) are
  modelled by the distinguished outcome `DRes.panicked`.
* The recursive decoder is expressed with an explicit fuel parameter; the
  top-level entry point supplies `3 * buffer.length + 3`, which is shown to
  be sufficient on every path a theorem depends on (a `fuelOut` outcome is
  a model artefact that never occurs there).
-/

namespace BencodexRs

/-! ## Byte and digit utilities -/

/-- ASCII digit test, as in Rust's `b'0'..=b'9'` patterns. -/
def isDigit (b : Nat) : Bool := 48 ≤ b && b ≤ 57

/-- Value of a string of ASCII digit bytes, most significant first. -/
def decimalVal (s : List Nat) : Nat := s.foldl (fun acc b => acc * 10 + (b - 48)) 0

/-- Reversed list of ASCII digits of `n` (empty for `0`). -/
def natDigitsRev (n : Nat) : List Nat :=
  if n = 0 then [] else (48 + n % 10) :: natDigitsRev (n / 10)
decreasing_by exact Nat.div_lt_self (Nat.pos_of_ne_zero (by assumption)) (by omega)

/-- ASCII decimal representation of a natural number, as produced by Rust's
`Display for usize` / `BigUint::to_str_radix(10)`: no leading zeros, and
`"0"` for zero. -/
def natDecimal (n : Nat) : List Nat :=
  if n = 0 then [48] else (natDigitsRev n).reverse

/-- ASCII decimal representation of an integer, as produced by
`BigInt::to_str_radix(10)` and `Display for BigInt`: a `'-'` sign for
negative values followed by the digits of the magnitude. -/
def intDecimal (n : Int) : List Nat :=
  if n < 0 then 45 :: natDecimal n.natAbs else natDecimal n.toNat

/-- `usize::MAX` for the 64-bit targets the crate is built for. -/
def usizeMax : Nat := 2 ^ 64 - 1

/-- `num_traits::ToPrimitive::to_usize` on a `BigInt`: `None` when the value
is negative or exceeds `usize::MAX`. -/
def toUsize (n : Int) : Option Nat :=
  if 0 ≤ n ∧ n ≤ (usizeMax : Int) then some n.toNat else none

/-! ## Value model (`src/codec/types.rs`)

```rust
pub enum BencodexValue {
    Binary(Vec<u8>), Text(String), Boolean(bool), Number(BigInt),
    List(BencodexList), Dictionary(BencodexDictionary), Null,
}
pub enum BencodexKey { Binary(Vec<u8>), Text(String) }
```
-/

/-- `BencodexKey` from `types.rs` (variant order `Binary`, `Text` matters
for the derived `Ord`). -/
inductive BencodexKey : Type where
  | binary : List Nat → BencodexKey
  | text : List Nat → BencodexKey
deriving DecidableEq, Repr

/-- `BencodexValue` from `types.rs`; a `Dictionary` is the
`BTreeMap<BencodexKey, BencodexValue>` modelled as its sorted entry list. -/
inductive BencodexValue : Type where
  | binary : List Nat → BencodexValue
  | text : List Nat → BencodexValue
  | boolean : Bool → BencodexValue
  | number : Int → BencodexValue
  | list : List BencodexValue → BencodexValue
  | dictionary : List (BencodexKey × BencodexValue) → BencodexValue
  | null : BencodexValue
deriving Repr

mutual

/-- Size measure for values (used for recursion and induction). -/
def vsize : BencodexValue → Nat
  | .list xs => 1 + lsize xs
  | .dictionary m => 1 + esize m
  | _ => 1

/-- Size measure for value lists. -/
def lsize : List BencodexValue → Nat
  | [] => 0
  | x :: r => vsize x + lsize r + 1

/-- Size measure for dictionary entry lists. -/
def esize : List (BencodexKey × BencodexValue) → Nat
  | [] => 0
  | p :: r => vsize p.2 + esize r + 2

end

mutual

/-- Structural (deep) equality test on values, `PartialEq` in `types.rs`. -/
def valueBeq : BencodexValue → BencodexValue → Bool
  | .binary a, .binary b => a = b
  | .text a, .text b => a = b
  | .boolean a, .boolean b => a = b
  | .number a, .number b => a = b
  | .list a, .list b => listBeq a b
  | .dictionary a, .dictionary b => entriesBeq a b
  | .null, .null => true
  | _, _ => false

/-- Element-wise equality of value lists. -/
def listBeq : List BencodexValue → List BencodexValue → Bool
  | [], [] => true
  | x :: xs, y :: ys => valueBeq x y && listBeq xs ys
  | _, _ => false

/-- Entry-wise equality of dictionary entry lists. -/
def entriesBeq : List (BencodexKey × BencodexValue) → List (BencodexKey × BencodexValue) → Bool
  | [], [] => true
  | (k₁, v₁) :: r₁, (k₂, v₂) :: r₂ => k₁ = k₂ && valueBeq v₁ v₂ && entriesBeq r₁ r₂
  | _, _ => false

end

theorem vsize_pos (v : BencodexValue) : 1 ≤ vsize v := by
  cases v <;> simp [vsize]

theorem vsize_le_lsize {x : BencodexValue} {xs : List BencodexValue} (h : x ∈ xs) :
    vsize x ≤ lsize xs := by
  induction xs with
  | nil => cases h
  | cons y ys ih =>
    rcases List.mem_cons.mp h with h | h
    · subst h; simp [lsize]; omega
    · have := ih h; simp [lsize]; omega

theorem vsize_le_esize {p : BencodexKey × BencodexValue}
    {m : List (BencodexKey × BencodexValue)} (h : p ∈ m) : vsize p.2 ≤ esize m := by
  induction m with
  | nil => cases h
  | cons q r ih =>
    rcases List.mem_cons.mp h with h | h
    · subst h; simp [esize]; omega
    · have := ih h; simp [esize]; omega

theorem listBeq_iff (xs ys : List BencodexValue)
    (ih : ∀ x ∈ xs, ∀ b, valueBeq x b = true ↔ x = b) :
    listBeq xs ys = true ↔ xs = ys := by
  induction xs generalizing ys with
  | nil => cases ys <;> simp [listBeq]
  | cons x xs ihx =>
    cases ys with
    | nil => simp [listBeq]
    | cons y ys =>
      have h₁ := ih x (List.mem_cons_self x xs) y
      have h₂ := ihx ys (fun z hz => ih z (List.mem_cons_of_mem x hz))
      simp [listBeq, Bool.and_eq_true, h₁, h₂]

theorem entriesBeq_iff (xs ys : List (BencodexKey × BencodexValue))
    (ih : ∀ p ∈ xs, ∀ b, valueBeq p.2 b = true ↔ p.2 = b) :
    entriesBeq xs ys = true ↔ xs = ys := by
  induction xs generalizing ys with
  | nil => cases ys <;> simp [entriesBeq]
  | cons x xs ihx =>
    cases ys with
    | nil => simp [entriesBeq]
    | cons y ys =>
      obtain ⟨k₁, v₁⟩ := x
      obtain ⟨k₂, v₂⟩ := y
      have h₁ := ih (k₁, v₁) (List.mem_cons_self _ xs) v₂
      have h₂ := ihx ys (fun z hz => ih z (List.mem_cons_of_mem _ hz))
      simp only [entriesBeq, Bool.and_eq_true, decide_eq_true_eq, h₁, h₂,
        Prod.mk.injEq, List.cons.injEq]

theorem valueBeq_iff (a b : BencodexValue) : valueBeq a b = true ↔ a = b := by
  have aux : ∀ (n : Nat) (a b : BencodexValue), vsize a ≤ n →
      (valueBeq a b = true ↔ a = b) := by
    intro n
    induction n with
    | zero => intro a b h; have := vsize_pos a; omega
    | succ n ih =>
      intro a b h
      cases a with
      | binary x => cases b <;> simp [valueBeq]
      | text x => cases b <;> simp [valueBeq]
      | boolean x => cases b <;> simp [valueBeq]
      | number x => cases b <;> simp [valueBeq]
      | null => cases b <;> simp [valueBeq]
      | list xs =>
        cases b <;> simp only [valueBeq, reduceCtorEq, false_iff, Bool.false_eq_true] <;>
          try exact fun h => nomatch h
        case list ys =>
          have hx : ∀ x ∈ xs, ∀ c, valueBeq x c = true ↔ x = c := by
            intro x hx c
            exact ih x c (by have h₁ := vsize_le_lsize hx; simp [vsize] at h; omega)
          simpa using listBeq_iff xs ys hx
      | dictionary m =>
        cases b <;> simp only [valueBeq, reduceCtorEq, false_iff, Bool.false_eq_true] <;>
          try exact fun h => nomatch h
        case dictionary m₂ =>
          have hx : ∀ p ∈ m, ∀ c, valueBeq p.2 c = true ↔ p.2 = c := by
            intro p hp c
            exact ih p.2 c (by have h₁ := vsize_le_esize hp; simp [vsize] at h; omega)
          simpa using entriesBeq_iff m m₂ hx
  exact aux (vsize a) a b (Nat.le_refl _)

instance : DecidableEq BencodexValue := fun a b =>
  decidable_of_iff (valueBeq a b = true) (valueBeq_iff a b)

/-- The derived (structural, byte-wise lexicographic) `Ord` on `Vec<u8>` and
on `String` (Rust compares strings by their UTF-8 bytes). -/
def cmpBytes : List Nat → List Nat → Ordering
  | [], [] => .eq
  | [], _ :: _ => .lt
  | _ :: _, [] => .gt
  | x :: xs, y :: ys =>
    match compare x y with
    | .eq => cmpBytes xs ys
    | o => o

/-- The `#[derive(Ord)]` order on `BencodexKey`: variants compare by
declaration order (`Binary` before `Text`), fields structurally. -/
def cmpKeyOrd : BencodexKey → BencodexKey → Ordering
  | .binary a, .binary b => cmpBytes a b
  | .binary _, .text _ => .lt
  | .text _, .binary _ => .gt
  | .text a, .text b => cmpBytes a b

/-- `BTreeMap::insert` on the sorted-association-list model: returns the
updated map and the previous value bound to the key, if any (the map keeps
the original key object when overwriting, like `BTreeMap`). -/
def mapInsert (m : List (BencodexKey × BencodexValue)) (k : BencodexKey)
    (v : BencodexValue) : List (BencodexKey × BencodexValue) × Option BencodexValue :=
  match m with
  | [] => ([(k, v)], none)
  | (k₁, v₁) :: rest =>
    match cmpKeyOrd k k₁ with
    | .lt => ((k, v) :: (k₁, v₁) :: rest, none)
    | .eq => ((k₁, v) :: rest, some v₁)
    | .gt =>
      let r := mapInsert rest k v
      ((k₁, v₁) :: r.1, r.2)

/-! ## Decoder (`src/codec/decode.rs`) -/

/-- `DecodeError` from `decode.rs`. -/
inductive DecodeError : Type where
  | invalidBencodexValueError : DecodeError
  | unexpectedTokenError : (token : Nat) → (point : Nat) → DecodeError
deriving DecidableEq, Repr

/-- Outcome of running a piece of decoder code: a value, a returned
`DecodeError`, a Rust panic (`todo!()` / `Option::unwrap` on `None`), or
fuel exhaustion of the model (never reached by the theorems below). -/
inductive DRes (α : Type) : Type where
  | ok : α → DRes α
  | err : DecodeError → DRes α
  | panicked : DRes α
  | fuelOut : DRes α
deriving DecidableEq, Repr

/-- Error/panic propagation, as Rust's `?` operator on decoder results. -/
def DRes.bind {α β : Type} : DRes α → (α → DRes β) → DRes β
  | .ok a, f => f a
  | .err e, _ => .err e
  | .panicked, _ => .panicked
  | .fuelOut, _ => .fuelOut

instance : Monad DRes where
  pure := DRes.ok
  bind := DRes.bind

/-- `vector.get(i).should_not_be_none()`: the byte at `i`, or
`InvalidBencodexValueError` past the end of the buffer. -/
def getOr (v : List Nat) (i : Nat) : DRes Nat :=
  match v[i]? with
  | none => .err .invalidBencodexValueError
  | some b => .ok b

/-- `u8::expect` from `decode.rs`: an `UnexpectedTokenError` carrying the
offending byte and its offset when the byte is not the expected one. -/
def expectTok (b expected point : Nat) : DRes Unit :=
  if b ≠ expected then .err (.unexpectedTokenError b point) else .ok ()

/-- `read_number` from `decode.rs`: an optional `'-'` sign followed by a
run of ASCII digits; returns the parsed `BigInt` and the number of bytes
consumed, or `None` for an empty digit run. -/
def readNumber (s : List Nat) : Option (Int × Nat) :=
  match s with
  | [] => none
  | b₀ :: rest =>
    let isNeg := b₀ = 45
    if isNeg ∧ rest = [] then none
    else
      let ds := if isNeg then countDigits rest else countDigits s
      let size := (if isNeg then 1 else 0) + ds
      if (isNeg ∧ ds = 0) ∨ size = 0 then none
      else
        let mag := decimalVal ((if isNeg then rest else s).take ds)
        some (if isNeg then -(mag : Int) else (mag : Int), size)
where
  /-- The digit-scanning loop of `read_number`: length of the leading run
  of ASCII digits. -/
  countDigits : List Nat → Nat
    | [] => 0
    | b :: rest => if isDigit b then countDigits rest + 1 else 0

/-- UTF-8 validity of a byte sequence, as checked by `str::from_utf8`
(Rust `core::str::run_utf8_validation`). -/
def utf8Valid : List Nat → Bool
  | [] => true
  | b :: rest =>
    if b ≤ 0x7F then utf8Valid rest
    else if 0xC2 ≤ b ∧ b ≤ 0xDF then
      match rest with
      | c₁ :: r => utf8Cont c₁ && utf8Valid r
      | [] => false
    else if b = 0xE0 then
      match rest with
      | c₁ :: c₂ :: r => (0xA0 ≤ c₁ && c₁ ≤ 0xBF) && utf8Cont c₂ && utf8Valid r
      | _ => false
    else if (0xE1 ≤ b ∧ b ≤ 0xEC) ∨ b = 0xEE ∨ b = 0xEF then
      match rest with
      | c₁ :: c₂ :: r => utf8Cont c₁ && utf8Cont c₂ && utf8Valid r
      | _ => false
    else if b = 0xED then
      match rest with
      | c₁ :: c₂ :: r => (0x80 ≤ c₁ && c₁ ≤ 0x9F) && utf8Cont c₂ && utf8Valid r
      | _ => false
    else if b = 0xF0 then
      match rest with
      | c₁ :: c₂ :: c₃ :: r =>
        (0x90 ≤ c₁ && c₁ ≤ 0xBF) && utf8Cont c₂ && utf8Cont c₃ && utf8Valid r
      | _ => false
    else if 0xF1 ≤ b ∧ b ≤ 0xF3 then
      match rest with
      | c₁ :: c₂ :: c₃ :: r =>
        utf8Cont c₁ && utf8Cont c₂ && utf8Cont c₃ && utf8Valid r
      | _ => false
    else if b = 0xF4 then
      match rest with
      | c₁ :: c₂ :: c₃ :: r =>
        (0x80 ≤ c₁ && c₁ ≤ 0x8F) && utf8Cont c₂ && utf8Cont c₃ && utf8Valid r
      | _ => false
    else false
where
  /-- UTF-8 continuation byte. -/
  utf8Cont (c : Nat) : Bool := 0x80 ≤ c && c ≤ 0xBF

/-- `decode_byte_string_impl`: DIGITS `':'` then that many raw bytes.
`length.to_usize().unwrap()` is the panic site for lengths above
`usize::MAX`. -/
def decodeByteStringImpl (v : List Nat) (start : Nat) : DRes (BencodexValue × Nat) :=
  match readNumber (v.drop start) with
  | none => .err .invalidBencodexValueError
  | some (length, size) => do
    let b ← getOr v (start + size)
    let _ ← expectTok b 58 (start + size)
    match toUsize length with
    | none => .panicked
    | some lengthSize =>
      if v.length < start + size + 1 + lengthSize then .err .invalidBencodexValueError
      else .ok (.binary ((v.drop (start + size + 1)).take lengthSize), size + 1 + lengthSize)

/-- `decode_unicode_string_impl`: `'u'` DIGITS `':'` then that many UTF-8
bytes; a negative declared length is an `UnexpectedTokenError` at the sign
position, and the same `to_usize().unwrap()` panic site exists for lengths
above `usize::MAX`. -/
def decodeUnicodeStringImpl (v : List Nat) (start : Nat) : DRes (BencodexValue × Nat) := do
  let b₀ ← getOr v start
  let _ ← expectTok b₀ 117 start
  if v.length < start + 2 then .err .invalidBencodexValueError
  else
    match readNumber (v.drop (start + 1)) with
    | none => .err .invalidBencodexValueError
    | some (length, size) =>
      if length < 0 then .err (.unexpectedTokenError (v.getD (start + 1) 0) (start + 1))
      else do
        let b₁ ← getOr v (start + 1 + size)
        let _ ← expectTok b₁ 58 (start + 1 + size)
        match toUsize length with
        | none => .panicked
        | some lengthSize =>
          if v.length < start + 1 + size + 1 + lengthSize then .err .invalidBencodexValueError
          else
            let bytes := (v.drop (start + 1 + size + 1)).take lengthSize
            if utf8Valid bytes then .ok (.text bytes, 1 + size + 1 + lengthSize)
            else .err .invalidBencodexValueError

/-- `decode_number_impl`: `'i'` then `read_number` then `'e'`. -/
def decodeNumberImpl (v : List Nat) (start : Nat) : DRes (BencodexValue × Nat) :=
  if v.length < start + 2 then .err .invalidBencodexValueError
  else
    match readNumber (v.drop (start + 1)) with
    | none => .err (.unexpectedTokenError (v.getD (start + 1) 0) (start + 1))
    | some (number, size) => do
      let b ← getOr v (start + 1 + size)
      let _ ← expectTok b 101 (start + 1 + size)
      .ok (.number number, 1 + size + 1)

mutual

/-- `decode_impl`: dispatch on the byte at the cursor. -/
def decodeImpl : Nat → List Nat → Nat → DRes (BencodexValue × Nat)
  | 0, _, _ => .fuelOut
  | fuel + 1, v, start =>
    if start ≥ v.length then .err .invalidBencodexValueError
    else
      match v.getD start 0 with
      | 100 => decodeDictImpl fuel v start
      | 108 => decodeListImpl fuel v start
      | 117 => decodeUnicodeStringImpl v start
      | 105 => decodeNumberImpl v start
      | 116 => .ok (.boolean true, 1)
      | 102 => .ok (.boolean false, 1)
      | 110 => .ok (.null, 1)
      | b => if isDigit b then decodeByteStringImpl v start
             else .err (.unexpectedTokenError b start)
termination_by structural fuel _ _ => fuel

/-- `decode_dict_impl`: `'d'`, then the key/value loop. -/
def decodeDictImpl : Nat → List Nat → Nat → DRes (BencodexValue × Nat)
  | 0, _, _ => .fuelOut
  | fuel + 1, v, start => do
    let b ← getOr v start
    let _ ← expectTok b 100 start
    decodeDictEntries fuel v start 1 []
termination_by structural fuel _ _ => fuel

/-- The `while` loop of `decode_dict_impl`: decode a key (narrowed to
`Text`/`Binary`, anything else is `InvalidBencodexValueError`), decode a
value, and `map.insert` them — where a duplicate key hits `todo!()`,
a panic. After the loop the terminating `'e'` is re-checked. -/
def decodeDictEntries : Nat → List Nat → Nat → Nat →
    List (BencodexKey × BencodexValue) → DRes (BencodexValue × Nat)
  | 0, _, _, _, _ => .fuelOut
  | fuel + 1, v, start, tsize, map => do
    let b ← getOr v (start + tsize)
    if b = 101 then do
      let b₁ ← getOr v (start + tsize)
      let _ ← expectTok b₁ 101 (start + tsize)
      .ok (.dictionary map, tsize + 1)
    else do
      let (kv, size) ← decodeImpl fuel v (start + tsize)
      let key ←
        match kv with
        | .text s => DRes.ok (BencodexKey.text s)
        | .binary b => DRes.ok (BencodexKey.binary b)
        | _ => DRes.err .invalidBencodexValueError
      let (value, size₂) ← decodeImpl fuel v (start + tsize + size)
      let ins := mapInsert map key value
      match ins.2 with
      | none => decodeDictEntries fuel v start (tsize + size + size₂) ins.1
      | some _ => .panicked
termination_by structural fuel _ _ _ _ => fuel

/-- `decode_list_impl`: `'l'`, then the element loop. -/
def decodeListImpl : Nat → List Nat → Nat → DRes (BencodexValue × Nat)
  | 0, _, _ => .fuelOut
  | fuel + 1, v, start => do
    let b ← getOr v start
    let _ ← expectTok b 108 start
    decodeListEntries fuel v start 1 []
termination_by structural fuel _ _ => fuel

/-- The `while` loop of `decode_list_impl`, with the terminating `'e'`
re-checked after the loop. -/
def decodeListEntries : Nat → List Nat → Nat → Nat →
    List BencodexValue → DRes (BencodexValue × Nat)
  | 0, _, _, _, _ => .fuelOut
  | fuel + 1, v, start, tsize, acc => do
    let b ← getOr v (start + tsize)
    if b = 101 then do
      let b₁ ← getOr v (start + tsize)
      let _ ← expectTok b₁ 101 (start + tsize)
      .ok (.list acc, tsize + 1)
    else do
      let (value, size) ← decodeImpl fuel v (start + tsize)
      decodeListEntries fuel v start (tsize + size) (acc ++ [value])
termination_by structural fuel _ _ _ _ => fuel

end

/-! ## Encoder (`src/codec/encode.rs`) -/

/-- `compare_vector` from `encode.rs`: walk the zipped vectors comparing
element-wise, and compare lengths when the common part is equal. -/
def compareVector : List Nat → List Nat → Ordering
  | x :: xs, y :: ys =>
    match compare x y with
    | .eq => compareVector xs ys
    | .gt => .gt
    | .lt => .lt
  | xs, ys => compare xs.length ys.length

/-- `compare_key` from `encode.rs` (Rust `String::as_bytes` is the identity
in the byte-level model of strings). -/
def compareKey : BencodexKey → BencodexKey → Ordering
  | .text x, .text y => compareVector x y
  | .binary x, .binary y => compareVector x y
  | .text _, .binary _ => .gt
  | .binary _, .text _ => .lt

/-- One insertion step of a stable insertion sort by `compare_key` on the
first components. -/
def insertPairBy (p : BencodexKey × BencodexValue) :
    List (BencodexKey × BencodexValue) → List (BencodexKey × BencodexValue)
  | [] => [p]
  | q :: r => if compareKey p.1 q.1 = .gt then q :: insertPairBy p r else p :: q :: r

/-- `itertools::sorted_by(|(x, _), (y, _)| compare_key(x, y))`, modelled as
a stable insertion sort with the same comparator. -/
def sortPairs : List (BencodexKey × BencodexValue) → List (BencodexKey × BencodexValue)
  | [] => []
  | p :: r => insertPairBy p (sortPairs r)

/-- Key-to-value conversion performed by the dictionary encoder before
encoding a key. -/
def keyToValue : BencodexKey → BencodexValue
  | .binary x => .binary x
  | .text x => .text x

theorem vsize_keyToValue (k : BencodexKey) : vsize (keyToValue k) = 1 := by
  cases k <;> rfl

theorem esize_insertPairBy (p : BencodexKey × BencodexValue)
    (l : List (BencodexKey × BencodexValue)) :
    esize (insertPairBy p l) = vsize p.2 + esize l + 2 := by
  induction l with
  | nil => rfl
  | cons q r ih =>
    by_cases h : compareKey p.1 q.1 = .gt <;> simp [insertPairBy, h, esize, ih] <;> omega

theorem esize_sortPairs (l : List (BencodexKey × BencodexValue)) :
    esize (sortPairs l) = esize l := by
  induction l with
  | nil => rfl
  | cons p r ih => simp [sortPairs, esize_insertPairBy, esize, ih]

mutual

/-- The sequence of byte chunks `<BencodexValue as Encode>::encode` hands
to the output sink, one chunk per `write`/`write_all` call of the Rust
encoder, in call order (`write!` issues one call per format fragment, as
exercised by the crate's own `ConditionFailWriter` tests). -/
def encChunks : BencodexValue → List (List Nat)
  | .binary x => [natDecimal x.length, [58], x]
  | .text s => [[117], natDecimal s.length, [58], s]
  | .boolean b => [[if b then 116 else 102]]
  | .number n => [[105], intDecimal n, [101]]
  | .null => [[110]]
  | .list xs => [[108]] ++ encChunksList xs ++ [[101]]
  | .dictionary m => [[100]] ++ encChunksEntries (sortPairs m) ++ [[101]]
termination_by v => vsize v
decreasing_by
  all_goals simp [vsize, esize_sortPairs]

/-- Chunks of a list body: each element encoded in order. -/
def encChunksList : List BencodexValue → List (List Nat)
  | [] => []
  | x :: r => encChunks x ++ encChunksList r
termination_by l => lsize l
decreasing_by
  all_goals simp [lsize]
  all_goals try omega

/-- Chunks of a dictionary body: each entry as encoded key then encoded
value, in the order of the (already sorted) entry list. -/
def encChunksEntries : List (BencodexKey × BencodexValue) → List (List Nat)
  | [] => []
  | (k, v) :: r => encChunks (keyToValue k) ++ encChunks v ++ encChunksEntries r
termination_by l => esize l
decreasing_by
  all_goals simp [esize, vsize_keyToValue]
  all_goals omega

end

/-- The canonical byte encoding of a value: the concatenation of all chunks
written by `Encode::encode` (what encoding into a `Vec<u8>` sink yields). -/
def encBytes (v : BencodexValue) : List Nat := (encChunks v).flatten

/-- Run a sequence of write calls against an output sink. `sink k = true`
means the `k`-th write call (1-based) returns an I/O error; the first
failure is returned at once, abandoning the remaining chunks, and the
bytes written so far are kept (partial output). -/
def runChunksFull (sink : Nat → Bool) :
    List (List Nat) → Nat → List Nat → Except Unit Nat × List Nat
  | [], calls, out => (.ok calls, out)
  | c :: rest, calls, out =>
    if sink (calls + 1) then (.error (), out)
    else runChunksFull sink rest (calls + 1) (out ++ c)

/-- `Encode::encode` of a value against an output sink: issue the value's
write calls in order, propagating the first sink failure. Returns the
final result together with the bytes the sink received. -/
def encodeTo (v : BencodexValue) (sink : Nat → Bool) : Except Unit Nat × List Nat :=
  runChunksFull sink (encChunks v) 0 []

/-! ## Well-formedness: values constructible by the Rust model -/

/-- The `BTreeMap` invariant: keys strictly increasing in the derived
`Ord`. -/
def keysStrictSorted : List (BencodexKey × BencodexValue) → Bool
  | [] => true
  | [_] => true
  | p :: q :: r => (cmpKeyOrd p.1 q.1 = .lt) && keysStrictSorted (q :: r)

/-- Invariants of a Rust-representable key: bytes are `u8`, lengths fit in
`usize`, and a `String` holds valid UTF-8. -/
def keyOK : BencodexKey → Bool
  | .binary b => b.all (· < 256) && b.length ≤ usizeMax
  | .text s => utf8Valid s && s.length ≤ usizeMax

mutual

/-- Invariants every `BencodexValue` constructible in Rust satisfies:
binary/text payloads are `u8` sequences of `usize` length, text is valid
UTF-8 (`String`), and dictionaries are sorted `BTreeMap`s. -/
def WF : BencodexValue → Bool
  | .binary b => b.all (· < 256) && b.length ≤ usizeMax
  | .text s => utf8Valid s && s.length ≤ usizeMax
  | .boolean _ => true
  | .number _ => true
  | .null => true
  | .list xs => WFlist xs
  | .dictionary m => keysStrictSorted m && WFentries m

/-- `WF` for every element of a list. -/
def WFlist : List BencodexValue → Bool
  | [] => true
  | x :: r => WF x && WFlist r

/-- `keyOK`/`WF` for every entry of a dictionary. -/
def WFentries : List (BencodexKey × BencodexValue) → Bool
  | [] => true
  | (k, v) :: r => keyOK k && WF v && WFentries r

end

/-- `impl Decode for Vec<u8>`: decode one value at offset 0 and discard
the consumed-byte count. The fuel `3 * length + 3` dominates any run of
the Rust decoder: a run that parses a span of `n` bytes descends through
at most `3 * n` fuel-counted calls, as proved for the encoder's output
below. -/
def vecDecode (v : List Nat) : DRes BencodexValue :=
  match decodeImpl (3 * v.length + 3) v 0 with
  | .ok (val, _) => .ok val
  | .err e => .err e
  | .panicked => .panicked
  | .fuelOut => .fuelOut

/-! ## JSON bridge (`src/json/encode.rs`, `src/json/decode.rs`)

The bridge uses the external crates `hex`, `base64`
(`general_purpose::STANDARD`: canonical padding required, no trailing
bits), `serde_json` (values; text parsed per the JSON grammar into
`BTreeMap<String, Value>` objects) and `num_bigint` (`FromStr`). Those
dependencies are modelled below from their documented behaviour. -/

/-- `BinaryEncoding` from `json/encode.rs` (default is `Base64`). -/
inductive BinaryEncoding : Type where
  | base64 : BinaryEncoding
  | hex : BinaryEncoding
deriving DecidableEq, Repr

/-- `JsonDecodeError` from `json/decode.rs`. -/
inductive JsonDecodeError : Type where
  | invalidJsonString : JsonDecodeError
  | invalidJson : JsonDecodeError
deriving DecidableEq, Repr

/-- Lowercase hex digit, as emitted by `hex::encode`. -/
def hexDigitChar (i : Nat) : Nat := if i < 10 then 48 + i else 87 + i

/-- `hex::encode`: two lowercase hex digits per byte. -/
def hexEncode : List Nat → List Nat
  | [] => []
  | b :: r => hexDigitChar (b / 16) :: hexDigitChar (b % 16) :: hexEncode r

/-- Value of one hex digit (`hex::decode` accepts both cases). -/
def hexDigitVal (c : Nat) : Option Nat :=
  if 48 ≤ c ∧ c ≤ 57 then some (c - 48)
  else if 97 ≤ c ∧ c ≤ 102 then some (c - 87)
  else if 65 ≤ c ∧ c ≤ 70 then some (c - 55)
  else none

/-- `hex::decode`: an even number of hex digits, two per byte. -/
def hexDecode : List Nat → Option (List Nat)
  | [] => some []
  | [_] => none
  | c₁ :: c₂ :: r => do
    let h ← hexDigitVal c₁
    let l ← hexDigitVal c₂
    let rest ← hexDecode r
    pure ((16 * h + l) :: rest)

/-- Standard base64 alphabet character for a sextet. -/
def b64Char (i : Nat) : Nat :=
  if i < 26 then 65 + i
  else if i < 52 then 71 + i
  else if i < 62 then i - 4
  else if i = 62 then 43
  else 47

/-- Sextet value of a standard base64 alphabet character. -/
def b64CharVal (c : Nat) : Option Nat :=
  if 65 ≤ c ∧ c ≤ 90 then some (c - 65)
  else if 97 ≤ c ∧ c ≤ 122 then some (c - 71)
  else if 48 ≤ c ∧ c ≤ 57 then some (c + 4)
  else if c = 43 then some 62
  else if c = 47 then some 63
  else none

/-- `base64::engine::general_purpose::STANDARD.encode`: 3-byte groups to
4 characters, with `'='` padding. -/
def b64encode : List Nat → List Nat
  | a :: b :: c :: r =>
    b64Char (a / 4) :: b64Char (a % 4 * 16 + b / 16) ::
      b64Char (b % 16 * 4 + c / 64) :: b64Char (c % 64) :: b64encode r
  | [a, b] => [b64Char (a / 4), b64Char (a % 4 * 16 + b / 16), b64Char (b % 16 * 4), 61]
  | [a] => [b64Char (a / 4), b64Char (a % 4 * 16), 61, 61]
  | [] => []

/-- `base64::engine::general_purpose::STANDARD.decode`: length a multiple
of four, canonical padding only in the final group, zero trailing bits. -/
def b64decode : List Nat → Option (List Nat)
  | [] => some []
  | c₁ :: c₂ :: c₃ :: c₄ :: r =>
    if c₄ = 61 then
      if r ≠ [] then none
      else if c₃ = 61 then do
        let s₁ ← b64CharVal c₁
        let s₂ ← b64CharVal c₂
        if s₂ % 16 ≠ 0 then none
        else pure [s₁ * 4 + s₂ / 16]
      else do
        let s₁ ← b64CharVal c₁
        let s₂ ← b64CharVal c₂
        let s₃ ← b64CharVal c₃
        if s₃ % 4 ≠ 0 then none
        else pure [s₁ * 4 + s₂ / 16, s₂ % 16 * 16 + s₃ / 4]
    else do
      let s₁ ← b64CharVal c₁
      let s₂ ← b64CharVal c₂
      let s₃ ← b64CharVal c₃
      let s₄ ← b64CharVal c₄
      let rest ← b64decode r
      pure ((s₁ * 4 + s₂ / 16) :: (s₂ % 16 * 16 + s₃ / 4) :: (s₃ % 4 * 64 + s₄) :: rest)
  | _ => none

/-- `arg0.replace('\n', "\\n")` on the byte representation: a line feed
becomes backslash `n` (no other JSON escaping is performed by the
encoder). -/
def escNewlines : List Nat → List Nat
  | [] => []
  | b :: r => if b = 10 then 92 :: 110 :: escNewlines r else b :: escNewlines r

/-- UTF-8 bytes of U+FEFF, the marker written before `Text` content. -/
def bomBytes : List Nat := [239, 187, 191]

/-- The characters `to_json_key_impl` writes between the quotes: the
binary tag (`"b64:"` or `"0x"`) with the encoded bytes, or U+FEFF followed
by the text with newlines replaced. -/
def printKeyBody (options : BinaryEncoding) : BencodexKey → List Nat
  | .binary b =>
    match options with
    | .base64 => [98, 54, 52, 58] ++ b64encode b
    | .hex => [48, 120] ++ hexEncode b
  | .text s => bomBytes ++ escNewlines s

/-- `to_json_key_impl`: a JSON string literal for a key. -/
def printKeyBytes (options : BinaryEncoding) (k : BencodexKey) : List Nat :=
  34 :: printKeyBody options k ++ [34]

mutual

/-- `to_json_value_impl`: the JSON text written for a value. -/
def printJson (options : BinaryEncoding) : BencodexValue → List Nat
  | .binary b => printKeyBytes options (.binary b)
  | .text s => printKeyBytes options (.text s)
  | .boolean b => if b then [116, 114, 117, 101] else [102, 97, 108, 115, 101]
  | .number n => 34 :: intDecimal n ++ [34]
  | .list xs => 91 :: printJsonList options xs ++ [93]
  | .dictionary m => 123 :: printJsonEntries options m ++ [125]
  | .null => [110, 117, 108, 108]

/-- List elements, comma-separated (the `i < len - 1` test in the source). -/
def printJsonList (options : BinaryEncoding) : List BencodexValue → List Nat
  | [] => []
  | [x] => printJson options x
  | x :: y :: r => printJson options x ++ [44] ++ printJsonList options (y :: r)

/-- Dictionary entries in map iteration order, as `key:value`,
comma-separated (the peekable iterator in the source). -/
def printJsonEntries (options : BinaryEncoding) :
    List (BencodexKey × BencodexValue) → List Nat
  | [] => []
  | [(k, v)] => printKeyBytes options k ++ [58] ++ printJson options v
  | (k, v) :: q :: r =>
    printKeyBytes options k ++ [58] ++ printJson options v ++ [44] ++
      printJsonEntries options (q :: r)

end

/-- `to_json_with_options`: the encoder never fails into a `Vec<u8>` sink,
and the resulting buffer is returned as the JSON text. -/
def toJsonWithOptions (v : BencodexValue) (options : BinaryEncoding) : List Nat :=
  printJson options v

/-- `to_json`: `to_json_with_options` with the default options
(`BinaryEncoding::Base64`). -/
def toJson (v : BencodexValue) : List Nat := printJson .base64 v

/-- `serde_json::Value`: objects are `BTreeMap<String, Value>`, modelled
as an association list sorted by the byte order of keys; number literals
keep their raw token (the bridge rejects them regardless of value). -/
inductive Json : Type where
  | null : Json
  | jbool : Bool → Json
  | jnum : List Nat → Json
  | jstr : List Nat → Json
  | jarr : List Json → Json
  | jobj : List (List Nat × Json) → Json
deriving Repr

/-- `BTreeMap<String, Value>::insert` (later bindings overwrite earlier
ones, the existing key is kept). -/
def strInsert (m : List (List Nat × Json)) (k : List Nat) (v : Json) :
    List (List Nat × Json) :=
  match m with
  | [] => [(k, v)]
  | (k₁, v₁) :: rest =>
    match cmpBytes k k₁ with
    | .lt => (k, v) :: (k₁, v₁) :: rest
    | .eq => (k₁, v) :: rest
    | .gt => (k₁, v₁) :: strInsert rest k v

/-- JSON insignificant whitespace. -/
def isWs (b : Nat) : Bool := b = 32 || b = 9 || b = 10 || b = 13

/-- Drop leading JSON whitespace. -/
def skipWs : List Nat → List Nat
  | [] => []
  | b :: r => if isWs b then skipWs r else b :: r

/-- UTF-8 encoding of a Unicode scalar value (for `\uXXXX` escapes). -/
def utf8EncodeScalar (n : Nat) : List Nat :=
  if n < 0x80 then [n]
  else if n < 0x800 then [0xC0 + n / 64, 0x80 + n % 64]
  else if n < 0x10000 then [0xE0 + n / 4096, 0x80 + n / 64 % 64, 0x80 + n % 64]
  else [0xF0 + n / 262144, 0x80 + n / 4096 % 64, 0x80 + n / 64 % 64, 0x80 + n % 64]

/-- One backslash escape sequence (the bytes after the backslash): the
decoded UTF-8 bytes and the remaining input. `\uXXXX` escapes (including
surrogate pairs) are re-encoded to UTF-8, per the JSON grammar as
serde_json implements it. -/
def escChunk : List Nat → Option (List Nat × List Nat)
  | [] => none
  | e :: r₂ =>
    if e = 34 ∨ e = 92 ∨ e = 47 then some ([e], r₂)
    else if e = 98 then some ([8], r₂)
    else if e = 102 then some ([12], r₂)
    else if e = 110 then some ([10], r₂)
    else if e = 114 then some ([13], r₂)
    else if e = 116 then some ([9], r₂)
    else if e = 117 then
      match r₂ with
      | h₁ :: h₂ :: h₃ :: h₄ :: r₃ => do
        let d₁ ← hexDigitVal h₁
        let d₂ ← hexDigitVal h₂
        let d₃ ← hexDigitVal h₃
        let d₄ ← hexDigitVal h₄
        let n := d₁ * 4096 + d₂ * 256 + d₃ * 16 + d₄
        if 0xD800 ≤ n ∧ n ≤ 0xDBFF then
          match r₃ with
          | 92 :: 117 :: g₁ :: g₂ :: g₃ :: g₄ :: r₄ => do
            let e₁ ← hexDigitVal g₁
            let e₂ ← hexDigitVal g₂
            let e₃ ← hexDigitVal g₃
            let e₄ ← hexDigitVal g₄
            let n₂ := e₁ * 4096 + e₂ * 256 + e₃ * 16 + e₄
            if 0xDC00 ≤ n₂ ∧ n₂ ≤ 0xDFFF then
              pure (utf8EncodeScalar (0x10000 + (n - 0xD800) * 1024 + (n₂ - 0xDC00)), r₄)
            else none
          | _ => none
        else if 0xDC00 ≤ n ∧ n ≤ 0xDFFF then none
        else pure (utf8EncodeScalar n, r₃)
      | _ => none
    else none

/-- JSON string body after the opening quote: unescape until the closing
quote, rejecting raw control characters, one plain byte or escape
sequence per fuel step (the fuel `length + 1` passed by the callers
covers any input). -/
def parseStringBody : Nat → List Nat → Option (List Nat × List Nat)
  | 0, _ => none
  | fuel + 1, s =>
    match s with
    | [] => none
    | b :: r =>
      if b = 34 then some ([], r)
      else if b = 92 then
        match escChunk r with
        | none => none
        | some (chunk, r₂) =>
          match parseStringBody fuel r₂ with
          | none => none
          | some (out, rest) => some (chunk ++ out, rest)
      else if b < 32 then none
      else
        match parseStringBody fuel r with
        | none => none
        | some (out, rest) => some (b :: out, rest)
termination_by structural fuel _ => fuel

/-- Longest leading run of ASCII digits, and the remaining input. -/
def takeDigits : List Nat → List Nat × List Nat
  | [] => ([], [])
  | b :: r =>
    if isDigit b then
      let (d, rest) := takeDigits r
      (b :: d, rest)
    else ([], b :: r)

/-- Fraction and exponent parts of a JSON number literal (returning the
raw bytes consumed), per the JSON grammar. -/
def parseNumberRest (s : List Nat) : Option (List Nat × List Nat) :=
  match s with
  | 46 :: r =>
    match takeDigits r with
    | ([], _) => none
    | (d, rest) =>
      match rest with
      | 101 :: r₂ => parseExpTail r₂ (46 :: d ++ [101])
      | 69 :: r₂ => parseExpTail r₂ (46 :: d ++ [69])
      | _ => some (46 :: d, rest)
  | 101 :: r => parseExpTail r [101]
  | 69 :: r => parseExpTail r [69]
  | _ => some ([], s)
where
  /-- Exponent digits, with an optional sign. -/
  parseExpTail (s : List Nat) (acc : List Nat) : Option (List Nat × List Nat) :=
    match s with
    | 43 :: r =>
      match takeDigits r with
      | ([], _) => none
      | (d, rest) => some (acc ++ 43 :: d, rest)
    | 45 :: r =>
      match takeDigits r with
      | ([], _) => none
      | (d, rest) => some (acc ++ 45 :: d, rest)
    | r =>
      match takeDigits r with
      | ([], _) => none
      | (d, rest) => some (acc ++ d, rest)

/-- A JSON number literal starting at the current byte: optional `'-'`,
then `0` or a nonzero digit followed by digits, then optional fraction
and exponent; returns the raw token bytes. -/
def parseNumberToken (s : List Nat) : Option (List Nat × List Nat) :=
  match s with
  | 45 :: r => do
    let (raw, rest) ← parseIntPart r
    pure (45 :: raw, rest)
  | _ => parseIntPart s
where
  /-- The integer part: `0`, or a nonzero digit followed by digits. -/
  parseIntPart (s : List Nat) : Option (List Nat × List Nat) :=
    match s with
    | [] => none
    | b :: r =>
      if b = 48 then do
        let (tail, rest) ← parseNumberRest r
        pure (48 :: tail, rest)
      else if isDigit b then
        match takeDigits r with
        | (d, rest) => do
          let (tail, rest₂) ← parseNumberRest rest
          pure (b :: d ++ tail, rest₂)
      else none

mutual

/-- One JSON value from the front of the input (after insignificant
whitespace): the recursive-descent structure of `serde_json::from_str`,
with explicit fuel. Returns the value and the unconsumed input. -/
def parseValue : Nat → List Nat → Option (Json × List Nat)
  | 0, _ => none
  | fuel + 1, s =>
    match skipWs s with
    | [] => none
    | b :: r =>
      if b = 110 then
        match r with
        | 117 :: 108 :: 108 :: r₂ => some (.null, r₂)
        | _ => none
      else if b = 116 then
        match r with
        | 114 :: 117 :: 101 :: r₂ => some (.jbool true, r₂)
        | _ => none
      else if b = 102 then
        match r with
        | 97 :: 108 :: 115 :: 101 :: r₂ => some (.jbool false, r₂)
        | _ => none
      else if b = 34 then do
        let (str, r₂) ← parseStringBody (r.length + 1) r
        pure (.jstr str, r₂)
      else if b = 91 then
        match skipWs r with
        | 93 :: r₂ => some (.jarr [], r₂)
        | r₂ => parseArrElems fuel r₂ []
      else if b = 123 then
        match skipWs r with
        | 125 :: r₂ => some (.jobj [], r₂)
        | r₂ => parseObjEntries fuel r₂ []
      else if b = 45 ∨ isDigit b then do
        let (raw, r₂) ← parseNumberToken (b :: r)
        pure (.jnum raw, r₂)
      else none
termination_by structural fuel _ => fuel

/-- Array elements after the first delimiter: value, then `','` or `']'`. -/
def parseArrElems : Nat → List Nat → List Json → Option (Json × List Nat)
  | 0, _, _ => none
  | fuel + 1, s, acc => do
    let (v, r) ← parseValue fuel s
    match skipWs r with
    | 44 :: r₂ => parseArrElems fuel r₂ (acc ++ [v])
    | 93 :: r₂ => some (.jarr (acc ++ [v]), r₂)
    | _ => none
termination_by structural fuel _ _ => fuel

/-- Object entries: string key, `':'`, value, inserted into the
`BTreeMap<String, Value>`, then `','` or `'}'`. -/
def parseObjEntries : Nat → List Nat → List (List Nat × Json) →
    Option (Json × List Nat)
  | 0, _, _ => none
  | fuel + 1, s, acc =>
    match skipWs s with
    | 34 :: r => do
      let (key, r₂) ← parseStringBody (r.length + 1) r
      match skipWs r₂ with
      | 58 :: r₃ => do
        let (v, r₄) ← parseValue fuel r₃
        let acc₂ := strInsert acc key v
        match skipWs r₄ with
        | 44 :: r₅ => parseObjEntries fuel r₅ acc₂
        | 125 :: r₅ => some (.jobj acc₂, r₅)
        | _ => none
      | _ => none
    | _ => none
termination_by structural fuel _ _ => fuel

end

/-- `serde_json::from_str`: one JSON document, with only whitespace
allowed after it. The fuel `length + 1` covers any input (each nesting
level consumes at least one byte). -/
def parseDoc (s : List Nat) : Option Json := do
  let (v, r) ← parseValue (s.length + 1) s
  if skipWs r = [] then some v else none

/-- `num_bigint`'s `FromStr` (`str::parse::<BigInt>`): an optional sign
followed by one or more ASCII digits and nothing else. -/
def bigIntParse (s : List Nat) : Option Int :=
  match s with
  | [] => none
  | 43 :: r => if r ≠ [] ∧ r.all isDigit then some (decimalVal r) else none
  | 45 :: r => if r ≠ [] ∧ r.all isDigit then some (-(decimalVal r : Int)) else none
  | _ => if s.all isDigit then some (decimalVal s) else none

/-- `from_json_key_impl` from `json/decode.rs`: try the `"b64:"` tag, then
the `"0x"` tag, then the U+FEFF marker (`str::strip_prefix` on the byte
representation); anything else is `InvalidJson`. -/
def fromJsonKeyImpl (s : List Nat) : Except JsonDecodeError BencodexKey :=
  if s.take 4 = [98, 54, 52, 58] then
    match b64decode (s.drop 4) with
    | some b => .ok (.binary b)
    | none => .error .invalidJson
  else if s.take 2 = [48, 120] then
    match hexDecode (s.drop 2) with
    | some b => .ok (.binary b)
    | none => .error .invalidJson
  else if s.take 3 = bomBytes then .ok (.text (s.drop 3))
  else .error .invalidJson

mutual

/-- `from_json` from `json/decode.rs`. -/
def fromJson : Json → Except JsonDecodeError BencodexValue
  | .null => .ok .null
  | .jbool b => .ok (.boolean b)
  | .jnum _ => .error .invalidJson
  | .jarr xs => do
    let l ← fromJsonList xs
    .ok (.list l)
  | .jobj kvs => do
    let m ← fromJsonEntries kvs []
    .ok (.dictionary m)
  | .jstr s =>
    match fromJsonKeyImpl s with
    | .ok (.text t) => .ok (.text t)
    | .ok (.binary b) => .ok (.binary b)
    | .error _ =>
      if s.all (fun b => isDigit b || b = 45) then
        match bigIntParse s with
        | some n => .ok (.number n)
        | none => .error .invalidJson
      else .error .invalidJson

/-- `arr.iter().map(from_json).try_collect()`: left to right, first error
wins. -/
def fromJsonList : List Json → Except JsonDecodeError (List BencodexValue)
  | [] => .ok []
  | x :: r => do
    let v ← fromJson x
    let rest ← fromJsonList r
    .ok (v :: rest)

/-- The object loop of `from_json`: convert each key and value and insert
into the `BencodexDictionary` (overwriting duplicates). -/
def fromJsonEntries : List (List Nat × Json) → List (BencodexKey × BencodexValue) →
    Except JsonDecodeError (List (BencodexKey × BencodexValue))
  | [], acc => .ok acc
  | (k, v) :: r, acc => do
    let key ← fromJsonKeyImpl k
    let val ← fromJson v
    fromJsonEntries r (mapInsert acc key val).1

end

/-- `from_json_string`: `serde_json::from_str` (failure is
`InvalidJsonString`) followed by `from_json`. -/
def fromJsonString (s : List Nat) : Except JsonDecodeError BencodexValue :=
  match parseDoc s with
  | none => .error .invalidJsonString
  | some j => fromJson j

/-- Text payloads the JSON printer represents losslessly: no quote, no
backslash, and no raw control byte other than the newline that
`replace('\\n', "\\\\n")` escapes. -/
def textJsonSafe (t : List Nat) : Bool :=
  t.all (fun b => b ≠ 34 && b ≠ 92 && (32 ≤ b || b = 10))

/-- `textJsonSafe` for the text of a key. -/
def keyJsonSafe : BencodexKey → Bool
  | .binary _ => true
  | .text t => textJsonSafe t

mutual

/-- Every text payload occurring in the value (including dictionary keys)
is `textJsonSafe`. -/
def jsonSafe : BencodexValue → Bool
  | .text t => textJsonSafe t
  | .list xs => jsonSafeList xs
  | .dictionary m => jsonSafeEntries m
  | _ => true

/-- `jsonSafe` for every element of a list. -/
def jsonSafeList : List BencodexValue → Bool
  | [] => true
  | x :: r => jsonSafe x && jsonSafeList r

/-- `keyJsonSafe`/`jsonSafe` for every entry of a dictionary. -/
def jsonSafeEntries : List (BencodexKey × BencodexValue) → Bool
  | [] => true
  | (k, v) :: r => keyJsonSafe k && jsonSafe v && jsonSafeEntries r

end

/-- The content of the JSON string literal a key prints to, after the
JSON parser unescapes it (text newlines are restored). -/
def jsonKeyStr (options : BinaryEncoding) : BencodexKey → List Nat
  | .binary b =>
    match options with
    | .base64 => [98, 54, 52, 58] ++ b64encode b
    | .hex => [48, 120] ++ hexEncode b
  | .text t => bomBytes ++ t

mutual

/-- The `serde_json::Value` that the printed JSON text of a value parses
back to. -/
def jsonOf (options : BinaryEncoding) : BencodexValue → Json
  | .binary b => .jstr (jsonKeyStr options (.binary b))
  | .text t => .jstr (jsonKeyStr options (.text t))
  | .boolean b => .jbool b
  | .number n => .jstr (intDecimal n)
  | .list xs => .jarr (jsonOfList options xs)
  | .dictionary m => .jobj (jsonObjOf options m [])
  | .null => .null
termination_by v => vsize v
decreasing_by
  all_goals simp [vsize]

/-- `jsonOf` over the elements of a list. -/
def jsonOfList (options : BinaryEncoding) : List BencodexValue → List Json
  | [] => []
  | x :: r => jsonOf options x :: jsonOfList options r
termination_by l => lsize l
decreasing_by
  all_goals simp [lsize]
  all_goals try omega

/-- The `BTreeMap<String, Value>` built while parsing the printed
entries of a dictionary, as the object loop inserts them. -/
def jsonObjOf (options : BinaryEncoding) :
    List (BencodexKey × BencodexValue) → List (List Nat × Json) →
    List (List Nat × Json)
  | [], acc => acc
  | (k, v) :: r, acc =>
    jsonObjOf options r (strInsert acc (jsonKeyStr options k) (jsonOf options v))
termination_by l _ => esize l
decreasing_by
  all_goals simp [esize]
  all_goals omega

end

/-- The key a parsed JSON object key decodes to (`.binary []` when the
key is rejected; used only where success is separately proved). -/
def decKeyD (s : List Nat) : BencodexKey :=
  match fromJsonKeyImpl s with
  | .ok k => k
  | .error _ => .binary []

/-- The value a parsed JSON value decodes to (`.null` when rejected;
used only where success is separately proved). -/
def decValD (j : Json) : BencodexValue :=
  match fromJson j with
  | .ok v => v
  | .error _ => .null

/-! ## Lemmas: decimal digits -/

theorem decimalVal_append_one (l : List Nat) (b : Nat) :
    decimalVal (l ++ [b]) = decimalVal l * 10 + (b - 48) := by
  simp [decimalVal]

theorem natDigitsRev_digits {n : Nat} : ∀ b ∈ natDigitsRev n, isDigit b = true := by
  induction n using Nat.strong_induction_on with
  | _ n ih =>
    intro b hb
    rw [natDigitsRev] at hb
    by_cases h : n = 0
    · simp [h] at hb
    · rw [if_neg h] at hb
      rcases List.mem_cons.mp hb with hb | hb
      · subst hb
        have := Nat.mod_lt n (show 0 < 10 by omega)
        simp [isDigit]; omega
      · exact ih (n / 10) (Nat.div_lt_self (Nat.pos_of_ne_zero h) (by omega)) b hb

theorem natDecimal_digits {n : Nat} : ∀ b ∈ natDecimal n, isDigit b = true := by
  intro b hb
  rw [natDecimal] at hb
  by_cases h : n = 0
  · rw [if_pos h] at hb
    simp at hb
    subst hb; rfl
  · rw [if_neg h] at hb
    exact natDigitsRev_digits b (List.mem_reverse.mp hb)

theorem natDecimal_ne_nil (n : Nat) : natDecimal n ≠ [] := by
  rw [natDecimal]
  by_cases h : n = 0
  · simp [h]
  · rw [if_neg h, natDigitsRev, if_neg h]
    simp

theorem decimalVal_natDigitsRev (n : Nat) :
    decimalVal (natDigitsRev n).reverse = n := by
  induction n using Nat.strong_induction_on with
  | _ n ih =>
    rw [natDigitsRev]
    by_cases h : n = 0
    · simp [h, decimalVal]
    · rw [if_neg h]
      rw [List.reverse_cons, decimalVal_append_one,
        ih (n / 10) (Nat.div_lt_self (Nat.pos_of_ne_zero h) (by omega))]
      omega

theorem decimalVal_natDecimal (n : Nat) : decimalVal (natDecimal n) = n := by
  rw [natDecimal]
  by_cases h : n = 0
  · simp [h, decimalVal]
  · rw [if_neg h, decimalVal_natDigitsRev]

/-! ## Lemmas: `read_number` -/

theorem countDigits_append (ds rest : List Nat) (hd : ∀ b ∈ ds, isDigit b = true)
    (hr : ∀ b, rest.head? = some b → isDigit b = false) :
    readNumber.countDigits (ds ++ rest) = ds.length := by
  induction ds with
  | nil =>
    cases rest with
    | nil => rfl
    | cons b r =>
      have := hr b rfl
      simp [readNumber.countDigits, this]
  | cons d ds ih =>
    have hd₀ := hd d (List.mem_cons_self _ _)
    simp only [List.cons_append, readNumber.countDigits, hd₀, if_true, List.append_eq]
    rw [ih (fun b hb => hd b (List.mem_cons_of_mem _ hb))]
    simp

theorem isDigit_ne_45 {b : Nat} (h : isDigit b = true) : b ≠ 45 := by
  simp [isDigit] at h; omega

theorem isDigit_ne_101 {b : Nat} (h : isDigit b = true) : b ≠ 101 := by
  simp [isDigit] at h; omega

theorem readNumber_digits (ds : List Nat) (b : Nat) (rest : List Nat) (hne : ds ≠ [])
    (hd : ∀ x ∈ ds, isDigit x = true) (hb : isDigit b = false) :
    readNumber (ds ++ b :: rest) = some ((decimalVal ds : Int), ds.length) := by
  obtain ⟨d, ds', rfl⟩ : ∃ d ds', ds = d :: ds' := by
    cases ds with
    | nil => exact absurd rfl hne
    | cons d ds' => exact ⟨d, ds', rfl⟩
  have hd₀ := hd d (List.mem_cons_self _ _)
  have h45 : ¬(d = 45) := isDigit_ne_45 hd₀
  have hcount : readNumber.countDigits ((d :: ds') ++ b :: rest) = ds'.length + 1 := by
    rw [countDigits_append _ _ hd (by intro x hx; simp at hx; subst hx; exact hb)]
    simp
  rw [List.cons_append] at hcount ⊢
  rw [readNumber]
  simp only [h45, false_and, if_neg (show ¬(False : Prop) from not_false), if_false, hcount]
  rw [if_neg (by simp), List.take_succ_cons, List.take_append_of_le_length (Nat.le_refl _),
    List.take_length]
  simp

theorem readNumber_neg_digits (ds : List Nat) (b : Nat) (rest : List Nat) (hne : ds ≠ [])
    (hd : ∀ x ∈ ds, isDigit x = true) (hb : isDigit b = false) :
    readNumber (45 :: (ds ++ b :: rest)) = some (-(decimalVal ds : Int), 1 + ds.length) := by
  have hcount : readNumber.countDigits (ds ++ b :: rest) = ds.length :=
    countDigits_append _ _ hd (by intro x hx; simp at hx; subst hx; exact hb)
  have hlen : ds.length ≠ 0 := by
    intro h; exact hne (List.eq_nil_of_length_eq_zero h)
  rw [readNumber]
  simp only [hcount, if_true, true_and]
  rw [if_neg (by simp), if_neg (by omega), List.take_append_of_le_length (Nat.le_refl _),
    List.take_length]

/-! ## Lemmas: byte comparison and key order -/

theorem compareVector_eq_cmpBytes (xs ys : List Nat) :
    compareVector xs ys = cmpBytes xs ys := by
  induction xs generalizing ys with
  | nil =>
    cases ys with
    | nil => simp [compareVector, cmpBytes, Nat.compare_eq_eq.mpr rfl]
    | cons y ys =>
      simp [compareVector, cmpBytes, Nat.compare_eq_lt.mpr (Nat.succ_pos _)]
  | cons x xs ih =>
    cases ys with
    | nil =>
      simp [compareVector, cmpBytes, Nat.compare_eq_gt.mpr (Nat.succ_pos _)]
    | cons y ys =>
      rw [compareVector, cmpBytes]
      rcases h : compare x y with h' | h' | h' <;> simp [ih]

theorem compareKey_eq_cmpKeyOrd (x y : BencodexKey) :
    compareKey x y = cmpKeyOrd x y := by
  cases x <;> cases y <;> simp [compareKey, cmpKeyOrd, compareVector_eq_cmpBytes]

theorem cmpBytes_self (a : List Nat) : cmpBytes a a = .eq := by
  induction a with
  | nil => rfl
  | cons x xs ih => simp [cmpBytes, Nat.compare_eq_eq.mpr rfl, ih]

theorem cmpBytes_eq_iff {a b : List Nat} : cmpBytes a b = .eq ↔ a = b := by
  constructor
  · intro h
    induction a generalizing b with
    | nil =>
      cases b with
      | nil => rfl
      | cons y ys => simp [cmpBytes] at h
    | cons x xs ih =>
      cases b with
      | nil => simp [cmpBytes] at h
      | cons y ys =>
        rw [cmpBytes] at h
        rcases hc : compare x y with h' | h' | h' <;> rw [hc] at h <;> simp at h
        have := Nat.compare_eq_eq.mp hc
        subst this
        rw [ih h]
  · intro h; subst h; exact cmpBytes_self a

theorem cmpBytes_swap (a b : List Nat) : (cmpBytes a b).swap = cmpBytes b a := by
  induction a generalizing b with
  | nil => cases b <;> rfl
  | cons x xs ih =>
    cases b with
    | nil => rfl
    | cons y ys =>
      rw [cmpBytes, cmpBytes, ← Nat.compare_swap x y]
      rcases hc : compare x y with h' | h' | h'
      · rfl
      · exact ih ys
      · rfl

theorem cmpBytes_lt_trans {a b c : List Nat} (h₁ : cmpBytes a b = .lt)
    (h₂ : cmpBytes b c = .lt) : cmpBytes a c = .lt := by
  induction a generalizing b c with
  | nil =>
    cases b with
    | nil => exact absurd h₁ (by simp [cmpBytes])
    | cons y ys =>
      cases c with
      | nil => exact absurd h₂ (by simp [cmpBytes])
      | cons z zs => simp [cmpBytes]
  | cons x xs ih =>
    cases b with
    | nil => exact absurd h₁ (by simp [cmpBytes])
    | cons y ys =>
      cases c with
      | nil => exact absurd h₂ (by simp [cmpBytes])
      | cons z zs =>
        rw [cmpBytes] at h₁ h₂ ⊢
        rcases hxy : compare x y with h' | h' | h' <;> rw [hxy] at h₁
        · rcases hyz : compare y z with h'' | h'' | h'' <;> rw [hyz] at h₂
          · rw [Nat.compare_eq_lt.mpr
              (Nat.lt_trans (Nat.compare_eq_lt.mp hxy) (Nat.compare_eq_lt.mp hyz))]
          · have := Nat.compare_eq_eq.mp hyz
            subst this
            rw [hxy]
          · simp at h₂
        · have hx := Nat.compare_eq_eq.mp hxy
          subst hx
          simp only [] at h₁
          rcases hyz : compare x z with h'' | h'' | h''
          · rfl
          · rw [hyz] at h₂
            have hz := Nat.compare_eq_eq.mp hyz
            subst hz
            exact ih h₁ h₂
          · rw [hyz] at h₂
            simp at h₂
        · simp at h₁

theorem cmpKeyOrd_eq_iff {a b : BencodexKey} : cmpKeyOrd a b = .eq ↔ a = b := by
  cases a <;> cases b <;> simp [cmpKeyOrd, cmpBytes_eq_iff]

theorem cmpKeyOrd_swap (a b : BencodexKey) : (cmpKeyOrd a b).swap = cmpKeyOrd b a := by
  cases a <;> cases b <;> simp [cmpKeyOrd, cmpBytes_swap] <;> rfl

theorem cmpKeyOrd_lt_trans {a b c : BencodexKey} (h₁ : cmpKeyOrd a b = .lt)
    (h₂ : cmpKeyOrd b c = .lt) : cmpKeyOrd a c = .lt := by
  cases a <;> cases b <;> cases c <;>
    simp [cmpKeyOrd] at h₁ h₂ ⊢ <;>
    exact cmpBytes_lt_trans h₁ h₂

theorem cmpKeyOrd_le_trans {a b c : BencodexKey} (h₁ : cmpKeyOrd a b ≠ .gt)
    (h₂ : cmpKeyOrd b c ≠ .gt) : cmpKeyOrd a c ≠ .gt := by
  rcases ha : cmpKeyOrd a b with h | h | h
  · rcases hb : cmpKeyOrd b c with h' | h' | h'
    · rw [cmpKeyOrd_lt_trans ha hb]; simp
    · have := cmpKeyOrd_eq_iff.mp hb; subst this; rw [ha]; simp
    · exact absurd hb h₂
  · have := cmpKeyOrd_eq_iff.mp ha; subst this; exact h₂
  · exact absurd ha h₁

theorem cmpKeyOrd_gt_iff {a b : BencodexKey} : cmpKeyOrd a b = .gt ↔ cmpKeyOrd b a = .lt := by
  constructor
  · intro h
    have := cmpKeyOrd_swap a b
    rw [h] at this
    exact this.symm
  · intro h
    have := cmpKeyOrd_swap b a
    rw [h] at this
    simpa using this.symm

theorem cmpBytes_strict_prefix (a b : List Nat) (h : b ≠ []) :
    cmpBytes a (a ++ b) = .lt := by
  induction a with
  | nil =>
    cases b with
    | nil => exact absurd rfl h
    | cons x xs => rfl
  | cons x xs ih =>
    rw [List.cons_append, cmpBytes, Nat.compare_eq_eq.mpr rfl]
    exact ih

/-! ## Lemmas: the dictionary sort -/

theorem keysStrictSorted_cons {p q : BencodexKey × BencodexValue}
    {r : List (BencodexKey × BencodexValue)} :
    keysStrictSorted (p :: q :: r) = true ↔
      cmpKeyOrd p.1 q.1 = .lt ∧ keysStrictSorted (q :: r) = true := by
  simp [keysStrictSorted]

theorem keysStrictSorted_pairwise {l : List (BencodexKey × BencodexValue)}
    (h : keysStrictSorted l = true) :
    List.Pairwise (fun p q => cmpKeyOrd p.1 q.1 = .lt) l := by
  induction l with
  | nil => simp
  | cons p r ih =>
    cases r with
    | nil => simp
    | cons q r₂ =>
      obtain ⟨h₁, h₂⟩ := keysStrictSorted_cons.mp h
      have hp := ih h₂
      constructor
      · intro x hx
        rcases List.mem_cons.mp hx with hx | hx
        · subst hx; exact h₁
        · exact cmpKeyOrd_lt_trans h₁ ((List.pairwise_cons.mp hp).1 x hx)
      · exact hp

theorem mem_insertPairBy {x p : BencodexKey × BencodexValue}
    {l : List (BencodexKey × BencodexValue)} :
    x ∈ insertPairBy p l ↔ x = p ∨ x ∈ l := by
  induction l with
  | nil => simp [insertPairBy]
  | cons q r ih =>
    rw [insertPairBy]
    by_cases hc : compareKey p.1 q.1 = .gt
    · rw [if_pos hc]
      simp [ih]
      tauto
    · rw [if_neg hc]
      simp

theorem pairwise_insertPairBy {p : BencodexKey × BencodexValue}
    {l : List (BencodexKey × BencodexValue)}
    (h : List.Pairwise (fun a b => compareKey a.1 b.1 ≠ .gt) l) :
    List.Pairwise (fun a b => compareKey a.1 b.1 ≠ .gt) (insertPairBy p l) := by
  induction l with
  | nil => simp [insertPairBy]
  | cons q r ih =>
    rw [insertPairBy]
    obtain ⟨hq, hr⟩ := List.pairwise_cons.mp h
    by_cases hc : compareKey p.1 q.1 = .gt
    · rw [if_pos hc]
      constructor
      · intro x hx
        rcases mem_insertPairBy.mp hx with hx | hx
        · subst hx
          rw [compareKey_eq_cmpKeyOrd] at hc ⊢
          rw [cmpKeyOrd_gt_iff.mp hc]
          simp
        · exact hq x hx
      · exact ih hr
    · rw [if_neg hc]
      constructor
      · intro x hx
        rcases List.mem_cons.mp hx with hx | hx
        · subst hx; exact hc
        · rw [compareKey_eq_cmpKeyOrd] at hc ⊢
          have hqx := hq x hx
          rw [compareKey_eq_cmpKeyOrd] at hqx
          exact cmpKeyOrd_le_trans hc hqx
      · exact h

theorem pairwise_sortPairs (l : List (BencodexKey × BencodexValue)) :
    List.Pairwise (fun a b => compareKey a.1 b.1 ≠ .gt) (sortPairs l) := by
  induction l with
  | nil => simp [sortPairs]
  | cons p r ih => exact pairwise_insertPairBy ih

theorem sortPairs_sorted_id {l : List (BencodexKey × BencodexValue)}
    (h : keysStrictSorted l = true) : sortPairs l = l := by
  induction l with
  | nil => rfl
  | cons p r ih =>
    cases r with
    | nil => rfl
    | cons q r₂ =>
      obtain ⟨h₁, h₂⟩ := keysStrictSorted_cons.mp h
      rw [sortPairs, ih h₂, insertPairBy,
        if_neg (by rw [compareKey_eq_cmpKeyOrd, h₁]; simp)]

theorem sortPairs_perm (l : List (BencodexKey × BencodexValue)) :
    (sortPairs l).Perm l := by
  induction l with
  | nil => rfl
  | cons p r ih =>
    rw [sortPairs]
    have hip : (insertPairBy p (sortPairs r)).Perm (p :: sortPairs r) := by
      clear ih
      induction sortPairs r with
      | nil => rfl
      | cons q r₂ ih₂ =>
        rw [insertPairBy]
        by_cases hc : compareKey p.1 q.1 = .gt
        · rw [if_pos hc]
          exact (ih₂.cons q).trans (List.Perm.swap p q r₂)
        · rw [if_neg hc]
    exact hip.trans (ih.cons p)

/-! ## Claim C3: the canonical key order -/

/-- C3: the canonical key order used by the dictionary encoder
(`compare_key`) is a total order on `BencodexKey` in which every `Binary`
key is strictly less than every `Text` key regardless of content, two
`Binary` keys compare by byte-wise lexicographic order of their raw bytes
(a strict prefix is less), and two `Text` keys compare by byte-wise
lexicographic order of their UTF-8 encodings; dictionary entries are
emitted in exactly this order (the encoder lays out `sortPairs m`, whose
keys are non-decreasing in `compare_key` for every input and strictly
increasing for every actual `BTreeMap`). -/
theorem c3_canonical_key_order :
    (∀ b t, compareKey (.binary b) (.text t) = .lt) ∧
    (∀ t b, compareKey (.text t) (.binary b) = .gt) ∧
    (∀ a b, compareKey (.binary a) (.binary b) = cmpBytes a b) ∧
    (∀ s t, compareKey (.text s) (.text t) = cmpBytes s t) ∧
    (∀ a b, b ≠ [] → cmpBytes a (a ++ b) = .lt) ∧
    (∀ k₁ k₂, compareKey k₁ k₂ = .eq ↔ k₁ = k₂) ∧
    (∀ k₁ k₂, (compareKey k₁ k₂).swap = compareKey k₂ k₁) ∧
    (∀ k₁ k₂ k₃, compareKey k₁ k₂ = .lt → compareKey k₂ k₃ = .lt →
      compareKey k₁ k₃ = .lt) ∧
    (∀ m, encChunks (.dictionary m) = [[100]] ++ encChunksEntries (sortPairs m) ++ [[101]]) ∧
    (∀ m, List.Pairwise (fun p q => compareKey p.1 q.1 ≠ .gt) (sortPairs m)) ∧
    (∀ m, keysStrictSorted m = true →
      List.Pairwise (fun p q => compareKey p.1 q.1 = .lt) (sortPairs m)) := by
  refine ⟨fun b t => rfl, fun t b => rfl,
    fun a b => compareVector_eq_cmpBytes a b,
    fun s t => compareVector_eq_cmpBytes s t,
    cmpBytes_strict_prefix,
    fun k₁ k₂ => by rw [compareKey_eq_cmpKeyOrd]; exact cmpKeyOrd_eq_iff,
    fun k₁ k₂ => by rw [compareKey_eq_cmpKeyOrd, compareKey_eq_cmpKeyOrd]; exact cmpKeyOrd_swap _ _,
    fun k₁ k₂ k₃ h₁ h₂ => by
      rw [compareKey_eq_cmpKeyOrd] at h₁ h₂ ⊢
      exact cmpKeyOrd_lt_trans h₁ h₂,
    fun m => by rw [encChunks],
    pairwise_sortPairs,
    fun m hm => ?_⟩
  rw [sortPairs_sorted_id hm]
  exact (keysStrictSorted_pairwise hm).imp
    (fun h => by rw [compareKey_eq_cmpKeyOrd]; exact h)

/-- Witness for C3: the components with hypotheses applied at concrete
keys and a concrete two-entry map. -/
theorem c3_canonical_key_order_witness :
    cmpBytes [97] ([97] ++ [98]) = .lt ∧
    compareKey (.binary [49]) (.binary [51]) = .lt ∧
    List.Pairwise (fun p q => compareKey p.1 q.1 = .lt)
      (sortPairs [(.binary [97], .null), (.text [], .null)]) :=
  ⟨c3_canonical_key_order.2.2.2.2.1 [97] [98] (by decide),
   c3_canonical_key_order.2.2.2.2.2.2.2.1 (.binary [49]) (.binary [50]) (.binary [51])
     (by decide) (by decide),
   (c3_canonical_key_order.2.2.2.2.2.2.2.2.2.2) _ (by decide)⟩

/-! ## Claim C10: `compare_key` vs the derived `Ord` -/

/-- C10: for every pair of `BencodexKey` values the standalone comparator
`compare_key` returns exactly the ordering of the derived `Ord` instance
on `BencodexKey`, so the encoder's explicit sort is the identity on the
`BTreeMap`'s iteration order (a `keysStrictSorted` entry list). -/
theorem c10_compare_key_matches_derived_ord :
    (∀ x y, compareKey x y = cmpKeyOrd x y) ∧
    (∀ m, keysStrictSorted m = true → sortPairs m = m) :=
  ⟨compareKey_eq_cmpKeyOrd, fun _ hm => sortPairs_sorted_id hm⟩

/-- Witness for C10: the sort leaves a concrete two-entry map untouched. -/
theorem c10_compare_key_matches_derived_ord_witness :
    sortPairs [(.binary [98], .null), (.text [97], .boolean true)] =
      [(.binary [98], .null), (.text [97], .boolean true)] :=
  c10_compare_key_matches_derived_ord.2 _ (by decide)

/-! ## Claim C5: decoding is total as a function, but panics exist -/

/-- C5 (failing input): decoding `d1:an1:ane` — a dictionary whose two
entries carry the equal keys `Binary(b"a")` — hits the `todo!()` panic in
`decode_dict_impl` instead of returning a typed `DecodeError` or
overwriting deterministically. -/
theorem c5_duplicate_key_panics :
    vecDecode [100, 49, 58, 97, 110, 49, 58, 97, 110, 101] = .panicked := by decide

/-! ## Claim C6: the `u-1:` boundary error -/

/-- C6 (amended): decoding `u-1:` fails with
`UnexpectedTokenError { token: b'-', point: 1 }` — offset 1 is the 0-based
position of the sign character. -/
theorem c6_negative_length_error :
    vecDecode [117, 45, 49, 58] = .err (.unexpectedTokenError 45 1) := by decide

/-- Counterexample for C6 as stated: the reported offset is not 2. -/
theorem c6_negative_length_offset_not_two :
    vecDecode [117, 45, 49, 58] ≠ .err (.unexpectedTokenError 45 2) := by decide

/-! ## Lemmas: decoder plumbing -/

theorem dbind_def {α β : Type} (x : DRes α) (f : α → DRes β) :
    x >>= f = DRes.bind x f := rfl

theorem getOr_ok {v : List Nat} {i : Nat} (h : i < v.length) : getOr v i = .ok v[i] := by
  simp [getOr, List.getElem?_eq_getElem h]

theorem getOr_append_mid (pre : List Nat) (b : Nat) (post : List Nat) :
    getOr (pre ++ b :: post) pre.length = .ok b := by
  rw [getOr, List.getElem?_append_right (Nat.le_refl _)]
  simp

theorem expectTok_self (b point : Nat) : expectTok b b point = .ok () := by
  simp [expectTok]

theorem toUsize_coe {n : Nat} (h : n ≤ usizeMax) : toUsize (n : Int) = some n := by
  rw [toUsize, if_pos ⟨Int.natCast_nonneg n, by exact_mod_cast h⟩]
  simp

theorem decodeImpl_digit_dispatch (fuel : Nat) (v : List Nat) (start : Nat)
    (h : start < v.length) (hd : isDigit (v.getD start 0) = true) :
    decodeImpl (fuel + 1) v start = decodeByteStringImpl v start := by
  rw [decodeImpl, if_neg (by omega)]
  obtain ⟨hlo, hhi⟩ : 48 ≤ v.getD start 0 ∧ v.getD start 0 ≤ 57 := by
    simpa [isDigit] using hd
  set b := v.getD start 0 with hb
  interval_cases b <;> simp [hd]

/-! ## Claim C4: truncated declared lengths -/

theorem decodeByteStringImpl_truncated (ds p : List Nat) (hne : ds ≠ [])
    (hd : ∀ b ∈ ds, isDigit b = true) (hmax : decimalVal ds ≤ usizeMax)
    (hshort : p.length < decimalVal ds) :
    decodeByteStringImpl (ds ++ 58 :: p) 0 = .err .invalidBencodexValueError := by
  simp only [decodeByteStringImpl, List.drop_zero,
    readNumber_digits ds 58 p hne hd rfl, Nat.zero_add, getOr_append_mid,
    dbind_def, DRes.bind, expectTok_self, toUsize_coe hmax,
    List.length_append, List.length_cons]
  rw [if_pos (by omega)]

theorem decodeUnicodeStringImpl_truncated (ds p : List Nat) (hne : ds ≠ [])
    (hd : ∀ b ∈ ds, isDigit b = true) (hmax : decimalVal ds ≤ usizeMax)
    (hshort : p.length < decimalVal ds) :
    decodeUnicodeStringImpl (117 :: (ds ++ 58 :: p)) 0 = .err .invalidBencodexValueError := by
  have hdlen : 1 ≤ ds.length := List.length_pos.mpr hne
  have hg : getOr (117 :: (ds ++ 58 :: p)) 0 = .ok 117 := getOr_append_mid [] 117 _
  have hg₂ : getOr (117 :: (ds ++ 58 :: p)) (1 + ds.length) = .ok 58 := by
    rw [show (117 :: (ds ++ 58 :: p)) = ([117] ++ ds) ++ 58 :: p from by simp,
      show 1 + ds.length = ([117] ++ ds).length from by simp; omega]
    exact getOr_append_mid _ _ _
  simp only [decodeUnicodeStringImpl, hg, dbind_def, DRes.bind, expectTok_self,
    List.length_cons, List.length_append, Nat.zero_add]
  rw [if_neg (by omega)]
  rw [show (117 :: (ds ++ 58 :: p)).drop 1 = ds ++ 58 :: p from by simp,
    readNumber_digits ds 58 p hne hd rfl]
  simp only [if_neg (show ¬((decimalVal ds : Int) < 0) from by simp), hg₂,
    dbind_def, DRes.bind, expectTok_self, toUsize_coe hmax,
    List.length_cons, List.length_append]
  rw [if_pos (by omega)]

/-- C4 (amended): for every input in which a byte-string (or `'u'` text)
production declares a payload length that fits in `usize` and exceeds the
number of bytes remaining after the `':'` separator, decode fails with
`InvalidBencodexValueError` and never reads past the end of the buffer;
declared lengths above `usize::MAX` instead hit the
`to_usize().unwrap()` panic (see the counterexample). -/
theorem c4_truncated_length_invalid (ds p : List Nat) (hne : ds ≠ [])
    (hd : ∀ b ∈ ds, isDigit b = true) (hmax : decimalVal ds ≤ usizeMax)
    (hshort : p.length < decimalVal ds) :
    vecDecode (ds ++ 58 :: p) = .err .invalidBencodexValueError ∧
    vecDecode (117 :: (ds ++ 58 :: p)) = .err .invalidBencodexValueError := by
  obtain ⟨d, ds', rfl⟩ : ∃ d ds', ds = d :: ds' := by
    cases ds with
    | nil => exact absurd rfl hne
    | cons d ds' => exact ⟨d, ds', rfl⟩
  constructor
  · rw [vecDecode]
    rw [show 3 * ((d :: ds') ++ 58 :: p).length + 3
        = (3 * ((d :: ds') ++ 58 :: p).length + 2) + 1 from by omega]
    rw [decodeImpl_digit_dispatch _ _ _ (by simp)
      (by simpa using hd d (List.mem_cons_self _ _))]
    rw [decodeByteStringImpl_truncated _ p hne hd hmax hshort]
  · rw [vecDecode]
    rw [show 3 * (117 :: ((d :: ds') ++ 58 :: p)).length + 3
        = (3 * (117 :: ((d :: ds') ++ 58 :: p)).length + 2) + 1 from by omega]
    rw [decodeImpl, if_neg (by simp)]
    rw [show (117 :: ((d :: ds') ++ 58 :: p)).getD 0 0 = 117 from rfl]
    rw [decodeUnicodeStringImpl_truncated _ p hne hd hmax hshort]

/-- Witness for C4 (amended): `5:hi` declares five payload bytes with two
remaining. -/
theorem c4_truncated_length_invalid_witness :
    vecDecode [53, 58, 104, 105] = .err .invalidBencodexValueError ∧
    vecDecode [117, 53, 58, 104, 105] = .err .invalidBencodexValueError :=
  c4_truncated_length_invalid [53] [104, 105] (by decide) (by decide) (by decide) (by decide)

/-! ## Claim C8: encoder errors come from the sink alone -/

theorem runChunksFull_clean (sink : Nat → Bool) (chunks : List (List Nat)) (calls : Nat)
    (out : List Nat) (h : ∀ k, calls < k → k ≤ calls + chunks.length → sink k = false) :
    runChunksFull sink chunks calls out = (.ok (calls + chunks.length), out ++ chunks.flatten) := by
  induction chunks generalizing calls out with
  | nil => simp [runChunksFull]
  | cons c rest ih =>
    rw [runChunksFull, if_neg (by
      rw [h (calls + 1) (by omega) (by simp only [List.length_cons]; omega)]
      simp)]
    rw [ih (calls + 1) (out ++ c)
      (fun k h₁ h₂ => h k (by omega) (by simp only [List.length_cons]; omega))]
    simp
    omega

theorem runChunksFull_error_iff (sink : Nat → Bool) (chunks : List (List Nat)) (calls : Nat)
    (out : List Nat) :
    (runChunksFull sink chunks calls out).1 = .error () ↔
      ∃ k, k < chunks.length ∧ sink (calls + k + 1) = true := by
  induction chunks generalizing calls out with
  | nil => simp [runChunksFull]
  | cons c rest ih =>
    rw [runChunksFull]
    by_cases hs : sink (calls + 1) = true
    · rw [if_pos hs]
      constructor
      · intro _
        exact ⟨0, by simp, by simpa using hs⟩
      · intro _
        rfl
    · rw [if_neg hs, ih (calls + 1) (out ++ c)]
      constructor
      · rintro ⟨k, hk, hsk⟩
        exact ⟨k + 1, by simp; omega, by convert hsk using 2; omega⟩
      · rintro ⟨k, hk, hsk⟩
        cases k with
        | zero => exact absurd (by simpa using hsk) (by simpa using hs)
        | succ k =>
          exact ⟨k, by simp at hk; omega, by convert hsk using 2; omega⟩

theorem runChunksFull_first_fail (sink : Nat → Bool) (chunks : List (List Nat))
    (calls : Nat) (out : List Nat) (k : Nat) (hk : k < chunks.length)
    (hfail : sink (calls + k + 1) = true)
    (hbefore : ∀ j, j < k → sink (calls + j + 1) = false) :
    runChunksFull sink chunks calls out = (.error (), out ++ (chunks.take k).flatten) := by
  induction chunks generalizing k calls out with
  | nil => simp at hk
  | cons c rest ih =>
    cases k with
    | zero =>
      rw [runChunksFull, if_pos (by simpa using hfail)]
      simp
    | succ k =>
      rw [runChunksFull, if_neg (by rw [hbefore 0 (by omega)]; simp)]
      rw [ih (calls + 1) (out ++ c) k (by simp at hk; omega)
        (by convert hfail using 2; omega)
        (fun j hj => by
          have := hbefore (j + 1) (by omega)
          convert this using 2
          omega)]
      simp

/-- C8: for every `BencodexValue` and every output sink, `Encode::encode`
returns an error if and only if one of its write calls to the sink fails;
a sink that never fails receives the full canonical encoding (value
content never causes a failure); and the first sink failure is returned
at once, with exactly the chunks of the preceding successful calls
written and nothing after. -/
theorem c8_encode_fails_iff_sink_fails (v : BencodexValue) (sink : Nat → Bool) :
    ((∀ k, sink k = false) →
      encodeTo v sink = (.ok (encChunks v).length, encBytes v)) ∧
    ((encodeTo v sink).1 = .error () ↔
      ∃ k, k < (encChunks v).length ∧ sink (k + 1) = true) ∧
    (∀ k, k < (encChunks v).length → sink (k + 1) = true →
      (∀ j, j < k → sink (j + 1) = false) →
      encodeTo v sink = (.error (), ((encChunks v).take k).flatten)) := by
  refine ⟨fun h => ?_, ?_, fun k hk hf hb => ?_⟩
  · rw [encodeTo, runChunksFull_clean sink _ 0 [] (fun k _ _ => h k)]
    simp [encBytes]
  · rw [encodeTo, runChunksFull_error_iff]
    simp
  · rw [encodeTo, runChunksFull_first_fail sink _ 0 [] k hk (by simpa using hf)
      (fun j hj => by simpa using hb j hj)]
    simp

/-! ## Lemmas: shape of the canonical encoding -/

theorem encBytes_binary (x : List Nat) :
    encBytes (.binary x) = natDecimal x.length ++ 58 :: x := by
  simp [encBytes, encChunks]

theorem encBytes_text (s : List Nat) :
    encBytes (.text s) = 117 :: (natDecimal s.length ++ 58 :: s) := by
  simp [encBytes, encChunks]

theorem encBytes_boolean (b : Bool) :
    encBytes (.boolean b) = [if b then 116 else 102] := by
  simp [encBytes, encChunks]

theorem encBytes_number (n : Int) :
    encBytes (.number n) = 105 :: (intDecimal n ++ [101]) := by
  simp [encBytes, encChunks]

theorem encBytes_null : encBytes .null = [110] := by
  simp [encBytes, encChunks]

theorem encBytes_list (xs : List BencodexValue) :
    encBytes (.list xs) = 108 :: ((encChunksList xs).flatten ++ [101]) := by
  simp [encBytes, encChunks]

theorem encBytes_dictionary (m : List (BencodexKey × BencodexValue)) :
    encBytes (.dictionary m)
      = 100 :: ((encChunksEntries (sortPairs m)).flatten ++ [101]) := by
  simp [encBytes, encChunks]

theorem bodyList_nil : (encChunksList []).flatten = ([] : List Nat) := by
  simp [encChunksList]

theorem bodyList_cons (x : BencodexValue) (r : List BencodexValue) :
    (encChunksList (x :: r)).flatten = encBytes x ++ (encChunksList r).flatten := by
  simp [encChunksList, encBytes]

theorem bodyEntries_nil : (encChunksEntries []).flatten = ([] : List Nat) := by
  simp [encChunksEntries]

theorem bodyEntries_cons (k : BencodexKey) (v : BencodexValue)
    (r : List (BencodexKey × BencodexValue)) :
    (encChunksEntries ((k, v) :: r)).flatten
      = encBytes (keyToValue k) ++ (encBytes v ++ (encChunksEntries r).flatten) := by
  simp [encChunksEntries, encBytes]

theorem natDecimal_cons (n : Nat) :
    ∃ d ds, natDecimal n = d :: ds ∧ isDigit d = true := by
  rcases h : natDecimal n with _ | ⟨d, ds⟩
  · exact absurd h (natDecimal_ne_nil n)
  · exact ⟨d, ds, rfl, natDecimal_digits d (h ▸ List.mem_cons_self d ds)⟩

theorem encBytes_head_spec (v : BencodexValue) :
    ∃ b t, encBytes v = b :: t ∧ b ≠ 101 := by
  cases v with
  | binary x =>
    obtain ⟨d, ds, hnd, hdig⟩ := natDecimal_cons x.length
    refine ⟨d, ds ++ 58 :: x, ?_, isDigit_ne_101 hdig⟩
    rw [encBytes_binary, hnd]
    simp
  | text s => exact ⟨117, _, encBytes_text s, by omega⟩
  | boolean b =>
    cases b
    · exact ⟨102, [], encBytes_boolean false, by omega⟩
    · exact ⟨116, [], encBytes_boolean true, by omega⟩
  | number n => exact ⟨105, _, encBytes_number n, by omega⟩
  | list xs => exact ⟨108, _, encBytes_list xs, by omega⟩
  | dictionary m => exact ⟨100, _, encBytes_dictionary m, by omega⟩
  | null => exact ⟨110, [], encBytes_null, by omega⟩

theorem encBytes_ne_nil (v : BencodexValue) : encBytes v ≠ [] := by
  obtain ⟨b, t, h, _⟩ := encBytes_head_spec v
  rw [h]
  simp

theorem getD_append_mid (pre : List Nat) (b : Nat) (post : List Nat) :
    (pre ++ b :: post).getD pre.length 0 = b := by
  rw [List.getD_eq_getElem?_getD, List.getElem?_append_right (Nat.le_refl _)]
  simp

/-! ## Lemmas: each production decodes its own encoding -/

theorem decodeImpl_encBinary (fuel : Nat) (x pre post : List Nat)
    (hx : x.length ≤ usizeMax) :
    decodeImpl (fuel + 1) (pre ++ encBytes (.binary x) ++ post) pre.length
      = .ok (.binary x, (encBytes (.binary x)).length) := by
  obtain ⟨d, ds, hnd, hdig⟩ := natDecimal_cons x.length
  have hshape : pre ++ encBytes (.binary x) ++ post
      = pre ++ (natDecimal x.length ++ 58 :: (x ++ post)) := by
    rw [encBytes_binary]
    simp
  have hlt : pre.length < (pre ++ encBytes (.binary x) ++ post).length := by
    rw [hshape, hnd]
    simp
  have hgd : (pre ++ encBytes (.binary x) ++ post).getD pre.length 0 = d := by
    rw [hshape, hnd, List.cons_append, getD_append_mid]
  rw [decodeImpl_digit_dispatch fuel _ _ hlt (by rw [hgd]; exact hdig)]
  rw [decodeByteStringImpl]
  rw [show (pre ++ encBytes (.binary x) ++ post).drop pre.length
      = natDecimal x.length ++ 58 :: (x ++ post) from by rw [hshape, List.drop_left]]
  rw [readNumber_digits _ 58 _ (natDecimal_ne_nil _) natDecimal_digits rfl,
    decimalVal_natDecimal]
  have hg58 : getOr (pre ++ encBytes (.binary x) ++ post)
      (pre.length + (natDecimal x.length).length) = .ok 58 := by
    rw [show pre ++ encBytes (.binary x) ++ post
        = (pre ++ natDecimal x.length) ++ 58 :: (x ++ post) from by rw [hshape]; simp,
      show pre.length + (natDecimal x.length).length
        = (pre ++ natDecimal x.length).length from by simp]
    exact getOr_append_mid _ _ _
  simp only [hg58, dbind_def, DRes.bind, expectTok_self, toUsize_coe hx]
  rw [if_neg (by
    rw [hshape]
    simp
    omega)]
  rw [show (pre ++ encBytes (.binary x) ++ post).drop
        (pre.length + (natDecimal x.length).length + 1)
      = x ++ post from by
    rw [show pre ++ encBytes (.binary x) ++ post
        = (pre ++ natDecimal x.length ++ [58]) ++ (x ++ post) from by rw [hshape]; simp,
      show pre.length + (natDecimal x.length).length + 1
        = (pre ++ natDecimal x.length ++ [58]).length from by simp; omega]
    exact List.drop_left _ _]
  rw [List.take_left' rfl]
  rw [encBytes_binary]
  simp
  omega

theorem decodeImpl_encText (fuel : Nat) (s pre post : List Nat)
    (hs : s.length ≤ usizeMax) (hutf : utf8Valid s = true) :
    decodeImpl (fuel + 1) (pre ++ encBytes (.text s) ++ post) pre.length
      = .ok (.text s, (encBytes (.text s)).length) := by
  have hshape : pre ++ encBytes (.text s) ++ post
      = pre ++ 117 :: (natDecimal s.length ++ 58 :: (s ++ post)) := by
    rw [encBytes_text]
    simp
  have hdpos : 1 ≤ (natDecimal s.length).length := by
    obtain ⟨d, ds, hnd, _⟩ := natDecimal_cons s.length
    rw [hnd]
    simp
  have hlen : (pre ++ encBytes (.text s) ++ post).length
      = pre.length + 1 + (natDecimal s.length).length + 1 + s.length + post.length := by
    rw [hshape]
    simp
    omega
  have hgd : (pre ++ encBytes (.text s) ++ post).getD pre.length 0 = 117 := by
    rw [hshape, getD_append_mid]
  rw [decodeImpl, if_neg (by omega)]
  simp only [hgd]
  have hg117 : getOr (pre ++ encBytes (.text s) ++ post) pre.length = .ok 117 := by
    rw [hshape]
    exact getOr_append_mid _ _ _
  rw [decodeUnicodeStringImpl]
  simp only [hg117, dbind_def, DRes.bind, expectTok_self]
  rw [if_neg (by omega)]
  rw [show (pre ++ encBytes (.text s) ++ post).drop (pre.length + 1)
      = natDecimal s.length ++ 58 :: (s ++ post) from by
    rw [show pre ++ encBytes (.text s) ++ post
        = (pre ++ [117]) ++ (natDecimal s.length ++ 58 :: (s ++ post)) from by
        rw [hshape]; simp,
      show pre.length + 1 = (pre ++ [117]).length from by simp]
    exact List.drop_left _ _]
  rw [readNumber_digits _ 58 _ (natDecimal_ne_nil _) natDecimal_digits rfl,
    decimalVal_natDecimal]
  have hg58 : getOr (pre ++ encBytes (.text s) ++ post)
      (pre.length + 1 + (natDecimal s.length).length) = .ok 58 := by
    rw [show pre ++ encBytes (.text s) ++ post
        = (pre ++ 117 :: natDecimal s.length) ++ 58 :: (s ++ post) from by
        rw [hshape]; simp,
      show pre.length + 1 + (natDecimal s.length).length
        = (pre ++ 117 :: natDecimal s.length).length from by simp; omega]
    exact getOr_append_mid _ _ _
  simp only [if_neg (show ¬((s.length : Int) < 0) from by simp), hg58,
    dbind_def, DRes.bind, expectTok_self, toUsize_coe hs]
  rw [if_neg (by omega)]
  rw [show (pre ++ encBytes (.text s) ++ post).drop
        (pre.length + 1 + (natDecimal s.length).length + 1) = s ++ post from by
    rw [show pre ++ encBytes (.text s) ++ post
        = (pre ++ 117 :: (natDecimal s.length ++ [58])) ++ (s ++ post) from by
        rw [hshape]; simp,
      show pre.length + 1 + (natDecimal s.length).length + 1
        = (pre ++ 117 :: (natDecimal s.length ++ [58])).length from by simp; omega]
    exact List.drop_left _ _]
  rw [List.take_left' rfl, hutf]
  rw [if_pos rfl, encBytes_text]
  simp
  omega

theorem decodeImpl_encNumber (fuel : Nat) (n : Int) (pre post : List Nat) :
    decodeImpl (fuel + 1) (pre ++ encBytes (.number n) ++ post) pre.length
      = .ok (.number n, (encBytes (.number n)).length) := by
  have hshape : pre ++ encBytes (.number n) ++ post
      = pre ++ 105 :: (intDecimal n ++ 101 :: post) := by
    rw [encBytes_number]
    simp
  have hread : readNumber (intDecimal n ++ 101 :: post) = some (n, (intDecimal n).length) := by
    rw [intDecimal]
    by_cases hn : n < 0
    · rw [if_pos hn, List.cons_append,
        readNumber_neg_digits _ 101 _ (natDecimal_ne_nil _) natDecimal_digits rfl,
        decimalVal_natDecimal]
      congr 1
      rw [Prod.mk.injEq]
      exact ⟨by omega, by simp; omega⟩
    · rw [if_neg hn,
        readNumber_digits _ 101 _ (natDecimal_ne_nil _) natDecimal_digits rfl,
        decimalVal_natDecimal]
      congr 1
      rw [Prod.mk.injEq]
      exact ⟨by omega, rfl⟩
  have hdpos : 1 ≤ (intDecimal n).length := by
    rw [intDecimal]
    by_cases hn : n < 0
    · rw [if_pos hn]
      simp
    · rw [if_neg hn]
      obtain ⟨d, ds, hnd, _⟩ := natDecimal_cons n.toNat
      rw [hnd]
      simp
  have hlen : (pre ++ encBytes (.number n) ++ post).length
      = pre.length + 1 + (intDecimal n).length + 1 + post.length := by
    rw [hshape]
    simp
    omega
  have hgd : (pre ++ encBytes (.number n) ++ post).getD pre.length 0 = 105 := by
    rw [hshape, getD_append_mid]
  rw [decodeImpl, if_neg (by omega)]
  simp only [hgd]
  rw [decodeNumberImpl, if_neg (by omega)]
  rw [show (pre ++ encBytes (.number n) ++ post).drop (pre.length + 1)
      = intDecimal n ++ 101 :: post from by
    rw [show pre ++ encBytes (.number n) ++ post
        = (pre ++ [105]) ++ (intDecimal n ++ 101 :: post) from by rw [hshape]; simp,
      show pre.length + 1 = (pre ++ [105]).length from by simp]
    exact List.drop_left _ _]
  rw [hread]
  have hg101 : getOr (pre ++ encBytes (.number n) ++ post)
      (pre.length + 1 + (intDecimal n).length) = .ok 101 := by
    rw [show pre ++ encBytes (.number n) ++ post
        = (pre ++ 105 :: intDecimal n) ++ 101 :: post from by rw [hshape]; simp,
      show pre.length + 1 + (intDecimal n).length
        = (pre ++ 105 :: intDecimal n).length from by simp; omega]
    exact getOr_append_mid _ _ _
  simp only [hg101, dbind_def, DRes.bind, expectTok_self]
  rw [encBytes_number]
  simp
  omega

theorem decodeImpl_encBoolean (fuel : Nat) (b : Bool) (pre post : List Nat) :
    decodeImpl (fuel + 1) (pre ++ encBytes (.boolean b) ++ post) pre.length
      = .ok (.boolean b, (encBytes (.boolean b)).length) := by
  cases b
  · rw [show encBytes (.boolean false) = [102] from by rw [encBytes_boolean]; simp]
    rw [decodeImpl, if_neg (by simp), List.append_assoc, List.singleton_append]
    simp only [getD_append_mid]
    rfl
  · rw [show encBytes (.boolean true) = [116] from by rw [encBytes_boolean]; simp]
    rw [decodeImpl, if_neg (by simp), List.append_assoc, List.singleton_append]
    simp only [getD_append_mid]
    rfl

theorem decodeImpl_encNull (fuel : Nat) (pre post : List Nat) :
    decodeImpl (fuel + 1) (pre ++ encBytes .null ++ post) pre.length
      = .ok (.null, (encBytes .null).length) := by
  rw [encBytes_null]
  rw [decodeImpl, if_neg (by simp), List.append_assoc, List.singleton_append]
  simp only [getD_append_mid]
  rfl

theorem mapInsert_append (map : List (BencodexKey × BencodexValue)) (k : BencodexKey)
    (v : BencodexValue) (h : ∀ p ∈ map, cmpKeyOrd p.1 k = .lt) :
    mapInsert map k v = (map ++ [(k, v)], none) := by
  induction map with
  | nil => rfl
  | cons q rest ih =>
    have hq := h q (List.mem_cons_self _ _)
    rw [mapInsert, cmpKeyOrd_gt_iff.mpr hq]
    rw [ih (fun p hp => h p (List.mem_cons_of_mem _ hp))]
    simp

theorem keyOK_WF {k : BencodexKey} (h : keyOK k = true) : WF (keyToValue k) = true := by
  cases k <;> simpa [keyOK, keyToValue, WF] using h

theorem dres_ok_inj {α : Type} {a b : α} (h : (DRes.ok a : DRes α) = DRes.ok b) : a = b := by
  cases h
  rfl

/-- The joint correctness statement for the decoder on encoder output:
each value, list body and (sorted) dictionary body decodes from its
canonical encoding in any surrounding buffer, given enough fuel. -/
theorem decode_round_aux (fuel : Nat) :
    (∀ v pre post, WF v = true → 3 * (encBytes v).length ≤ fuel →
      decodeImpl fuel (pre ++ encBytes v ++ post) pre.length
        = .ok (v, (encBytes v).length)) ∧
    (∀ xs pre post start tsize acc, start + tsize = pre.length → WFlist xs = true →
      3 * (encChunksList xs).flatten.length + 4 ≤ fuel →
      decodeListEntries fuel (pre ++ (encChunksList xs).flatten ++ 101 :: post) start tsize acc
        = .ok (.list (acc ++ xs), tsize + (encChunksList xs).flatten.length + 1)) ∧
    (∀ l map pre post start tsize, start + tsize = pre.length → WFentries l = true →
      List.Pairwise (fun a b => cmpKeyOrd a.1 b.1 = .lt) (map ++ l) →
      3 * (encChunksEntries l).flatten.length + 4 ≤ fuel →
      decodeDictEntries fuel (pre ++ (encChunksEntries l).flatten ++ 101 :: post) start tsize map
        = .ok (.dictionary (map ++ l), tsize + (encChunksEntries l).flatten.length + 1)) := by
  induction fuel using Nat.strong_induction_on with
  | _ fuel ih =>
    refine ⟨?_, ?_, ?_⟩
    · -- decodeImpl on an encoded value
      intro v pre post hWF hfuel
      have hpos : 1 ≤ (encBytes v).length :=
        List.length_pos.mpr (encBytes_ne_nil v)
      obtain ⟨f, rfl⟩ : ∃ f, fuel = f + 1 := ⟨fuel - 1, by omega⟩
      cases v with
      | binary x =>
        have hx : x.length ≤ usizeMax := by
          simp [WF] at hWF
          exact hWF.2
        exact decodeImpl_encBinary f x pre post hx
      | text s =>
        have hs : s.length ≤ usizeMax ∧ utf8Valid s = true := by
          simp [WF] at hWF
          exact ⟨hWF.2, hWF.1⟩
        exact decodeImpl_encText f s pre post hs.1 hs.2
      | number n => exact decodeImpl_encNumber f n pre post
      | boolean b => exact decodeImpl_encBoolean f b pre post
      | null => exact decodeImpl_encNull f pre post
      | list xs =>
        have hxs : WFlist xs = true := by simpa [WF] using hWF
        have hlenv : (encBytes (.list xs)).length
            = (encChunksList xs).flatten.length + 2 := by
          rw [encBytes_list]
          simp
        have hshape : pre ++ encBytes (.list xs) ++ post
            = pre ++ 108 :: ((encChunksList xs).flatten ++ 101 :: post) := by
          rw [encBytes_list]
          simp
        rw [decodeImpl, if_neg (by
          rw [show (pre ++ encBytes (.list xs) ++ post).length
              = pre.length + (encBytes (.list xs)).length + post.length from by
            simp
            omega]
          omega)]
        rw [show (pre ++ encBytes (.list xs) ++ post).getD pre.length 0 = 108 from by
          rw [hshape, getD_append_mid]]
        obtain ⟨g, hg⟩ : ∃ g, f = g + 1 := ⟨f - 1, by omega⟩
        rw [hg, decodeListImpl]
        rw [show getOr (pre ++ encBytes (.list xs) ++ post) pre.length = .ok 108 from by
          rw [hshape]; exact getOr_append_mid _ _ _]
        rw [dbind_def, DRes.bind, expectTok_self, dbind_def, DRes.bind]
        have hq := (ih g (by omega)).2.1 xs (pre ++ [108]) post pre.length 1 []
          (by simp) hxs (by omega)
        rw [show (pre ++ [108]) ++ (encChunksList xs).flatten ++ 101 :: post
            = pre ++ encBytes (.list xs) ++ post from by rw [hshape]; simp] at hq
        rw [hq]
        rw [hlenv]
        simp
        omega
      | dictionary m =>
        have hsorted : keysStrictSorted m = true := by
          simp [WF] at hWF
          exact hWF.1
        have hent : WFentries m = true := by
          simp [WF] at hWF
          exact hWF.2
        have hid : sortPairs m = m := sortPairs_sorted_id hsorted
        have hlenv : (encBytes (.dictionary m)).length
            = (encChunksEntries m).flatten.length + 2 := by
          rw [encBytes_dictionary, hid]
          simp
        have hshape : pre ++ encBytes (.dictionary m) ++ post
            = pre ++ 100 :: ((encChunksEntries m).flatten ++ 101 :: post) := by
          rw [encBytes_dictionary, hid]
          simp
        rw [decodeImpl, if_neg (by
          rw [show (pre ++ encBytes (.dictionary m) ++ post).length
              = pre.length + (encBytes (.dictionary m)).length + post.length from by
            simp
            omega]
          omega)]
        rw [show (pre ++ encBytes (.dictionary m) ++ post).getD pre.length 0 = 100 from by
          rw [hshape, getD_append_mid]]
        obtain ⟨g, hg⟩ : ∃ g, f = g + 1 := ⟨f - 1, by omega⟩
        rw [hg, decodeDictImpl]
        rw [show getOr (pre ++ encBytes (.dictionary m) ++ post) pre.length = .ok 100 from by
          rw [hshape]; exact getOr_append_mid _ _ _]
        rw [dbind_def, DRes.bind, expectTok_self, dbind_def, DRes.bind]
        have hr := (ih g (by omega)).2.2 m [] (pre ++ [100]) post pre.length 1
          (by simp) hent (by simpa using keysStrictSorted_pairwise hsorted) (by omega)
        rw [show (pre ++ [100]) ++ (encChunksEntries m).flatten ++ 101 :: post
            = pre ++ encBytes (.dictionary m) ++ post from by rw [hshape]; simp] at hr
        simp only [List.nil_append] at hr
        rw [hr]
        rw [hlenv]
        simp
        omega
    · -- decodeListEntries on an encoded list body
      intro xs pre post start tsize acc hpos hWF hfuel
      obtain ⟨g, rfl⟩ : ∃ g, fuel = g + 1 := ⟨fuel - 1, by omega⟩
      cases xs with
      | nil =>
        rw [bodyList_nil] at hfuel ⊢
        rw [decodeListEntries]
        rw [show pre ++ [] ++ 101 :: post = pre ++ 101 :: post from by simp]
        rw [show getOr (pre ++ 101 :: post) (start + tsize) = .ok 101 from by
          rw [hpos]; exact getOr_append_mid _ _ _]
        rw [dbind_def, DRes.bind]
        rw [if_pos rfl]
        rw [dbind_def, DRes.bind, expectTok_self, dbind_def, DRes.bind]
        simp
      | cons x r =>
        have hwx : WF x = true ∧ WFlist r = true := by
          simp [WFlist, Bool.and_eq_true] at hWF
          exact hWF
        have hblen : (encChunksList (x :: r)).flatten.length
            = (encBytes x).length + (encChunksList r).flatten.length := by
          rw [bodyList_cons]
          simp
        have hxpos : 1 ≤ (encBytes x).length :=
          List.length_pos.mpr (encBytes_ne_nil x)
        obtain ⟨hb, tb, hhead, hne⟩ := encBytes_head_spec x
        have hshape : pre ++ (encChunksList (x :: r)).flatten ++ 101 :: post
            = pre ++ encBytes x ++ ((encChunksList r).flatten ++ 101 :: post) := by
          rw [bodyList_cons]
          simp
        rw [decodeListEntries]
        rw [show getOr (pre ++ (encChunksList (x :: r)).flatten ++ 101 :: post)
            (start + tsize) = .ok hb from by
          rw [hpos, hshape, hhead, List.append_assoc, List.cons_append]
          exact getOr_append_mid _ _ _]
        rw [dbind_def, DRes.bind]
        rw [if_neg hne]
        have hp := (ih g (by omega)).1 x pre ((encChunksList r).flatten ++ 101 :: post)
          hwx.1 (by omega)
        rw [← hshape, ← hpos] at hp
        rw [hp, dbind_def, DRes.bind]
        have hq := (ih g (by omega)).2.1 r (pre ++ encBytes x) post start
          (tsize + (encBytes x).length) (acc ++ [x])
          (by simp; omega) hwx.2 (by omega)
        rw [show (pre ++ encBytes x) ++ (encChunksList r).flatten ++ 101 :: post
            = pre ++ (encChunksList (x :: r)).flatten ++ 101 :: post from by
          rw [hshape]; simp] at hq
        simp only [hq]
        rw [hblen]
        simp
        omega
    · -- decodeDictEntries on an encoded dictionary body
      intro l map pre post start tsize hpos hWF hpair hfuel
      obtain ⟨g, rfl⟩ : ∃ g, fuel = g + 1 := ⟨fuel - 1, by omega⟩
      cases l with
      | nil =>
        rw [bodyEntries_nil] at hfuel ⊢
        rw [decodeDictEntries]
        rw [show pre ++ [] ++ 101 :: post = pre ++ 101 :: post from by simp]
        rw [show getOr (pre ++ 101 :: post) (start + tsize) = .ok 101 from by
          rw [hpos]; exact getOr_append_mid _ _ _]
        rw [dbind_def, DRes.bind]
        rw [if_pos rfl]
        rw [dbind_def, DRes.bind, expectTok_self, dbind_def, DRes.bind]
        simp
      | cons p r =>
        obtain ⟨k, v⟩ := p
        have hwx : keyOK k = true ∧ WF v = true ∧ WFentries r = true := by
          simp [WFentries, Bool.and_eq_true] at hWF
          exact ⟨hWF.1.1, hWF.1.2, hWF.2⟩
        have hblen : (encChunksEntries ((k, v) :: r)).flatten.length
            = (encBytes (keyToValue k)).length + (encBytes v).length
              + (encChunksEntries r).flatten.length := by
          rw [bodyEntries_cons]
          simp
          omega
        have hkpos : 1 ≤ (encBytes (keyToValue k)).length :=
          List.length_pos.mpr (encBytes_ne_nil _)
        have hvpos : 1 ≤ (encBytes v).length :=
          List.length_pos.mpr (encBytes_ne_nil v)
        obtain ⟨hb, tb, hhead, hne⟩ := encBytes_head_spec (keyToValue k)
        have hshape : pre ++ (encChunksEntries ((k, v) :: r)).flatten ++ 101 :: post
            = pre ++ encBytes (keyToValue k)
              ++ (encBytes v ++ ((encChunksEntries r).flatten ++ 101 :: post)) := by
          rw [bodyEntries_cons]
          simp
        rw [decodeDictEntries]
        rw [show getOr (pre ++ (encChunksEntries ((k, v) :: r)).flatten ++ 101 :: post)
            (start + tsize) = .ok hb from by
          rw [hpos, hshape, hhead, List.append_assoc, List.cons_append]
          exact getOr_append_mid _ _ _]
        rw [dbind_def, DRes.bind]
        rw [if_neg hne]
        have hp := (ih g (by omega)).1 (keyToValue k) pre
          (encBytes v ++ ((encChunksEntries r).flatten ++ 101 :: post))
          (keyOK_WF hwx.1) (by omega)
        rw [← hshape, ← hpos] at hp
        rw [hp, dbind_def, DRes.bind]
        have hv := (ih g (by omega)).1 v (pre ++ encBytes (keyToValue k))
          ((encChunksEntries r).flatten ++ 101 :: post) hwx.2.1 (by omega)
        rw [show (pre ++ encBytes (keyToValue k)) ++ encBytes v
              ++ ((encChunksEntries r).flatten ++ 101 :: post)
            = pre ++ (encChunksEntries ((k, v) :: r)).flatten ++ 101 :: post from by
          rw [hshape]; simp] at hv
        rw [show (pre ++ encBytes (keyToValue k)).length
            = start + tsize + (encBytes (keyToValue k)).length from by simp; omega] at hv
        have hcross : ∀ p ∈ map, cmpKeyOrd p.1 k = .lt := by
          intro p hp
          have := (List.pairwise_append.mp hpair).2.2
          exact this p hp (k, v) (List.mem_cons_self _ _)
        have hins := mapInsert_append map k v hcross
        have hpair₂ : List.Pairwise (fun a b => cmpKeyOrd a.1 b.1 = .lt)
            ((map ++ [(k, v)]) ++ r) := by
          rw [List.append_assoc]
          simpa using hpair
        have hr := (ih g (by omega)).2.2 r (map ++ [(k, v)])
          (pre ++ encBytes (keyToValue k) ++ encBytes v) post start
          (tsize + ((encBytes (keyToValue k)).length + (encBytes v).length))
          (by simp; omega) hwx.2.2 hpair₂ (by omega)
        rw [show (pre ++ encBytes (keyToValue k) ++ encBytes v)
              ++ (encChunksEntries r).flatten ++ 101 :: post
            = pre ++ (encChunksEntries ((k, v) :: r)).flatten ++ 101 :: post from by
          rw [hshape]; simp] at hr
        cases k <;>
        · simp only [keyToValue] at hv hr hblen ⊢
          simp only [hv, dbind_def, DRes.bind, hins, hr]
          rw [hblen]
          simp
          rw [List.append_assoc] at hr
          rw [← Nat.add_assoc] at hr
          rw [hr]
          simp
          try omega

/-- Witness for C8: encoding `Number(0)` against a sink that fails on its
second write call aborts after writing `'i'`; against a clean sink it
writes `i0e`. -/
theorem c8_encode_fails_iff_sink_fails_witness :
    encodeTo (.number 0) (fun k => decide (k = 2)) = (.error (), [105]) ∧
    encodeTo (.number 0) (fun _ => false) = (.ok 3, [105, 48, 101]) := by
  constructor
  · have h := (c8_encode_fails_iff_sink_fails (.number 0) (fun k => decide (k = 2))).2.2 1
      (by simp [encChunks]) (by decide) (by intro j hj; interval_cases j; decide)
    rw [h]
    simp [encChunks, natDecimal, intDecimal, natDigitsRev]
  · have h := (c8_encode_fails_iff_sink_fails (.number 0) (fun _ => false)).1 (fun _ => rfl)
    rw [h]
    simp [encChunks, encBytes, natDecimal, intDecimal, natDigitsRev]

/-- Counterexample for C4 as stated: the byte-string production
`18446744073709551616:` declares a payload length (`2^64`) greater than
the zero remaining bytes, yet decoding panics at
`length.to_usize().unwrap()` instead of failing with
`InvalidBencodexValueError`. -/
theorem c4_oversized_length_panics :
    vecDecode [49, 56, 52, 52, 54, 55, 52, 52, 48, 55, 51, 55, 48, 57, 53, 53, 49, 54,
      49, 54, 58] = .panicked ∧
    vecDecode [49, 56, 52, 52, 54, 55, 52, 52, 48, 55, 51, 55, 48, 57, 53, 53, 49, 54,
      49, 54, 58] ≠ .err .invalidBencodexValueError := by
  constructor
  · decide
  · decide

theorem bind_ok_inv {A B : Type} {x : DRes A} {f : A → DRes B} {r : B}
    (h : DRes.bind x f = .ok r) : ∃ a, x = .ok a ∧ f a = .ok r := by
  cases x with
  | ok a => exact ⟨a, rfl, h⟩
  | err e => simp [DRes.bind] at h
  | panicked => simp [DRes.bind] at h
  | fuelOut => simp [DRes.bind] at h

theorem getOr_ok_inv {v : List Nat} {i b : Nat} (h : getOr v i = .ok b) :
    v[i]? = some b := by
  rw [getOr] at h
  cases hv : v[i]? with
  | none => rw [hv] at h; cases h
  | some c => rw [hv] at h; cases h; rfl

theorem getOr_ok_frame {v : List Nat} {i b : Nat} (ext : List Nat)
    (h : getOr v i = .ok b) : getOr (v ++ ext) i = .ok b := by
  have hv := getOr_ok_inv h
  have hi : i < v.length := by
    by_contra hge
    rw [List.getElem?_eq_none (by omega)] at hv
    cases hv
  rw [getOr, List.getElem?_append_left hi, hv]

theorem expectTok_ok_inv {b e p : Nat} (h : expectTok b e p = .ok ()) : b = e := by
  by_contra hne
  rw [expectTok, if_pos hne] at h
  cases h

theorem countDigits_stop_frame (s ext : List Nat) (c : Nat)
    (hc : s[readNumber.countDigits s]? = some c) :
    readNumber.countDigits (s ++ ext) = readNumber.countDigits s := by
  induction s with
  | nil => simp [readNumber.countDigits] at hc
  | cons b t ih =>
    by_cases hd : isDigit b = true
    · rw [readNumber.countDigits, if_pos hd] at hc ⊢
      rw [List.cons_append, readNumber.countDigits, if_pos hd]
      rw [List.getElem?_cons_succ] at hc
      rw [ih hc]
    · rw [List.cons_append, readNumber.countDigits,
        if_neg hd, readNumber.countDigits, if_neg hd]

theorem readNumber_frame (s ext : List Nat) (n : Int) (size c : Nat)
    (h : readNumber s = some (n, size)) (hc : s[size]? = some c) :
    readNumber (s ++ ext) = some (n, size) := by
  cases s with
  | nil => cases h
  | cons b₀ tail =>
    by_cases hneg : b₀ = 45
    · subst hneg
      cases tail with
      | nil => simp [readNumber] at h
      | cons t₁ tr =>
        simp [readNumber] at h
        obtain ⟨hz, hn, hsize⟩ := h
        have hterm : (t₁ :: tr)[readNumber.countDigits (t₁ :: tr)]? = some c := by
          rw [← hsize, Nat.add_comm, List.getElem?_cons_succ] at hc
          exact hc
        have hcnt := countDigits_stop_frame (t₁ :: tr) ext c hterm
        have hlt : readNumber.countDigits (t₁ :: tr) < (t₁ :: tr).length := by
          by_contra hge
          rw [List.getElem?_eq_none (by omega)] at hterm
          cases hterm
        have htake : ((t₁ :: tr) ++ ext).take (readNumber.countDigits (t₁ :: tr))
            = (t₁ :: tr).take (readNumber.countDigits (t₁ :: tr)) :=
          List.take_append_of_le_length (Nat.le_of_lt hlt)
        simp only [List.cons_append] at hcnt htake
        simp [readNumber, hcnt, htake]
        exact ⟨hz, hn, hsize⟩
    · simp [readNumber, hneg] at h
      obtain ⟨hz, hn, hsize⟩ := h
      have hterm : (b₀ :: tail)[readNumber.countDigits (b₀ :: tail)]? = some c := by
        rw [← hsize] at hc
        exact hc
      have hcnt := countDigits_stop_frame (b₀ :: tail) ext c hterm
      have hlt : readNumber.countDigits (b₀ :: tail) < (b₀ :: tail).length := by
        by_contra hge
        rw [List.getElem?_eq_none (by omega)] at hterm
        cases hterm
      have htake : ((b₀ :: tail) ++ ext).take (readNumber.countDigits (b₀ :: tail))
          = (b₀ :: tail).take (readNumber.countDigits (b₀ :: tail)) :=
        List.take_append_of_le_length (Nat.le_of_lt hlt)
      simp only [List.cons_append] at hcnt htake
      simp [readNumber, hneg, hcnt, htake]
      exact ⟨hz, hn, hsize⟩

theorem list_drop_append_of_le_length {v ext : List Nat} {i : Nat} (h : i ≤ v.length) :
    (v ++ ext).drop i = v.drop i ++ ext := by
  rw [List.drop_append_eq_append_drop, Nat.sub_eq_zero_of_le h, List.drop_zero]

theorem decodeByteStringImpl_frame (v ext : List Nat) (start : Nat)
    (r : BencodexValue × Nat) (h : decodeByteStringImpl v start = .ok r) :
    decodeByteStringImpl (v ++ ext) start = .ok r := by
  rw [decodeByteStringImpl] at h
  cases hrn : readNumber (v.drop start) with
  | none => rw [hrn] at h; cases h
  | some p =>
    obtain ⟨length, size⟩ := p
    simp only [hrn] at h
    cases hb : getOr v (start + size) with
    | err e => simp only [hb, dbind_def, DRes.bind] at h; cases h
    | panicked => simp only [hb, dbind_def, DRes.bind] at h; cases h
    | fuelOut => simp only [hb, dbind_def, DRes.bind] at h; cases h
    | ok b =>
      simp only [hb, dbind_def, DRes.bind] at h
      by_cases hb58 : b = 58
      · subst hb58
        rw [expectTok_self] at h
        simp only [DRes.bind] at h
        cases htu : toUsize length with
        | none => simp only [htu] at h; cases h
        | some ls =>
          simp only [htu] at h
          by_cases hlen : v.length < start + size + 1 + ls
          · rw [if_pos hlen] at h
            cases h
          · rw [if_neg hlen] at h
            have hvs : v[start + size]? = some 58 := getOr_ok_inv hb
            have hsz : start + size < v.length := by
              by_contra hge
              rw [List.getElem?_eq_none (by omega)] at hvs
              cases hvs
            have hdrop : (v ++ ext).drop start = v.drop start ++ ext :=
              list_drop_append_of_le_length (by omega)
            have hterm : (v.drop start)[size]? = some 58 := by
              rw [List.getElem?_drop]
              exact hvs
            have hrn' : readNumber ((v ++ ext).drop start) = some (length, size) := by
              rw [hdrop]
              exact readNumber_frame (v.drop start) ext length size 58 hrn hterm
            have hb' : getOr (v ++ ext) (start + size) = .ok 58 := getOr_ok_frame ext hb
            have hlen' : ¬ (v ++ ext).length < start + size + 1 + ls := by
              rw [List.length_append]
              omega
            have hslice : ((v ++ ext).drop (start + size + 1)).take ls
                = (v.drop (start + size + 1)).take ls := by
              rw [list_drop_append_of_le_length (by omega)]
              exact List.take_append_of_le_length (by rw [List.length_drop]; omega)
            rw [decodeByteStringImpl, hrn']
            simp only [hb', dbind_def, DRes.bind, expectTok_self, htu]
            rw [if_neg hlen', hslice]
            exact h
      · rw [expectTok, if_pos hb58] at h
        simp only [DRes.bind] at h
        cases h

theorem decodeNumberImpl_frame (v ext : List Nat) (start : Nat)
    (r : BencodexValue × Nat) (h : decodeNumberImpl v start = .ok r) :
    decodeNumberImpl (v ++ ext) start = .ok r := by
  rw [decodeNumberImpl] at h
  by_cases hl2 : v.length < start + 2
  · rw [if_pos hl2] at h
    cases h
  · rw [if_neg hl2] at h
    cases hrn : readNumber (v.drop (start + 1)) with
    | none => simp only [hrn] at h; cases h
    | some p =>
      obtain ⟨number, size⟩ := p
      simp only [hrn] at h
      cases hb : getOr v (start + 1 + size) with
      | err e => simp only [hb, dbind_def, DRes.bind] at h; cases h
      | panicked => simp only [hb, dbind_def, DRes.bind] at h; cases h
      | fuelOut => simp only [hb, dbind_def, DRes.bind] at h; cases h
      | ok b =>
        simp only [hb, dbind_def, DRes.bind] at h
        by_cases hbe : b = 101
        · subst hbe
          rw [expectTok_self] at h
          simp only [DRes.bind] at h
          have hvs : v[start + 1 + size]? = some 101 := getOr_ok_inv hb
          have hsz : start + 1 + size < v.length := by
            by_contra hge
            rw [List.getElem?_eq_none (by omega)] at hvs
            cases hvs
          have hterm : (v.drop (start + 1))[size]? = some 101 := by
            rw [List.getElem?_drop]
            exact hvs
          have hrn' : readNumber ((v ++ ext).drop (start + 1)) = some (number, size) := by
            rw [list_drop_append_of_le_length (by omega)]
            exact readNumber_frame (v.drop (start + 1)) ext number size 101 hrn hterm
          rw [decodeNumberImpl, if_neg (by rw [List.length_append]; omega), hrn']
          simp only [getOr_ok_frame ext hb, dbind_def, DRes.bind, expectTok_self]
          exact h
        · rw [expectTok, if_pos hbe] at h
          simp only [DRes.bind] at h
          cases h

theorem decodeUnicodeStringImpl_frame (v ext : List Nat) (start : Nat)
    (r : BencodexValue × Nat) (h : decodeUnicodeStringImpl v start = .ok r) :
    decodeUnicodeStringImpl (v ++ ext) start = .ok r := by
  rw [decodeUnicodeStringImpl] at h
  cases hb0 : getOr v start with
  | err e => simp only [hb0, dbind_def, DRes.bind] at h; cases h
  | panicked => simp only [hb0, dbind_def, DRes.bind] at h; cases h
  | fuelOut => simp only [hb0, dbind_def, DRes.bind] at h; cases h
  | ok b₀ =>
    simp only [hb0, dbind_def, DRes.bind] at h
    by_cases hbu : b₀ = 117
    case neg =>
      rw [expectTok, if_pos hbu] at h
      simp only [DRes.bind] at h
      cases h
    subst hbu
    rw [expectTok_self] at h
    simp only [DRes.bind] at h
    by_cases hl2 : v.length < start + 2
    · rw [if_pos hl2] at h
      cases h
    · rw [if_neg hl2] at h
      cases hrn : readNumber (v.drop (start + 1)) with
      | none => simp only [hrn] at h; cases h
      | some p =>
        obtain ⟨length, size⟩ := p
        simp only [hrn] at h
        by_cases hneg : length < 0
        · rw [if_pos hneg] at h
          cases h
        · rw [if_neg hneg] at h
          cases hb1 : getOr v (start + 1 + size) with
          | err e => simp only [hb1, dbind_def, DRes.bind] at h; cases h
          | panicked => simp only [hb1, dbind_def, DRes.bind] at h; cases h
          | fuelOut => simp only [hb1, dbind_def, DRes.bind] at h; cases h
          | ok b₁ =>
            simp only [hb1, dbind_def, DRes.bind] at h
            by_cases hbc : b₁ = 58
            case neg =>
              rw [expectTok, if_pos hbc] at h
              simp only [DRes.bind] at h
              cases h
            subst hbc
            rw [expectTok_self] at h
            simp only [DRes.bind] at h
            cases htu : toUsize length with
            | none => simp only [htu] at h; cases h
            | some ls =>
              simp only [htu] at h
              by_cases hlen : v.length < start + 1 + size + 1 + ls
              · rw [if_pos hlen] at h
                cases h
              · rw [if_neg hlen] at h
                have hvs : v[start + 1 + size]? = some 58 := getOr_ok_inv hb1
                have hsz : start + 1 + size < v.length := by
                  by_contra hge
                  rw [List.getElem?_eq_none (by omega)] at hvs
                  cases hvs
                have hterm : (v.drop (start + 1))[size]? = some 58 := by
                  rw [List.getElem?_drop]
                  exact hvs
                have hrn' : readNumber ((v ++ ext).drop (start + 1)) = some (length, size) := by
                  rw [list_drop_append_of_le_length (by omega)]
                  exact readNumber_frame (v.drop (start + 1)) ext length size 58 hrn hterm
                have hslice : ((v ++ ext).drop (start + 1 + size + 1)).take ls
                    = (v.drop (start + 1 + size + 1)).take ls := by
                  rw [list_drop_append_of_le_length (by omega)]
                  exact List.take_append_of_le_length (by rw [List.length_drop]; omega)
                rw [decodeUnicodeStringImpl]
                simp only [getOr_ok_frame ext hb0, dbind_def, DRes.bind, expectTok_self]
                rw [if_neg (by rw [List.length_append]; omega)]
                simp only [hrn']
                rw [if_neg hneg]
                simp only [getOr_ok_frame ext hb1, dbind_def, DRes.bind, expectTok_self, htu]
                rw [if_neg (by rw [List.length_append]; omega), hslice]
                exact h

theorem getD_append_frame {v : List Nat} (ext : List Nat) {start : Nat}
    (h : start < v.length) : (v ++ ext).getD start 0 = v.getD start 0 := by
  rw [List.getD_eq_getElem?_getD, List.getElem?_append_left h,
    ← List.getD_eq_getElem?_getD]

theorem decodeImpl_dispatch_dict (fuel : Nat) (v : List Nat) (start : Nat)
    (h : start < v.length) (hb : v.getD start 0 = 100) :
    decodeImpl (fuel + 1) v start = decodeDictImpl fuel v start := by
  rw [decodeImpl, if_neg (by omega), hb]

theorem decodeImpl_dispatch_list (fuel : Nat) (v : List Nat) (start : Nat)
    (h : start < v.length) (hb : v.getD start 0 = 108) :
    decodeImpl (fuel + 1) v start = decodeListImpl fuel v start := by
  rw [decodeImpl, if_neg (by omega), hb]

theorem decodeImpl_dispatch_text (fuel : Nat) (v : List Nat) (start : Nat)
    (h : start < v.length) (hb : v.getD start 0 = 117) :
    decodeImpl (fuel + 1) v start = decodeUnicodeStringImpl v start := by
  rw [decodeImpl, if_neg (by omega), hb]

theorem decodeImpl_dispatch_number (fuel : Nat) (v : List Nat) (start : Nat)
    (h : start < v.length) (hb : v.getD start 0 = 105) :
    decodeImpl (fuel + 1) v start = decodeNumberImpl v start := by
  rw [decodeImpl, if_neg (by omega), hb]

theorem decodeImpl_dispatch_true (fuel : Nat) (v : List Nat) (start : Nat)
    (h : start < v.length) (hb : v.getD start 0 = 116) :
    decodeImpl (fuel + 1) v start = .ok (.boolean true, 1) := by
  rw [decodeImpl, if_neg (by omega), hb]

theorem decodeImpl_dispatch_false (fuel : Nat) (v : List Nat) (start : Nat)
    (h : start < v.length) (hb : v.getD start 0 = 102) :
    decodeImpl (fuel + 1) v start = .ok (.boolean false, 1) := by
  rw [decodeImpl, if_neg (by omega), hb]

theorem decodeImpl_dispatch_null (fuel : Nat) (v : List Nat) (start : Nat)
    (h : start < v.length) (hb : v.getD start 0 = 110) :
    decodeImpl (fuel + 1) v start = .ok (.null, 1) := by
  rw [decodeImpl, if_neg (by omega), hb]

theorem decodeImpl_dispatch_err (fuel : Nat) (v : List Nat) (start : Nat)
    (h : start < v.length)
    (h100 : v.getD start 0 ≠ 100) (h108 : v.getD start 0 ≠ 108)
    (h117 : v.getD start 0 ≠ 117) (h105 : v.getD start 0 ≠ 105)
    (h116 : v.getD start 0 ≠ 116) (h102 : v.getD start 0 ≠ 102)
    (h110 : v.getD start 0 ≠ 110) (hd : isDigit (v.getD start 0) = false) :
    decodeImpl (fuel + 1) v start
      = .err (.unexpectedTokenError (v.getD start 0) start) := by
  rw [decodeImpl, if_neg (by omega)]
  split
  all_goals simp_all

/-- Frame and fuel-monotonicity: a successful parse is preserved when the
buffer is extended on the right and the fuel is raised. -/
theorem decode_frame_aux (fuel : Nat) :
    (∀ fuel' v ext start r, fuel ≤ fuel' → decodeImpl fuel v start = .ok r →
        decodeImpl fuel' (v ++ ext) start = .ok r) ∧
    (∀ fuel' v ext start tsize map r, fuel ≤ fuel' →
        decodeDictEntries fuel v start tsize map = .ok r →
        decodeDictEntries fuel' (v ++ ext) start tsize map = .ok r) ∧
    (∀ fuel' v ext start tsize acc r, fuel ≤ fuel' →
        decodeListEntries fuel v start tsize acc = .ok r →
        decodeListEntries fuel' (v ++ ext) start tsize acc = .ok r) := by
  induction fuel using Nat.strong_induction_on with
  | _ fuel ih =>
    refine ⟨?_, ?_, ?_⟩
    · intro fuel' v ext start r hle h
      cases fuel with
      | zero => rw [decodeImpl] at h; cases h
      | succ g =>
        obtain ⟨g', rfl⟩ : ∃ k, fuel' = k + 1 := ⟨fuel' - 1, by omega⟩
        have hgg : g ≤ g' := by omega
        by_cases hs : start ≥ v.length
        · rw [decodeImpl, if_pos hs] at h
          cases h
        · have hsv : start < v.length := by omega
          have hsv' : start < (v ++ ext).length := by
            rw [List.length_append]; omega
          have hgd := getD_append_frame ext hsv
          by_cases h100 : v.getD start 0 = 100
          · rw [decodeImpl_dispatch_dict g v start hsv h100] at h
            rw [decodeImpl_dispatch_dict g' (v ++ ext) start hsv' (by rw [hgd]; exact h100)]
            cases g with
            | zero => rw [decodeDictImpl] at h; cases h
            | succ g₂ =>
              obtain ⟨g₂', rfl⟩ : ∃ k, g' = k + 1 := ⟨g' - 1, by omega⟩
              rw [decodeDictImpl] at h
              rw [decodeDictImpl]
              cases hb0 : getOr v start with
              | err e => simp only [hb0, dbind_def, DRes.bind] at h; cases h
              | panicked => simp only [hb0, dbind_def, DRes.bind] at h; cases h
              | fuelOut => simp only [hb0, dbind_def, DRes.bind] at h; cases h
              | ok b₀ =>
                simp only [hb0, dbind_def, DRes.bind] at h
                by_cases hb0d : b₀ = 100
                case neg =>
                  rw [expectTok, if_pos hb0d] at h
                  simp only [DRes.bind] at h
                  cases h
                subst hb0d
                rw [expectTok_self] at h
                simp only [DRes.bind] at h
                simp only [getOr_ok_frame ext hb0, dbind_def, DRes.bind, expectTok_self]
                exact (ih g₂ (by omega)).2.1 g₂' v ext start 1 [] r (by omega) h
          · by_cases h108 : v.getD start 0 = 108
            · rw [decodeImpl_dispatch_list g v start hsv h108] at h
              rw [decodeImpl_dispatch_list g' (v ++ ext) start hsv' (by rw [hgd]; exact h108)]
              cases g with
              | zero => rw [decodeListImpl] at h; cases h
              | succ g₂ =>
                obtain ⟨g₂', rfl⟩ : ∃ k, g' = k + 1 := ⟨g' - 1, by omega⟩
                rw [decodeListImpl] at h
                rw [decodeListImpl]
                cases hb0 : getOr v start with
                | err e => simp only [hb0, dbind_def, DRes.bind] at h; cases h
                | panicked => simp only [hb0, dbind_def, DRes.bind] at h; cases h
                | fuelOut => simp only [hb0, dbind_def, DRes.bind] at h; cases h
                | ok b₀ =>
                  simp only [hb0, dbind_def, DRes.bind] at h
                  by_cases hb0d : b₀ = 108
                  case neg =>
                    rw [expectTok, if_pos hb0d] at h
                    simp only [DRes.bind] at h
                    cases h
                  subst hb0d
                  rw [expectTok_self] at h
                  simp only [DRes.bind] at h
                  simp only [getOr_ok_frame ext hb0, dbind_def, DRes.bind, expectTok_self]
                  exact (ih g₂ (by omega)).2.2 g₂' v ext start 1 [] r (by omega) h
            · by_cases h117 : v.getD start 0 = 117
              · rw [decodeImpl_dispatch_text g v start hsv h117] at h
                rw [decodeImpl_dispatch_text g' (v ++ ext) start hsv' (by rw [hgd]; exact h117)]
                exact decodeUnicodeStringImpl_frame v ext start r h
              · by_cases h105 : v.getD start 0 = 105
                · rw [decodeImpl_dispatch_number g v start hsv h105] at h
                  rw [decodeImpl_dispatch_number g' (v ++ ext) start hsv' (by rw [hgd]; exact h105)]
                  exact decodeNumberImpl_frame v ext start r h
                · by_cases h116 : v.getD start 0 = 116
                  · rw [decodeImpl_dispatch_true g v start hsv h116] at h
                    rw [decodeImpl_dispatch_true g' (v ++ ext) start hsv' (by rw [hgd]; exact h116)]
                    exact h
                  · by_cases h102 : v.getD start 0 = 102
                    · rw [decodeImpl_dispatch_false g v start hsv h102] at h
                      rw [decodeImpl_dispatch_false g' (v ++ ext) start hsv' (by rw [hgd]; exact h102)]
                      exact h
                    · by_cases h110 : v.getD start 0 = 110
                      · rw [decodeImpl_dispatch_null g v start hsv h110] at h
                        rw [decodeImpl_dispatch_null g' (v ++ ext) start hsv' (by rw [hgd]; exact h110)]
                        exact h
                      · by_cases hdig : isDigit (v.getD start 0) = true
                        · rw [decodeImpl_digit_dispatch g v start hsv hdig] at h
                          rw [decodeImpl_digit_dispatch g' (v ++ ext) start hsv' (by rw [hgd]; exact hdig)]
                          exact decodeByteStringImpl_frame v ext start r h
                        · rw [decodeImpl_dispatch_err g v start hsv h100 h108 h117 h105
                            h116 h102 h110 (by simp only [Bool.not_eq_true] at hdig; exact hdig)] at h
                          cases h
    · intro fuel' v ext start tsize map r hle h
      cases fuel with
      | zero => rw [decodeDictEntries] at h; cases h
      | succ g =>
        obtain ⟨g', rfl⟩ : ∃ k, fuel' = k + 1 := ⟨fuel' - 1, by omega⟩
        have hgg : g ≤ g' := by omega
        rw [decodeDictEntries] at h
        rw [decodeDictEntries]
        cases hb : getOr v (start + tsize) with
        | err e => simp only [hb, dbind_def, DRes.bind] at h; cases h
        | panicked => simp only [hb, dbind_def, DRes.bind] at h; cases h
        | fuelOut => simp only [hb, dbind_def, DRes.bind] at h; cases h
        | ok b =>
          simp only [hb, dbind_def, DRes.bind] at h
          simp only [getOr_ok_frame ext hb, dbind_def, DRes.bind]
          by_cases hb101 : b = 101
          · subst hb101
            rw [if_pos rfl] at h ⊢
            simp only [hb, dbind_def, DRes.bind, expectTok_self] at h
            simp only [getOr_ok_frame ext hb, dbind_def, DRes.bind, expectTok_self]
            exact h
          · rw [if_neg hb101] at h ⊢
            cases hk : decodeImpl g v (start + tsize) with
            | err e => simp only [hk, dbind_def, DRes.bind] at h; cases h
            | panicked => simp only [hk, dbind_def, DRes.bind] at h; cases h
            | fuelOut => simp only [hk, dbind_def, DRes.bind] at h; cases h
            | ok p =>
              obtain ⟨kv, size⟩ := p
              simp only [hk, dbind_def, DRes.bind] at h
              have hk' := (ih g (by omega)).1 g' v ext (start + tsize) (kv, size) hgg hk
              simp only [hk', dbind_def, DRes.bind]
              cases kv with
              | boolean b => simp only [dbind_def, DRes.bind] at h; cases h
              | number n => simp only [dbind_def, DRes.bind] at h; cases h
              | list xs => simp only [dbind_def, DRes.bind] at h; cases h
              | dictionary m => simp only [dbind_def, DRes.bind] at h; cases h
              | null => simp only [dbind_def, DRes.bind] at h; cases h
              | text s =>
                simp only [dbind_def, DRes.bind] at h ⊢
                cases hv₂ : decodeImpl g v (start + tsize + size) with
                | err e => simp only [hv₂, dbind_def, DRes.bind] at h; cases h
                | panicked => simp only [hv₂, dbind_def, DRes.bind] at h; cases h
                | fuelOut => simp only [hv₂, dbind_def, DRes.bind] at h; cases h
                | ok q =>
                  obtain ⟨value, size₂⟩ := q
                  simp only [hv₂, dbind_def, DRes.bind] at h
                  have hv₂' := (ih g (by omega)).1 g' v ext (start + tsize + size)
                    (value, size₂) hgg hv₂
                  simp only [hv₂', dbind_def, DRes.bind]
                  cases hins : (mapInsert map (BencodexKey.text s) value).2 with
                  | some old => simp only [hins] at h; cases h
                  | none =>
                    simp only [hins] at h ⊢
                    exact (ih g (by omega)).2.1 g' v ext start (tsize + size + size₂)
                      (mapInsert map (BencodexKey.text s) value).1 r hgg h
              | binary bs =>
                simp only [dbind_def, DRes.bind] at h ⊢
                cases hv₂ : decodeImpl g v (start + tsize + size) with
                | err e => simp only [hv₂, dbind_def, DRes.bind] at h; cases h
                | panicked => simp only [hv₂, dbind_def, DRes.bind] at h; cases h
                | fuelOut => simp only [hv₂, dbind_def, DRes.bind] at h; cases h
                | ok q =>
                  obtain ⟨value, size₂⟩ := q
                  simp only [hv₂, dbind_def, DRes.bind] at h
                  have hv₂' := (ih g (by omega)).1 g' v ext (start + tsize + size)
                    (value, size₂) hgg hv₂
                  simp only [hv₂', dbind_def, DRes.bind]
                  cases hins : (mapInsert map (BencodexKey.binary bs) value).2 with
                  | some old => simp only [hins] at h; cases h
                  | none =>
                    simp only [hins] at h ⊢
                    exact (ih g (by omega)).2.1 g' v ext start (tsize + size + size₂)
                      (mapInsert map (BencodexKey.binary bs) value).1 r hgg h
    · intro fuel' v ext start tsize acc r hle h
      cases fuel with
      | zero => rw [decodeListEntries] at h; cases h
      | succ g =>
        obtain ⟨g', rfl⟩ : ∃ k, fuel' = k + 1 := ⟨fuel' - 1, by omega⟩
        have hgg : g ≤ g' := by omega
        rw [decodeListEntries] at h
        rw [decodeListEntries]
        cases hb : getOr v (start + tsize) with
        | err e => simp only [hb, dbind_def, DRes.bind] at h; cases h
        | panicked => simp only [hb, dbind_def, DRes.bind] at h; cases h
        | fuelOut => simp only [hb, dbind_def, DRes.bind] at h; cases h
        | ok b =>
          simp only [hb, dbind_def, DRes.bind] at h
          simp only [getOr_ok_frame ext hb, dbind_def, DRes.bind]
          by_cases hb101 : b = 101
          · subst hb101
            rw [if_pos rfl] at h ⊢
            simp only [hb, dbind_def, DRes.bind, expectTok_self] at h
            simp only [getOr_ok_frame ext hb, dbind_def, DRes.bind, expectTok_self]
            exact h
          · rw [if_neg hb101] at h ⊢
            cases hk : decodeImpl g v (start + tsize) with
            | err e => simp only [hk, dbind_def, DRes.bind] at h; cases h
            | panicked => simp only [hk, dbind_def, DRes.bind] at h; cases h
            | fuelOut => simp only [hk, dbind_def, DRes.bind] at h; cases h
            | ok p =>
              obtain ⟨value, size⟩ := p
              simp only [hk, dbind_def, DRes.bind] at h
              have hk' := (ih g (by omega)).1 g' v ext (start + tsize) (value, size) hgg hk
              simp only [hk', dbind_def, DRes.bind]
              exact (ih g (by omega)).2.2 g' v ext start (tsize + size)
                (acc ++ [value]) r hgg h

theorem hexDigitVal_hexDigitChar {i : Nat} (h : i < 16) :
    hexDigitVal (hexDigitChar i) = some i := by
  interval_cases i <;> rfl

theorem hexDecode_hexEncode (l : List Nat) (h : l.all (· < 256) = true) :
    hexDecode (hexEncode l) = some l := by
  induction l with
  | nil => rfl
  | cons b r ih =>
    simp only [List.all_cons, Bool.and_eq_true, decide_eq_true_eq] at h
    obtain ⟨hb, hr⟩ := h
    rw [hexEncode, hexDecode]
    simp only [hexDigitVal_hexDigitChar (by omega : b / 16 < 16),
      hexDigitVal_hexDigitChar (by omega : b % 16 < 16), ih hr,
      Option.bind_eq_bind, Option.some_bind]
    have hbr : 16 * (b / 16) + b % 16 = b := by omega
    rw [hbr]
    rfl

theorem b64CharVal_b64Char : ∀ i, i < 64 → b64CharVal (b64Char i) = some i := by
  decide

theorem b64Char_ne_61 : ∀ i, i < 64 → b64Char i ≠ 61 := by
  decide

theorem b64decode_b64encode (l : List Nat) (h : l.all (· < 256) = true) :
    b64decode (b64encode l) = some l := by
  obtain ⟨n, hn⟩ : ∃ n, l.length = n := ⟨_, rfl⟩
  induction n using Nat.strong_induction_on generalizing l with
  | _ n ih =>
    match l, h with
    | [], _ => rfl
    | [a], h =>
      simp only [List.all_cons, List.all_nil, Bool.and_true,
        decide_eq_true_eq] at h
      rw [b64encode, b64decode]
      simp only [if_pos rfl, if_neg (by simp : ¬([] : List Nat) ≠ []),
        b64CharVal_b64Char _ (by omega : a / 4 < 64),
        b64CharVal_b64Char _ (by omega : a % 4 * 16 < 64),
        Option.bind_eq_bind, Option.some_bind]
      rw [if_neg (by omega : ¬(a % 4 * 16) % 16 ≠ 0)]
      have ha₁ : a / 4 * 4 + a % 4 * 16 / 16 = a := by omega
      rw [ha₁]
      simp
    | [a, b], h =>
      simp only [List.all_cons, List.all_nil, Bool.and_true, Bool.and_eq_true,
        decide_eq_true_eq] at h
      obtain ⟨ha, hb⟩ := h
      rw [b64encode, b64decode]
      simp only [if_pos rfl, if_neg (by simp : ¬([] : List Nat) ≠ []),
        if_neg (b64Char_ne_61 _ (by omega : b % 16 * 4 < 64)),
        b64CharVal_b64Char _ (by omega : a / 4 < 64),
        b64CharVal_b64Char _ (by omega : a % 4 * 16 + b / 16 < 64),
        b64CharVal_b64Char _ (by omega : b % 16 * 4 < 64),
        Option.bind_eq_bind, Option.some_bind]
      rw [if_neg (by omega : ¬(b % 16 * 4) % 4 ≠ 0)]
      have h₁ : a / 4 * 4 + (a % 4 * 16 + b / 16) / 16 = a := by omega
      have h₂ : (a % 4 * 16 + b / 16) % 16 * 16 + b % 16 * 4 / 4 = b := by omega
      rw [h₁, h₂]
      simp
    | a :: b :: c :: r, h =>
      simp only [List.all_cons, Bool.and_eq_true, decide_eq_true_eq] at h
      obtain ⟨ha, hb, hc, hr⟩ := h
      rw [b64encode, b64decode]
      rw [if_neg (b64Char_ne_61 _ (by omega : c % 64 < 64))]
      have hrec := ih (r.length) (by subst hn; simp; omega) r
        (by simp only [List.all_eq_true, decide_eq_true_eq] at hr ⊢; exact hr) rfl
      simp only [b64CharVal_b64Char _ (by omega : a / 4 < 64),
        b64CharVal_b64Char _ (by omega : a % 4 * 16 + b / 16 < 64),
        b64CharVal_b64Char _ (by omega : b % 16 * 4 + c / 64 < 64),
        b64CharVal_b64Char _ (by omega : c % 64 < 64),
        hrec, Option.bind_eq_bind, Option.some_bind]
      have h₁ : a / 4 * 4 + (a % 4 * 16 + b / 16) / 16 = a := by omega
      have h₂ : (a % 4 * 16 + b / 16) % 16 * 16 + (b % 16 * 4 + c / 64) / 4 = b := by
        omega
      have h₃ : (b % 16 * 4 + c / 64) % 4 * 64 + c % 64 = c := by omega
      rw [h₁, h₂, h₃]
      simp

theorem bigIntParse_natDecimal (m : Nat) :
    bigIntParse (natDecimal m) = some (m : Int) := by
  obtain ⟨d, ds, hds⟩ : ∃ d ds, natDecimal m = d :: ds := by
    cases hh : natDecimal m with
    | nil => exact absurd hh (natDecimal_ne_nil m)
    | cons d ds => exact ⟨d, ds, rfl⟩
  have hd : isDigit d = true := natDecimal_digits d (by rw [hds]; exact List.mem_cons_self _ _)
  have hall : (natDecimal m).all isDigit = true := by
    rw [List.all_eq_true]
    exact natDecimal_digits
  have hdv := decimalVal_natDecimal m
  rw [hds] at hall hdv ⊢
  obtain ⟨hlo, hhi⟩ : 48 ≤ d ∧ d ≤ 57 := by simpa [isDigit] using hd
  interval_cases d <;> simp [bigIntParse, hall, hdv]

theorem bigIntParse_intDecimal (n : Int) : bigIntParse (intDecimal n) = some n := by
  by_cases hneg : n < 0
  · rw [intDecimal, if_pos hneg]
    have hall : (natDecimal n.natAbs).all isDigit = true := by
      rw [List.all_eq_true]
      exact natDecimal_digits
    simp only [bigIntParse, ne_eq, natDecimal_ne_nil, not_false_iff, hall,
      and_true, true_and, if_true, decimalVal_natDecimal]
    congr 1
    omega
  · rw [intDecimal, if_neg hneg, bigIntParse_natDecimal]
    congr 1
    omega

/-- Bytes that pass through the JSON string parser untouched. -/
def plainStrByte (b : Nat) : Prop := b ≠ 34 ∧ b ≠ 92 ∧ 32 ≤ b

theorem b64Char_plain (i : Nat) : plainStrByte (b64Char i) := by
  rw [b64Char]
  split_ifs <;> exact ⟨by omega, by omega, by omega⟩

theorem b64encode_plain (l : List Nat) : ∀ c ∈ b64encode l, plainStrByte c := by
  obtain ⟨n, hn⟩ : ∃ n, l.length = n := ⟨_, rfl⟩
  induction n using Nat.strong_induction_on generalizing l with
  | _ n ih =>
    match l with
    | [] => intro c hc; cases hc
    | [a] =>
      intro c hc
      rw [b64encode] at hc
      simp only [List.mem_cons, List.not_mem_nil, or_false] at hc
      rcases hc with h | h | h | h <;> subst h
      · exact b64Char_plain _
      · exact b64Char_plain _
      · exact ⟨by omega, by omega, by omega⟩
      · exact ⟨by omega, by omega, by omega⟩
    | [a, b] =>
      intro c hc
      rw [b64encode] at hc
      simp only [List.mem_cons, List.not_mem_nil, or_false] at hc
      rcases hc with h | h | h | h <;> subst h
      · exact b64Char_plain _
      · exact b64Char_plain _
      · exact b64Char_plain _
      · exact ⟨by omega, by omega, by omega⟩
    | a :: b :: d :: r =>
      intro c hc
      rw [b64encode] at hc
      simp only [List.mem_cons] at hc
      rcases hc with h | h | h | h | h
      · subst h; exact b64Char_plain _
      · subst h; exact b64Char_plain _
      · subst h; exact b64Char_plain _
      · subst h; exact b64Char_plain _
      · exact ih r.length (by subst hn; simp; omega) r rfl c h

theorem hexDigitChar_plain (i : Nat) : plainStrByte (hexDigitChar i) := by
  rw [hexDigitChar]
  split
  all_goals constructor <;> omega

theorem hexEncode_plain (l : List Nat) : ∀ c ∈ hexEncode l, plainStrByte c := by
  induction l with
  | nil => intro c hc; cases hc
  | cons b r ih =>
    intro c hc
    rw [hexEncode] at hc
    simp only [List.mem_cons] at hc
    rcases hc with h | h | h
    · rw [h]; apply hexDigitChar_plain
    · rw [h]; apply hexDigitChar_plain
    · exact ih c h

theorem digit_plain {b : Nat} (h : isDigit b = true) : plainStrByte b := by
  rw [isDigit] at h
  simp only [Bool.and_eq_true, decide_eq_true_eq] at h
  exact ⟨by omega, by omega, by omega⟩

theorem parseStringBody_mono {f f' : Nat} {s : List Nat} {q : List Nat × List Nat}
    (hle : f ≤ f') (h : parseStringBody f s = some q) :
    parseStringBody f' s = some q := by
  induction f generalizing f' s q with
  | zero => rw [parseStringBody] at h; cases h
  | succ g ih =>
    obtain ⟨g', rfl⟩ : ∃ k, f' = k + 1 := ⟨f' - 1, by omega⟩
    cases s with
    | nil => rw [parseStringBody] at h; cases h
    | cons b r =>
      rw [parseStringBody] at h
      rw [parseStringBody]
      by_cases h34 : b = 34
      · rw [if_pos h34] at h ⊢
        exact h
      · rw [if_neg h34] at h ⊢
        by_cases h92 : b = 92
        · rw [if_pos h92] at h ⊢
          cases he : escChunk r with
          | none => rw [he] at h; cases h
          | some p =>
            rw [he] at h
            obtain ⟨chunk, r₂⟩ := p
            dsimp only at h
            cases hp : parseStringBody g r₂ with
            | none => rw [hp] at h; cases h
            | some q₂ =>
              rw [hp] at h
              have hI := ih (by omega : g ≤ g') hp
              simp only [hI]
              exact h
        · rw [if_neg h92] at h ⊢
          by_cases h32 : b < 32
          · rw [if_pos h32] at h
            cases h
          · rw [if_neg h32] at h ⊢
            cases hp : parseStringBody g r with
            | none => rw [hp] at h; cases h
            | some q₂ =>
              rw [hp] at h
              have hI := ih (by omega : g ≤ g') hp
              simp only [hI]
              exact h

theorem parseStringBody_append_plain (p : List Nat) (fuel : Nat) (s : List Nat)
    (h : ∀ b ∈ p, plainStrByte b) :
    parseStringBody (p.length + fuel) (p ++ s)
      = (parseStringBody fuel s).map (fun q => (p ++ q.1, q.2)) := by
  induction p with
  | nil =>
    cases hs : parseStringBody fuel s with
    | none => simp [hs]
    | some q => simp [hs]
  | cons b r ih =>
    obtain ⟨h34, h92, h32⟩ := h b (List.mem_cons_self _ _)
    have hlen : (b :: r).length + fuel = (r.length + fuel) + 1 := by
      simp
      omega
    rw [hlen, List.cons_append, parseStringBody]
    rw [if_neg h34, if_neg h92, if_neg (by omega)]
    rw [ih (fun x hx => h x (List.mem_cons_of_mem _ hx))]
    cases hs : parseStringBody fuel s with
    | none => simp [hs]
    | some q => simp [hs]

theorem parseStringBody_escNewlines (t : List Nat) (fuel : Nat) (rest : List Nat)
    (h : textJsonSafe t = true) (hfuel : t.length + 1 ≤ fuel) :
    parseStringBody fuel (escNewlines t ++ 34 :: rest) = some (t, rest) := by
  induction t generalizing fuel with
  | nil =>
    obtain ⟨g, rfl⟩ : ∃ g, fuel = g + 1 := ⟨fuel - 1, by omega⟩
    rw [escNewlines, List.nil_append, parseStringBody, if_pos rfl]
  | cons b r ih =>
    obtain ⟨g, rfl⟩ : ∃ g, fuel = g + 1 := ⟨fuel - 1, by omega⟩
    rw [textJsonSafe, List.all_cons, Bool.and_eq_true] at h
    obtain ⟨hb, hr⟩ := h
    simp only [Bool.and_eq_true, Bool.or_eq_true, decide_eq_true_eq,
      bne_iff_ne, ne_eq] at hb
    obtain ⟨⟨h34, h92⟩, h32⟩ := hb
    have ihr : parseStringBody g (escNewlines r ++ 34 :: rest) = some (r, rest) := by
      apply ih _ _ (by simp at hfuel; omega)
      rw [textJsonSafe]
      exact hr
    by_cases hb10 : b = 10
    · subst hb10
      rw [escNewlines, if_pos rfl, List.cons_append, List.cons_append,
        parseStringBody]
      rw [if_neg (by omega), if_pos rfl]
      simp [escChunk, ihr]
    · rw [escNewlines, if_neg hb10, List.cons_append, parseStringBody]
      rw [if_neg h34, if_neg h92, if_neg (by omega)]
      rw [ihr]

theorem skipWs_not_ws {b : Nat} (r : List Nat) (h : isWs b = false) :
    skipWs (b :: r) = b :: r := by
  rw [skipWs]
  rw [if_neg]
  simp [h]

theorem escNewlines_length (t : List Nat) :
    t.length ≤ (escNewlines t).length := by
  induction t with
  | nil => simp [escNewlines]
  | cons b r ih =>
    rw [escNewlines]
    by_cases hb : b = 10
    · rw [if_pos hb]
      simp only [List.length_cons]
      omega
    · rw [if_neg hb]
      simp only [List.length_cons]
      omega

theorem parseStringBody_one_quote (rest : List Nat) :
    parseStringBody 1 (34 :: rest) = some ([], rest) := by
  rw [parseStringBody, if_pos rfl]

theorem printKeyBody_parse (options : BinaryEncoding) (k : BencodexKey)
    (hsafe : keyJsonSafe k = true) (fuel : Nat) (rest : List Nat)
    (hfuel : (printKeyBody options k).length + 1 ≤ fuel) :
    parseStringBody fuel (printKeyBody options k ++ 34 :: rest)
      = some (jsonKeyStr options k, rest) := by
  cases k with
  | binary bs =>
    cases options with
    | base64 =>
      have hplain : ∀ c ∈ [98, 54, 52, 58] ++ b64encode bs, plainStrByte c := by
        intro c hc
        simp only [List.cons_append, List.nil_append, List.mem_cons] at hc
        rcases hc with rfl | rfl | rfl | rfl | hc
        · exact ⟨by omega, by omega, by omega⟩
        · exact ⟨by omega, by omega, by omega⟩
        · exact ⟨by omega, by omega, by omega⟩
        · exact ⟨by omega, by omega, by omega⟩
        · exact b64encode_plain bs c hc
      have h1 := parseStringBody_append_plain ([98, 54, 52, 58] ++ b64encode bs)
        1 (34 :: rest) hplain
      rw [parseStringBody_one_quote] at h1
      simp at h1
      simp only [printKeyBody, jsonKeyStr]
      rw [printKeyBody] at hfuel
      have hl : ([98, 54, 52, 58] ++ b64encode bs).length
          = (b64encode bs).length + 4 := by simp
      exact parseStringBody_mono (by omega) h1
    | hex =>
      have hplain : ∀ c ∈ [48, 120] ++ hexEncode bs, plainStrByte c := by
        intro c hc
        simp only [List.cons_append, List.nil_append, List.mem_cons] at hc
        rcases hc with rfl | rfl | hc
        · exact ⟨by omega, by omega, by omega⟩
        · exact ⟨by omega, by omega, by omega⟩
        · exact hexEncode_plain bs c hc
      have h1 := parseStringBody_append_plain ([48, 120] ++ hexEncode bs)
        1 (34 :: rest) hplain
      rw [parseStringBody_one_quote] at h1
      simp at h1
      simp only [printKeyBody, jsonKeyStr]
      rw [printKeyBody] at hfuel
      have hl : ([48, 120] ++ hexEncode bs).length
          = (hexEncode bs).length + 2 := by simp
      exact parseStringBody_mono (by omega) h1
  | text t =>
    rw [keyJsonSafe] at hsafe
    rw [printKeyBody] at hfuel ⊢
    have hlen : t.length ≤ (escNewlines t).length := escNewlines_length t
    have hblen : (bomBytes ++ escNewlines t).length
        = 3 + (escNewlines t).length := by
      simp [bomBytes]
      omega
    rw [hblen] at hfuel
    have hplain : ∀ c ∈ bomBytes, plainStrByte c := by
      intro c hc
      rw [bomBytes] at hc
      simp only [List.mem_cons, List.not_mem_nil, or_false] at hc
      rcases hc with rfl | rfl | rfl
      · exact ⟨by omega, by omega, by omega⟩
      · exact ⟨by omega, by omega, by omega⟩
      · exact ⟨by omega, by omega, by omega⟩
    have h1 := parseStringBody_append_plain bomBytes (fuel - 3)
      (escNewlines t ++ 34 :: rest) hplain
    rw [parseStringBody_escNewlines t (fuel - 3) rest hsafe (by omega)] at h1
    simp only [Option.map] at h1
    rw [show bomBytes.length + (fuel - 3) = fuel from by simp [bomBytes]; omega] at h1
    rw [← List.append_assoc] at h1
    rw [jsonKeyStr]
    exact h1

theorem intDecimal_plain (n : Int) : ∀ c ∈ intDecimal n, plainStrByte c := by
  intro c hc
  rw [intDecimal] at hc
  have hdig : ∀ x ∈ natDecimal n.natAbs, plainStrByte x := by
    intro x hx
    have := natDecimal_digits x hx
    exact digit_plain this
  by_cases hneg : n < 0
  · rw [if_pos hneg] at hc
    rcases List.mem_cons.mp hc with rfl | hc
    · exact ⟨by omega, by omega, by omega⟩
    · exact hdig c hc
  · rw [if_neg hneg] at hc
    have h2 : c ∈ natDecimal n.natAbs := by
      rw [show n.natAbs = n.toNat from by omega]
      exact hc
    exact hdig c h2

theorem intDecimal_digit_or_dash (n : Int) :
    (intDecimal n).all (fun b => isDigit b || b = 45) = true := by
  rw [List.all_eq_true]
  intro c hc
  rw [intDecimal] at hc
  by_cases hneg : n < 0
  · rw [if_pos hneg] at hc
    rcases List.mem_cons.mp hc with rfl | hc
    · simp
    · simp [natDecimal_digits c hc]
  · rw [if_neg hneg] at hc
    simp [natDecimal_digits c hc]

theorem printJson_head (options : BinaryEncoding) (v : BencodexValue) :
    ∃ b t, printJson options v = b :: t ∧
      (b = 34 ∨ b = 116 ∨ b = 102 ∨ b = 91 ∨ b = 123 ∨ b = 110) := by
  cases v with
  | binary bs =>
    refine ⟨34, printKeyBody options (.binary bs) ++ [34], ?_, by tauto⟩
    rw [printJson, printKeyBytes]
    rfl
  | text t =>
    refine ⟨34, printKeyBody options (.text t) ++ [34], ?_, by tauto⟩
    rw [printJson, printKeyBytes]
    rfl
  | boolean b =>
    cases b
    · exact ⟨102, [97, 108, 115, 101], by rw [printJson]; rfl, by tauto⟩
    · exact ⟨116, [114, 117, 101], by rw [printJson]; rfl, by tauto⟩
  | number n =>
    exact ⟨34, intDecimal n ++ [34], by rw [printJson]; rfl, by tauto⟩
  | list xs =>
    exact ⟨91, printJsonList options xs ++ [93], by rw [printJson]; rfl, by tauto⟩
  | dictionary m =>
    exact ⟨123, printJsonEntries options m ++ [125], by rw [printJson]; rfl, by tauto⟩
  | null =>
    exact ⟨110, [117, 108, 108], by rw [printJson], by tauto⟩

theorem parse_print_aux (options : BinaryEncoding) (fuel : Nat) :
    (∀ v rest, WF v = true → jsonSafe v = true →
      (printJson options v).length + 1 ≤ fuel →
      parseValue fuel (printJson options v ++ rest)
        = some (jsonOf options v, rest)) ∧
    (∀ xs acc rest, xs ≠ [] → WFlist xs = true → jsonSafeList xs = true →
      (printJsonList options xs).length + 2 ≤ fuel →
      parseArrElems fuel (printJsonList options xs ++ 93 :: rest) acc
        = some (.jarr (acc ++ jsonOfList options xs), rest)) ∧
    (∀ m acc rest, m ≠ [] → WFentries m = true → jsonSafeEntries m = true →
      (printJsonEntries options m).length + 2 ≤ fuel →
      parseObjEntries fuel (printJsonEntries options m ++ 125 :: rest) acc
        = some (.jobj (jsonObjOf options m acc), rest)) := by
  induction fuel using Nat.strong_induction_on with
  | _ fuel ih =>
    refine ⟨?_, ?_, ?_⟩
    · intro v rest hWF hsafe hfuel
      obtain ⟨f, rfl⟩ : ∃ f, fuel = f + 1 := ⟨fuel - 1, by omega⟩
      cases v with
      | null =>
        rw [printJson, parseValue]
        rw [show ([110, 117, 108, 108] : List Nat) ++ rest
            = 110 :: 117 :: 108 :: 108 :: rest from by simp]
        rw [skipWs_not_ws _ (by decide)]
        simp [jsonOf]
      | boolean b =>
        cases b
        · rw [show printJson options (.boolean false) = [102, 97, 108, 115, 101]
              from by rw [printJson]; rfl, parseValue]
          rw [show ([102, 97, 108, 115, 101] : List Nat) ++ rest
              = 102 :: 97 :: 108 :: 115 :: 101 :: rest from by simp]
          rw [skipWs_not_ws _ (by decide)]
          simp [jsonOf]
        · rw [show printJson options (.boolean true) = [116, 114, 117, 101]
              from by rw [printJson]; rfl, parseValue]
          rw [show ([116, 114, 117, 101] : List Nat) ++ rest
              = 116 :: 114 :: 117 :: 101 :: rest from by simp]
          rw [skipWs_not_ws _ (by decide)]
          simp [jsonOf]
      | number n =>
        rw [printJson, parseValue]
        rw [show (34 :: intDecimal n ++ [34]) ++ rest
            = 34 :: (intDecimal n ++ 34 :: rest) from by simp]
        rw [skipWs_not_ws _ (by decide)]
        have hsb : parseStringBody ((intDecimal n ++ 34 :: rest).length + 1)
            (intDecimal n ++ 34 :: rest) = some (intDecimal n, rest) := by
          have h1 := parseStringBody_append_plain (intDecimal n) 1 (34 :: rest)
            (intDecimal_plain n)
          rw [parseStringBody_one_quote] at h1
          simp at h1
          exact parseStringBody_mono (by simp) h1
        simp at hsb
        simp [hsb, jsonOf]
      | binary bs =>
        rw [printJson, printKeyBytes, parseValue]
        rw [show (34 :: printKeyBody options (.binary bs) ++ [34]) ++ rest
            = 34 :: (printKeyBody options (.binary bs) ++ 34 :: rest) from by simp]
        rw [skipWs_not_ws _ (by decide)]
        have hsb := printKeyBody_parse options (.binary bs) rfl
          ((printKeyBody options (.binary bs) ++ 34 :: rest).length + 1) rest
          (by simp)
        simp at hsb
        simp [hsb, jsonOf]
      | text t =>
        rw [printJson, printKeyBytes, parseValue]
        rw [show (34 :: printKeyBody options (.text t) ++ [34]) ++ rest
            = 34 :: (printKeyBody options (.text t) ++ 34 :: rest) from by simp]
        rw [skipWs_not_ws _ (by decide)]
        rw [jsonSafe] at hsafe
        have hsb := printKeyBody_parse options (.text t) (by rw [keyJsonSafe]; exact hsafe)
          ((printKeyBody options (.text t) ++ 34 :: rest).length + 1) rest
          (by simp)
        simp at hsb
        simp [hsb, jsonOf]
      | list xs =>
        rw [WF] at hWF
        rw [jsonSafe] at hsafe
        cases xs with
        | nil =>
          rw [printJson, parseValue]
          rw [show (91 :: printJsonList options [] ++ [93]) ++ rest
              = 91 :: 93 :: rest from by rw [printJsonList]; simp]
          rw [skipWs_not_ws _ (by decide)]
          simp [skipWs, isWs, jsonOf, jsonOfList]
        | cons x xs' =>
          obtain ⟨hb, ht, hhead, hbopts⟩ := printJson_head options x
          have hws : isWs hb = false := by
            rcases hbopts with rfl | rfl | rfl | rfl | rfl | rfl <;> decide
          have hb93 : hb ≠ 93 := by
            rcases hbopts with rfl | rfl | rfl | rfl | rfl | rfl <;> decide
          obtain ⟨t', hplx⟩ : ∃ t', printJsonList options (x :: xs') = hb :: t' := by
            cases xs' with
            | nil => exact ⟨ht, by rw [printJsonList, hhead]⟩
            | cons y ys =>
              refine ⟨ht ++ [44] ++ printJsonList options (y :: ys), ?_⟩
              rw [printJsonList, hhead]
              simp
          rw [printJson, parseValue]
          rw [show (91 :: printJsonList options (x :: xs') ++ [93]) ++ rest
              = 91 :: (printJsonList options (x :: xs') ++ 93 :: rest) from by simp]
          rw [skipWs_not_ws _ (by decide)]
          dsimp only
          have hsk : skipWs (printJsonList options (x :: xs') ++ 93 :: rest)
              = hb :: (t' ++ 93 :: rest) := by
            rw [hplx, List.cons_append, skipWs_not_ws _ hws]
          have hrec := (ih f (by omega)).2.1 (x :: xs') [] rest (by simp)
            hWF hsafe (by rw [printJson] at hfuel; simp at hfuel ⊢; omega)
          rw [hplx, List.cons_append] at hrec
          rw [hsk]
          split
          case isTrue hx => exact absurd hx (by decide)
          split
          case isTrue hx => exact absurd hx (by decide)
          split
          case isTrue hx => exact absurd hx (by decide)
          split
          case isTrue hx => exact absurd hx (by decide)
          split
          case isFalse hx => exact absurd rfl hx
          split
          case h_1 r₂ heq =>
            exfalso
            rw [List.cons.injEq] at heq
            exact hb93 heq.1
          case h_2 =>
            rw [hrec]
            simp [jsonOf]
      | dictionary m =>
        rw [WF, Bool.and_eq_true] at hWF
        obtain ⟨hsort, hWFe⟩ := hWF
        rw [jsonSafe] at hsafe
        cases m with
        | nil =>
          rw [printJson, parseValue]
          rw [show (123 :: printJsonEntries options [] ++ [125]) ++ rest
              = 123 :: 125 :: rest from by rw [printJsonEntries]; simp]
          rw [skipWs_not_ws _ (by decide)]
          simp [skipWs, isWs, jsonOf, jsonObjOf]
        | cons kv m' =>
          obtain ⟨t', hplx⟩ : ∃ t', printJsonEntries options (kv :: m') = 34 :: t' := by
            obtain ⟨k, v⟩ := kv
            cases m' with
            | nil =>
              refine ⟨printKeyBody options k ++ [34] ++ [58] ++ printJson options v, ?_⟩
              rw [printJsonEntries, printKeyBytes]
              simp
            | cons q m'' =>
              refine ⟨printKeyBody options k ++ [34] ++ [58] ++ printJson options v
                ++ [44] ++ printJsonEntries options (q :: m''), ?_⟩
              rw [printJsonEntries, printKeyBytes]
              simp
          rw [printJson, parseValue]
          rw [show (123 :: printJsonEntries options (kv :: m') ++ [125]) ++ rest
              = 123 :: (printJsonEntries options (kv :: m') ++ 125 :: rest) from by simp]
          rw [skipWs_not_ws _ (by decide)]
          dsimp only
          have hsk : skipWs (printJsonEntries options (kv :: m') ++ 125 :: rest)
              = 34 :: (t' ++ 125 :: rest) := by
            rw [hplx, List.cons_append, skipWs_not_ws _ (by decide)]
          have hrec := (ih f (by omega)).2.2 (kv :: m') [] rest (by simp)
            hWFe hsafe (by rw [printJson] at hfuel; simp at hfuel ⊢; omega)
          rw [hplx, List.cons_append] at hrec
          rw [hsk]
          split
          case isTrue hx => exact absurd hx (by decide)
          split
          case isTrue hx => exact absurd hx (by decide)
          split
          case isTrue hx => exact absurd hx (by decide)
          split
          case isTrue hx => exact absurd hx (by decide)
          split
          case isTrue hx => exact absurd hx (by decide)
          split
          case isFalse hx => exact absurd rfl hx
          split
          case h_1 r₂ heq =>
            exfalso
            rw [List.cons.injEq] at heq
            exact absurd heq.1 (by decide)
          case h_2 =>
            rw [hrec]
            simp [jsonOf]
    · intro xs acc rest hne hWF hsafe hfuel
      obtain ⟨f, rfl⟩ : ∃ f, fuel = f + 1 := ⟨fuel - 1, by omega⟩
      cases xs with
      | nil => exact absurd rfl hne
      | cons x xs' =>
        rw [WFlist, Bool.and_eq_true] at hWF
        obtain ⟨hWFx, hWFr⟩ := hWF
        rw [jsonSafeList, Bool.and_eq_true] at hsafe
        obtain ⟨hsx, hsr⟩ := hsafe
        rw [parseArrElems]
        cases xs' with
        | nil =>
          rw [printJsonList] at hfuel ⊢
          have hv := (ih f (by omega)).1 x (93 :: rest) hWFx hsx (by omega)
          rw [hv]
          dsimp only [Option.bind_eq_bind, Option.some_bind]
          rw [skipWs_not_ws _ (by decide)]
          simp [jsonOfList]
        | cons y ys =>
          rw [printJsonList] at hfuel ⊢
          rw [show (printJson options x ++ [44] ++ printJsonList options (y :: ys))
                ++ 93 :: rest
              = printJson options x
                ++ (44 :: (printJsonList options (y :: ys) ++ 93 :: rest)) from by simp]
          have hv := (ih f (by omega)).1 x
            (44 :: (printJsonList options (y :: ys) ++ 93 :: rest)) hWFx hsx
            (by simp at hfuel ⊢; omega)
          rw [hv]
          dsimp only [Option.bind_eq_bind, Option.some_bind]
          rw [skipWs_not_ws _ (by decide)]
          have hrec := (ih f (by omega)).2.1 (y :: ys) (acc ++ [jsonOf options x])
            rest (by simp) hWFr hsr (by simp at hfuel ⊢; omega)
          simp [hrec, jsonOfList]
    · intro m acc rest hne hWF hsafe hfuel
      obtain ⟨f, rfl⟩ : ∃ f, fuel = f + 1 := ⟨fuel - 1, by omega⟩
      cases m with
      | nil => exact absurd rfl hne
      | cons kv m' =>
        obtain ⟨k, v⟩ := kv
        rw [WFentries, Bool.and_eq_true, Bool.and_eq_true] at hWF
        obtain ⟨⟨hkOK, hWFv⟩, hWFr⟩ := hWF
        rw [jsonSafeEntries, Bool.and_eq_true, Bool.and_eq_true] at hsafe
        obtain ⟨⟨hks, hvs⟩, hrs⟩ := hsafe
        rw [parseObjEntries]
        cases m' with
        | nil =>
          rw [printJsonEntries] at hfuel ⊢
          rw [show (printKeyBytes options k ++ [58] ++ printJson options v) ++ 125 :: rest
              = 34 :: (printKeyBody options k
                  ++ 34 :: (58 :: (printJson options v ++ 125 :: rest))) from by
            rw [printKeyBytes]
            simp]
          rw [skipWs_not_ws _ (by decide)]
          split
          case h_2 hcat => exact ((hcat _ rfl).elim)
          case h_1 r heq =>
            rw [List.cons.injEq] at heq
            obtain ⟨-, rfl⟩ := heq
            have hk := printKeyBody_parse options k hks
              ((printKeyBody options k
                ++ 34 :: 58 :: (printJson options v ++ 125 :: rest)).length + 1)
              (58 :: (printJson options v ++ 125 :: rest)) (by simp)
            rw [hk]
            dsimp only [Option.bind_eq_bind, Option.some_bind]
            rw [skipWs_not_ws _ (by decide)]
            split
            case h_2 hcat => exact ((hcat _ rfl).elim)
            case h_1 r₃ heq₃ =>
              rw [List.cons.injEq] at heq₃
              obtain ⟨-, rfl⟩ := heq₃
              have hv := (ih f (by omega)).1 v (125 :: rest) hWFv hvs
                (by simp at hfuel; omega)
              rw [hv]
              dsimp only [Option.bind_eq_bind, Option.some_bind]
              rw [skipWs_not_ws _ (by decide)]
              split
              case h_1 r₅ heq₅ =>
                exfalso
                rw [List.cons.injEq] at heq₅
                exact absurd heq₅.1 (by decide)
              case h_2 r₅ heq₅ =>
                rw [List.cons.injEq] at heq₅
                obtain ⟨-, rfl⟩ := heq₅
                simp [jsonObjOf]
              case h_3 h44 h125 => exact ((h125 _ rfl).elim)
        | cons q m'' =>
          rw [printJsonEntries] at hfuel ⊢
          rw [show (printKeyBytes options k ++ [58] ++ printJson options v ++ [44]
                ++ printJsonEntries options (q :: m'')) ++ 125 :: rest
              = 34 :: (printKeyBody options k ++ 34 :: 58 :: (printJson options v
                ++ 44 :: (printJsonEntries options (q :: m'') ++ 125 :: rest))) from by
            rw [printKeyBytes]
            simp]
          rw [skipWs_not_ws _ (by decide)]
          split
          case h_2 hcat => exact ((hcat _ rfl).elim)
          case h_1 r heq =>
            rw [List.cons.injEq] at heq
            obtain ⟨-, rfl⟩ := heq
            have hk := printKeyBody_parse options k hks
              ((printKeyBody options k ++ 34 :: 58 :: (printJson options v
                ++ 44 :: (printJsonEntries options (q :: m'') ++ 125 :: rest))).length + 1)
              (58 :: (printJson options v
                ++ 44 :: (printJsonEntries options (q :: m'') ++ 125 :: rest))) (by simp)
            rw [hk]
            dsimp only [Option.bind_eq_bind, Option.some_bind]
            rw [skipWs_not_ws _ (by decide)]
            split
            case h_2 hcat => exact ((hcat _ rfl).elim)
            case h_1 r₃ heq₃ =>
              rw [List.cons.injEq] at heq₃
              obtain ⟨-, rfl⟩ := heq₃
              have hv := (ih f (by omega)).1 v
                (44 :: (printJsonEntries options (q :: m'') ++ 125 :: rest)) hWFv hvs
                (by simp at hfuel; omega)
              rw [hv]
              dsimp only [Option.bind_eq_bind, Option.some_bind]
              rw [skipWs_not_ws _ (by decide)]
              split
              case h_2 r₅ heq₅ =>
                exfalso
                rw [List.cons.injEq] at heq₅
                exact absurd heq₅.1 (by decide)
              case h_3 h44 h125 => exact ((h44 _ rfl).elim)
              case h_1 r₅ heq₅ =>
                rw [List.cons.injEq] at heq₅
                obtain ⟨-, rfl⟩ := heq₅
                have hrec := (ih f (by omega)).2.2 (q :: m'')
                  (strInsert acc (jsonKeyStr options k) (jsonOf options v)) rest
                  (by simp) hWFr hrs (by simp at hfuel ⊢; omega)
                rw [hrec]
                simp [jsonObjOf]

theorem fromJsonKeyImpl_jsonKeyStr (options : BinaryEncoding) (k : BencodexKey)
    (hOK : keyOK k = true) :
    fromJsonKeyImpl (jsonKeyStr options k) = .ok k := by
  cases k with
  | binary bs =>
    rw [keyOK, Bool.and_eq_true] at hOK
    obtain ⟨hbytes, hmax⟩ := hOK
    cases options with
    | base64 =>
      rw [jsonKeyStr, fromJsonKeyImpl]
      rw [if_pos (by simp [List.take])]
      rw [show (([98, 54, 52, 58] : List Nat) ++ b64encode bs).drop 4
          = b64encode bs from by simp]
      rw [b64decode_b64encode bs hbytes]
    | hex =>
      rw [jsonKeyStr, fromJsonKeyImpl]
      rw [if_neg (by simp [List.take]), if_pos (by simp [List.take])]
      rw [show (([48, 120] : List Nat) ++ hexEncode bs).drop 2
          = hexEncode bs from by simp]
      rw [hexDecode_hexEncode bs hbytes]
  | text t =>
    rw [jsonKeyStr, bomBytes, fromJsonKeyImpl]
    rw [if_neg (by simp [List.take]), if_neg (by simp [List.take]),
      if_pos (by rw [bomBytes]; simp [List.take])]
    rw [show (([239, 187, 191] : List Nat) ++ t).drop 3 = t from by simp]

theorem jsonKeyStr_inj (options : BinaryEncoding) {k₁ k₂ : BencodexKey}
    (h1 : keyOK k₁ = true) (h2 : keyOK k₂ = true)
    (h : jsonKeyStr options k₁ = jsonKeyStr options k₂) : k₁ = k₂ := by
  have e1 := fromJsonKeyImpl_jsonKeyStr options k₁ h1
  have e2 := fromJsonKeyImpl_jsonKeyStr options k₂ h2
  rw [h, e2] at e1
  cases e1
  rfl

theorem fromJsonKeyImpl_not_tagged (s : List Nat)
    (h4 : s.take 4 ≠ [98, 54, 52, 58]) (h2 : s.take 2 ≠ [48, 120])
    (h3 : s.take 3 ≠ bomBytes) :
    fromJsonKeyImpl s = .error .invalidJson := by
  rw [fromJsonKeyImpl, if_neg h4, if_neg h2, if_neg h3]

theorem intDecimal_not_tagged (n : Int) :
    (intDecimal n).take 4 ≠ [98, 54, 52, 58] ∧
    (intDecimal n).take 2 ≠ [48, 120] ∧
    (intDecimal n).take 3 ≠ bomBytes := by
  rw [bomBytes, intDecimal]
  by_cases hneg : n < 0
  · rw [if_pos hneg]
    refine ⟨?_, ?_, ?_⟩ <;> simp [List.take]
  · rw [if_neg hneg]
    obtain ⟨d, ds, hds⟩ : ∃ d ds, natDecimal n.toNat = d :: ds := by
      cases hh : natDecimal n.toNat with
      | nil => exact absurd hh (natDecimal_ne_nil _)
      | cons d ds => exact ⟨d, ds, rfl⟩
    have hd : isDigit d = true :=
      natDecimal_digits d (by rw [hds]; exact List.mem_cons_self _ _)
    obtain ⟨hlo, hhi⟩ : 48 ≤ d ∧ d ≤ 57 := by simpa [isDigit] using hd
    rw [hds]
    refine ⟨?_, ?_, ?_⟩
    · simp only [List.take]
      intro hcontra
      rw [List.cons.injEq] at hcontra
      omega
    · cases ds with
      | nil =>
        simp only [List.take]
        intro hcontra
        cases hcontra
      | cons e es =>
        have he : isDigit e = true :=
          natDecimal_digits e (by rw [hds]; simp)
        obtain ⟨helo, hehi⟩ : 48 ≤ e ∧ e ≤ 57 := by simpa [isDigit] using he
        simp only [List.take]
        intro hcontra
        rw [List.cons.injEq, List.cons.injEq] at hcontra
        omega
    · simp only [List.take]
      intro hcontra
      rw [List.cons.injEq] at hcontra
      omega

theorem mapInsert_comm (m : List (BencodexKey × BencodexValue))
    (k₁ : BencodexKey) (v₁ : BencodexValue) (k₂ : BencodexKey)
    (v₂ : BencodexValue) (hne : k₁ ≠ k₂) :
    (mapInsert (mapInsert m k₁ v₁).1 k₂ v₂).1
      = (mapInsert (mapInsert m k₂ v₂).1 k₁ v₁).1 := by
  have hne₁₂ : cmpKeyOrd k₁ k₂ ≠ .eq := fun h => hne (cmpKeyOrd_eq_iff.mp h)
  have hne₂₁ : cmpKeyOrd k₂ k₁ ≠ .eq := fun h => hne (cmpKeyOrd_eq_iff.mp h).symm
  induction m with
  | nil =>
    rcases h12 : cmpKeyOrd k₁ k₂ with _ | _ | _
    · have h21 : cmpKeyOrd k₂ k₁ = .gt := by
        rw [← cmpKeyOrd_swap, h12]
        rfl
      simp [mapInsert, h12, h21]
    · exact absurd h12 hne₁₂
    · have h21 : cmpKeyOrd k₂ k₁ = .lt := by
        rw [← cmpKeyOrd_swap, h12]
        rfl
      simp [mapInsert, h12, h21]
  | cons p r ih =>
    obtain ⟨k, v⟩ := p
    rcases h1 : cmpKeyOrd k₁ k with _ | _ | _ <;>
      rcases h2 : cmpKeyOrd k₂ k with _ | _ | _
    · -- lt, lt: depends on cmp k₂ k₁
      rcases h12 : cmpKeyOrd k₁ k₂ with _ | _ | _
      · have h21 : cmpKeyOrd k₂ k₁ = .gt := by
          rw [← cmpKeyOrd_swap, h12]
          rfl
        simp [mapInsert, h1, h2, h12, h21]
      · exact absurd h12 hne₁₂
      · have h21 : cmpKeyOrd k₂ k₁ = .lt := by
          rw [← cmpKeyOrd_swap, h12]
          rfl
        simp [mapInsert, h1, h2, h12, h21]
    · -- lt, eq: k₂ = k
      have hk : k₂ = k := cmpKeyOrd_eq_iff.mp h2
      subst hk
      have h21 : cmpKeyOrd k₂ k₁ = .gt := by
        rw [← cmpKeyOrd_swap, h1]
        rfl
      simp [mapInsert, h1, h2, h21]
    · -- lt, gt: k₂ > k > k₁
      have h21 : cmpKeyOrd k₂ k₁ = .gt := by
        rw [cmpKeyOrd_gt_iff] at h2 ⊢
        have hk1 : cmpKeyOrd k₁ k = .lt := h1
        exact cmpKeyOrd_lt_trans hk1 h2
      simp [mapInsert, h1, h2, h21]
    · -- eq, lt
      have hk : k₁ = k := cmpKeyOrd_eq_iff.mp h1
      subst hk
      have h12 : cmpKeyOrd k₁ k₂ = .gt := by
        rw [← cmpKeyOrd_swap, h2]
        rfl
      simp [mapInsert, h1, h2, h12]
    · -- eq, eq: k₁ = k = k₂ contradiction
      exact absurd (cmpKeyOrd_eq_iff.mp h1 |>.trans (cmpKeyOrd_eq_iff.mp h2).symm) hne
    · -- eq, gt
      have hk : k₁ = k := cmpKeyOrd_eq_iff.mp h1
      subst hk
      simp [mapInsert, h1, h2]
    · -- gt, lt
      have h12 : cmpKeyOrd k₁ k₂ = .gt := by
        rw [cmpKeyOrd_gt_iff] at h1 ⊢
        have hk2 : cmpKeyOrd k₂ k = .lt := h2
        exact cmpKeyOrd_lt_trans hk2 h1
      simp [mapInsert, h1, h2, h12]
    · -- gt, eq
      have hk : k₂ = k := cmpKeyOrd_eq_iff.mp h2
      subst hk
      simp [mapInsert, h1, h2]
    · -- gt, gt: recurse
      simp [mapInsert, h1, h2, ih]

theorem mem_same_key {m : List (BencodexKey × BencodexValue)}
    (hp : List.Pairwise (fun p q => cmpKeyOrd p.1 q.1 = .lt) m)
    {k : BencodexKey} {v₁ v₂ : BencodexValue}
    (h1 : (k, v₁) ∈ m) (h2 : (k, v₂) ∈ m) : v₁ = v₂ := by
  induction m with
  | nil => cases h1
  | cons p r ih =>
    rw [List.pairwise_cons] at hp
    obtain ⟨hhead, htail⟩ := hp
    rcases List.mem_cons.mp h1 with rfl | h1t
    · rcases List.mem_cons.mp h2 with he | h2t
      · exact (Prod.mk.injEq _ _ _ _ ▸ he).2.symm
      · have := hhead _ h2t
        simp only [cmpKeyOrd_eq_iff.mpr rfl] at this
        cases this
    · rcases List.mem_cons.mp h2 with rfl | h2t
      · have := hhead _ h1t
        simp only [cmpKeyOrd_eq_iff.mpr rfl] at this
        cases this
      · exact ih htail h1t h2t

theorem foldl_mapInsert_sorted (m acc : List (BencodexKey × BencodexValue))
    (h : keysStrictSorted (acc ++ m) = true) :
    m.foldl (fun a p => (mapInsert a p.1 p.2).1) acc = acc ++ m := by
  induction m generalizing acc with
  | nil => simp
  | cons p r ih =>
    obtain ⟨k, v⟩ := p
    have hpair := keysStrictSorted_pairwise h
    have hlt : ∀ q ∈ acc, cmpKeyOrd q.1 k = .lt := by
      intro q hq
      have := (List.pairwise_append.mp hpair).2.2 q hq (k, v) (by simp)
      exact this
    rw [List.foldl_cons]
    have hins : mapInsert acc k v = (acc ++ [(k, v)], none) :=
      mapInsert_append acc k v hlt
    rw [hins]
    have hsort₂ : keysStrictSorted ((acc ++ [(k, v)]) ++ r) = true := by
      rw [List.append_assoc, List.singleton_append]
      exact h
    rw [ih (acc ++ [(k, v)]) hsort₂]
    simp

theorem strInsert_mem {m : List (List Nat × Json)} {k : List Nat} {v : Json}
    {q : List Nat × Json} (h : q ∈ strInsert m k v) : q = (k, v) ∨ q ∈ m := by
  induction m with
  | nil =>
    rw [strInsert] at h
    rcases List.mem_singleton.mp h with rfl
    exact Or.inl rfl
  | cons p r ih =>
    obtain ⟨k₁, v₁⟩ := p
    rw [strInsert] at h
    rcases hc : cmpBytes k k₁ with _ | _ | _ <;> rw [hc] at h
    · rcases List.mem_cons.mp h with rfl | h₂
      · exact Or.inl rfl
      · exact Or.inr h₂
    · rcases List.mem_cons.mp h with rfl | h₂
      · left
        rw [cmpBytes_eq_iff.mp hc]
      · exact Or.inr (List.mem_cons_of_mem _ h₂)
    · rcases List.mem_cons.mp h with rfl | h₂
      · exact Or.inr (List.mem_cons_self _ _)
      · rcases ih h₂ with h₃ | h₃
        · exact Or.inl h₃
        · exact Or.inr (List.mem_cons_of_mem _ h₃)

theorem strInsert_perm (m : List (List Nat × Json)) (k : List Nat) (v : Json)
    (h : ∀ p ∈ m, cmpBytes k p.1 ≠ .eq) :
    List.Perm (strInsert m k v) ((k, v) :: m) := by
  induction m with
  | nil => rw [strInsert]
  | cons p r ih =>
    obtain ⟨k₁, v₁⟩ := p
    rw [strInsert]
    rcases hc : cmpBytes k k₁ with _ | _ | _
    · exact List.Perm.refl _
    · exact absurd hc (h (k₁, v₁) (List.mem_cons_self _ _))
    · exact (List.Perm.cons _
        (ih (fun p hp => h p (List.mem_cons_of_mem _ hp)))).trans
        (List.Perm.swap _ _ _)

theorem jsonObjOf_perm (options : BinaryEncoding)
    (m : List (BencodexKey × BencodexValue)) (acc : List (List Nat × Json))
    (hdist : ∀ p ∈ m, ∀ q ∈ acc, cmpBytes (jsonKeyStr options p.1) q.1 ≠ .eq)
    (hpair : List.Pairwise
      (fun p q => jsonKeyStr options p.1 ≠ jsonKeyStr options q.1) m) :
    List.Perm (jsonObjOf options m acc)
      ((m.map (fun p => (jsonKeyStr options p.1, jsonOf options p.2))) ++ acc) := by
  induction m generalizing acc with
  | nil => simp [jsonObjOf]
  | cons p r ih =>
    obtain ⟨k, v⟩ := p
    rw [List.pairwise_cons] at hpair
    obtain ⟨hhead, htail⟩ := hpair
    rw [jsonObjOf]
    have hip := strInsert_perm acc (jsonKeyStr options k) (jsonOf options v)
      (fun q hq => hdist (k, v) (List.mem_cons_self _ _) q hq)
    have hdist₂ : ∀ p ∈ r, ∀ q ∈ strInsert acc (jsonKeyStr options k) (jsonOf options v),
        cmpBytes (jsonKeyStr options p.1) q.1 ≠ .eq := by
      intro p hp q hq
      rcases strInsert_mem hq with rfl | hq₂
      · intro hcontra
        exact hhead p hp (cmpBytes_eq_iff.mp hcontra).symm
      · exact hdist p (List.mem_cons_of_mem _ hp) q hq₂
    refine ((ih _ hdist₂ htail).trans
      (List.Perm.append_left _ hip)).trans ?_
    rw [List.map_cons]
    exact List.perm_middle

theorem fromJsonEntries_fold (l : List (List Nat × Json))
    (acc : List (BencodexKey × BencodexValue))
    (dec : ∀ p ∈ l, (∃ k, fromJsonKeyImpl p.1 = .ok k)
      ∧ (∃ v, fromJson p.2 = .ok v)) :
    fromJsonEntries l acc
      = .ok (l.foldl (fun a p => (mapInsert a (decKeyD p.1) (decValD p.2)).1) acc) := by
  induction l generalizing acc with
  | nil => rw [fromJsonEntries, List.foldl_nil]
  | cons p r ih =>
    obtain ⟨s, j⟩ := p
    obtain ⟨⟨k, hk⟩, ⟨v, hv⟩⟩ := dec (s, j) (List.mem_cons_self _ _)
    rw [fromJsonEntries, List.foldl_cons]
    have hdk : decKeyD s = k := by rw [decKeyD, hk]
    have hdv : decValD j = v := by rw [decValD, hv]
    rw [hdk, hdv]
    simp only [hk, hv]
    show fromJsonEntries r (mapInsert acc k v).1 = _
    exact ih _ (fun p hp => dec p (List.mem_cons_of_mem _ hp))

theorem fromJsonList_map (options : BinaryEncoding) (xs : List BencodexValue)
    (h : ∀ x ∈ xs, fromJson (jsonOf options x) = .ok x) :
    fromJsonList (jsonOfList options xs) = .ok xs := by
  induction xs with
  | nil => rw [jsonOfList, fromJsonList]
  | cons x r ih =>
    rw [jsonOfList, fromJsonList]
    simp only [h x (List.mem_cons_self _ _),
      ih (fun y hy => h y (List.mem_cons_of_mem _ hy))]
    rfl

theorem WFlist_mem {xs : List BencodexValue} {x : BencodexValue}
    (h : WFlist xs = true) (hx : x ∈ xs) : WF x = true := by
  induction xs with
  | nil => cases hx
  | cons y r ih =>
    rw [WFlist, Bool.and_eq_true] at h
    rcases List.mem_cons.mp hx with rfl | hx₂
    · exact h.1
    · exact ih h.2 hx₂

theorem jsonSafeList_mem {xs : List BencodexValue} {x : BencodexValue}
    (h : jsonSafeList xs = true) (hx : x ∈ xs) : jsonSafe x = true := by
  induction xs with
  | nil => cases hx
  | cons y r ih =>
    rw [jsonSafeList, Bool.and_eq_true] at h
    rcases List.mem_cons.mp hx with rfl | hx₂
    · exact h.1
    · exact ih h.2 hx₂

theorem WFentries_mem {m : List (BencodexKey × BencodexValue)}
    {p : BencodexKey × BencodexValue} (h : WFentries m = true) (hp : p ∈ m) :
    keyOK p.1 = true ∧ WF p.2 = true := by
  induction m with
  | nil => cases hp
  | cons q r ih =>
    obtain ⟨k, v⟩ := q
    rw [WFentries, Bool.and_eq_true, Bool.and_eq_true] at h
    rcases List.mem_cons.mp hp with rfl | hp₂
    · exact ⟨h.1.1, h.1.2⟩
    · exact ih h.2 hp₂

theorem jsonSafeEntries_mem {m : List (BencodexKey × BencodexValue)}
    {p : BencodexKey × BencodexValue} (h : jsonSafeEntries m = true) (hp : p ∈ m) :
    keyJsonSafe p.1 = true ∧ jsonSafe p.2 = true := by
  induction m with
  | nil => cases hp
  | cons q r ih =>
    obtain ⟨k, v⟩ := q
    rw [jsonSafeEntries, Bool.and_eq_true, Bool.and_eq_true] at h
    rcases List.mem_cons.mp hp with rfl | hp₂
    · exact ⟨h.1.1, h.1.2⟩
    · exact ih h.2 hp₂

theorem fromJson_jsonOf (options : BinaryEncoding) (v : BencodexValue)
    (hWF : WF v = true) (hsafe : jsonSafe v = true) :
    fromJson (jsonOf options v) = .ok v := by
  obtain ⟨n, hn⟩ : ∃ n, vsize v = n := ⟨_, rfl⟩
  induction n using Nat.strong_induction_on generalizing v with
  | _ n ih =>
    cases v with
    | null =>
      rw [jsonOf, fromJson]
    | boolean b =>
      rw [jsonOf, fromJson]
    | binary bs =>
      rw [jsonOf, fromJson]
      rw [fromJsonKeyImpl_jsonKeyStr options (.binary bs)
        (by rw [keyOK]; rw [WF] at hWF; exact hWF)]
    | text t =>
      rw [jsonOf, fromJson]
      rw [fromJsonKeyImpl_jsonKeyStr options (.text t)
        (by rw [keyOK]; rw [WF] at hWF; exact hWF)]
    | number m =>
      rw [jsonOf, fromJson]
      obtain ⟨h4, h2, h3⟩ := intDecimal_not_tagged m
      rw [fromJsonKeyImpl_not_tagged _ h4 h2 h3]
      rw [if_pos (intDecimal_digit_or_dash m)]
      rw [bigIntParse_intDecimal]
    | list xs =>
      rw [WF] at hWF
      rw [jsonSafe] at hsafe
      rw [jsonOf, fromJson]
      rw [fromJsonList_map options xs (fun x hx =>
        ih (vsize x) (by
          have := vsize_le_lsize hx
          subst hn
          rw [vsize]
          omega) x (WFlist_mem hWF hx) (jsonSafeList_mem hsafe hx) rfl)]
      rfl
    | dictionary m =>
      rw [WF, Bool.and_eq_true] at hWF
      obtain ⟨hsort, hWFe⟩ := hWF
      rw [jsonSafe] at hsafe
      have hkeysOK : ∀ p ∈ m, keyOK p.1 = true :=
        fun p hp => (WFentries_mem hWFe hp).1
      have hpairlt := keysStrictSorted_pairwise hsort
      have hpairstr : List.Pairwise
          (fun p q => jsonKeyStr options p.1 ≠ jsonKeyStr options q.1) m := by
        have hpairne : List.Pairwise (fun p q : BencodexKey × BencodexValue
            => p.1 ≠ q.1) m := by
          refine hpairlt.imp ?_
          intro a b hlt hcontra
          rw [hcontra, cmpKeyOrd_eq_iff.mpr rfl] at hlt
          cases hlt
        refine List.Pairwise.imp_of_mem ?_ hpairne
        intro a b ha hb hne hcontra
        exact hne (jsonKeyStr_inj options (hkeysOK a ha) (hkeysOK b hb) hcontra)
      have hperm := jsonObjOf_perm options m []
        (fun p hp q hq => absurd hq (List.not_mem_nil q)) hpairstr
      rw [List.append_nil] at hperm
      have hdecode : ∀ p ∈ m,
          fromJsonKeyImpl (jsonKeyStr options p.1) = .ok p.1
          ∧ fromJson (jsonOf options p.2) = .ok p.2 := by
        intro p hp
        refine ⟨fromJsonKeyImpl_jsonKeyStr options p.1 (hkeysOK p hp), ?_⟩
        exact ih (vsize p.2) (by
          have := vsize_le_esize hp
          subst hn
          rw [vsize]
          omega) p.2 (WFentries_mem hWFe hp).2 (jsonSafeEntries_mem hsafe hp).2 rfl
      have hdec₂ : ∀ q ∈ jsonObjOf options m [],
          (∃ k, fromJsonKeyImpl q.1 = .ok k) ∧ (∃ w, fromJson q.2 = .ok w) := by
        intro q hq
        have hq₂ : q ∈ m.map (fun p => (jsonKeyStr options p.1, jsonOf options p.2)) :=
          hperm.mem_iff.mp hq
        obtain ⟨p, hp, rfl⟩ := List.mem_map.mp hq₂
        exact ⟨⟨p.1, (hdecode p hp).1⟩, ⟨p.2, (hdecode p hp).2⟩⟩
      rw [jsonOf, fromJson]
      rw [fromJsonEntries_fold _ _ hdec₂]
      have hcomm : ∀ x ∈ jsonObjOf options m [], ∀ y ∈ jsonObjOf options m [],
          ∀ z, (mapInsert (mapInsert z (decKeyD x.1) (decValD x.2)).1
              (decKeyD y.1) (decValD y.2)).1
            = (mapInsert (mapInsert z (decKeyD y.1) (decValD y.2)).1
              (decKeyD x.1) (decValD x.2)).1 := by
        intro x hx y hy z
        obtain ⟨px, hpx, rfl⟩ := List.mem_map.mp (hperm.mem_iff.mp hx)
        obtain ⟨py, hpy, rfl⟩ := List.mem_map.mp (hperm.mem_iff.mp hy)
        have hdx : decKeyD (jsonKeyStr options px.1) = px.1 := by
          rw [decKeyD, (hdecode px hpx).1]
        have hdy : decKeyD (jsonKeyStr options py.1) = py.1 := by
          rw [decKeyD, (hdecode py hpy).1]
        have hvx : decValD (jsonOf options px.2) = px.2 := by
          rw [decValD, (hdecode px hpx).2]
        have hvy : decValD (jsonOf options py.2) = py.2 := by
          rw [decValD, (hdecode py hpy).2]
        rw [hdx, hdy, hvx, hvy]
        by_cases hk : px.1 = py.1
        · have : px.2 = py.2 := mem_same_key hpairlt (hk ▸ hpx) hpy
          rw [hk, this]
        · exact mapInsert_comm z px.1 px.2 py.1 py.2 hk
      rw [hperm.foldl_eq' hcomm []]
      rw [List.foldl_map]
      have hfold : m.foldl (fun a p =>
          (mapInsert a (decKeyD (jsonKeyStr options p.1))
            (decValD (jsonOf options p.2))).1) []
          = m.foldl (fun a p => (mapInsert a p.1 p.2).1) [] := by
        apply List.foldl_ext
        intro a p hp
        rw [show decKeyD (jsonKeyStr options p.1) = p.1 from by
            rw [decKeyD, (hdecode p hp).1],
          show decValD (jsonOf options p.2) = p.2 from by
            rw [decValD, (hdecode p hp).2]]
      rw [hfold]
      rw [foldl_mapInsert_sorted m [] (by rw [List.nil_append]; exact hsort)]
      rfl

theorem parseDoc_printJson (options : BinaryEncoding) (v : BencodexValue)
    (hWF : WF v = true) (hsafe : jsonSafe v = true) :
    parseDoc (printJson options v) = some (jsonOf options v) := by
  rw [parseDoc]
  have h := (parse_print_aux options ((printJson options v).length + 1)).1 v []
    hWF hsafe (Nat.le_refl _)
  rw [List.append_nil] at h
  rw [h]
  dsimp only [Option.bind_eq_bind, Option.some_bind]
  rw [show skipWs [] = [] from rfl]
  rw [if_pos rfl]

/-- C1: for every `BencodexValue` constructible by the Rust model
(`WF v = true`: `u8` payload bytes, `usize` lengths, valid UTF-8 text,
sorted `BTreeMap` dictionaries), encoding with `Encode::encode` and then
decoding the produced bytes with `Decode::decode` succeeds and returns a
value equal to `v`. -/
theorem c1_decode_encode_round_trip (v : BencodexValue) (h : WF v = true) :
    vecDecode (encBytes v) = DRes.ok v := by
  have hrt := (decode_round_aux (3 * (encBytes v).length + 3)).1 v [] [] h (by omega)
  simp only [List.nil_append, List.append_nil, List.length_nil] at hrt
  simp [vecDecode, hrt]

theorem c1_decode_encode_round_trip_witness :
    WF (BencodexValue.dictionary [(.binary [7], .number (-5)),
        (.text [97], .list [.null, .boolean true])]) = true ∧
    vecDecode (encBytes (BencodexValue.dictionary [(.binary [7], .number (-5)),
        (.text [97], .list [.null, .boolean true])]))
      = DRes.ok (BencodexValue.dictionary [(.binary [7], .number (-5)),
        (.text [97], .list [.null, .boolean true])]) :=
  ⟨by decide, c1_decode_encode_round_trip _ (by decide)⟩

/-- C9: when the decoder accepts `buf` — its prefix is one complete
encoded value parsed from offset 0, consuming `n` bytes — `Decode::decode`
returns exactly that value, appending arbitrary trailing bytes after the
consumed span neither fails nor changes the result, and the top-level
entry point discards the consumed byte count. -/
theorem c9_trailing_bytes_ignored (buf ext : List Nat) (v : BencodexValue) (n : Nat)
    (h : decodeImpl (3 * buf.length + 3) buf 0 = .ok (v, n)) :
    vecDecode buf = .ok v ∧ vecDecode (buf ++ ext) = .ok v := by
  constructor
  · simp [vecDecode, h]
  · have h' := (decode_frame_aux (3 * buf.length + 3)).1
      (3 * (buf ++ ext).length + 3) buf ext 0 (v, n)
      (by rw [List.length_append]; omega) h
    simp only [List.length_append] at h'
    simp [vecDecode, h']

theorem c9_trailing_bytes_ignored_witness :
    decodeImpl (3 * [110].length + 3) [110] 0 = .ok (.null, 1) ∧
    (vecDecode [110] = .ok .null ∧ vecDecode ([110] ++ [120]) = .ok .null) :=
  ⟨by decide, c9_trailing_bytes_ignored [110] [120] .null 1 (by decide)⟩

/-- C7 (counterexample to the claim as stated): the `"0x"`-prefixed JSON
string `"0xZZ"` does not decode to `Binary`: its hex payload is invalid,
so `from_json` fails with `InvalidJson` (the repository's own doctest),
contradicting the claim that a `"0x"`-prefixed string decodes to
`Binary`. -/
theorem c7_prefixed_string_payload_can_fail :
    fromJson (Json.jstr [48, 120, 90, 90]) = .error .invalidJson := by rfl

/-- C7 (amended): `from_json` classifies a JSON string in code order —
`"b64:"`-prefixed strings decode to `Binary` exactly when the base64
payload is valid, else fail with `InvalidJson`; otherwise `"0x"`-prefixed
strings decode to `Binary` exactly when the hex payload is valid, else
fail with `InvalidJson`; otherwise U+FEFF-prefixed strings decode to
`Text`; otherwise a string of ASCII digits and `'-'` parses as `Number`
when `BigInt::from_str` accepts it, else fails with `InvalidJson`; every
other string fails with `InvalidJson`; a JSON numeric literal always
fails with `InvalidJson`; and a malformed outer document makes
`from_json_string` fail with `InvalidJsonString`. -/
theorem c7_from_json_string_classification :
    (∀ s, s.take 4 = [98, 54, 52, 58] →
      fromJson (.jstr s) = (match b64decode (s.drop 4) with
        | some b => .ok (.binary b)
        | none => .error .invalidJson)) ∧
    (∀ s, s.take 4 ≠ [98, 54, 52, 58] → s.take 2 = [48, 120] →
      fromJson (.jstr s) = (match hexDecode (s.drop 2) with
        | some b => .ok (.binary b)
        | none => .error .invalidJson)) ∧
    (∀ s, s.take 4 ≠ [98, 54, 52, 58] → s.take 2 ≠ [48, 120] →
      s.take 3 = bomBytes → fromJson (.jstr s) = .ok (.text (s.drop 3))) ∧
    (∀ s, s.take 4 ≠ [98, 54, 52, 58] → s.take 2 ≠ [48, 120] →
      s.take 3 ≠ bomBytes → s.all (fun b => isDigit b || b = 45) = true →
      fromJson (.jstr s) = (match bigIntParse s with
        | some n => .ok (.number n)
        | none => .error .invalidJson)) ∧
    (∀ s, s.take 4 ≠ [98, 54, 52, 58] → s.take 2 ≠ [48, 120] →
      s.take 3 ≠ bomBytes → s.all (fun b => isDigit b || b = 45) = false →
      fromJson (.jstr s) = .error .invalidJson) ∧
    (∀ ds, fromJson (.jnum ds) = .error .invalidJson) ∧
    (∀ s, parseDoc s = none → fromJsonString s = .error .invalidJsonString) := by
  refine ⟨?_, ?_, ?_, ?_, ?_, ?_, ?_⟩
  · intro s h4
    obtain ⟨r, hr⟩ : ∃ r, s = 98 :: 54 :: 52 :: 58 :: r := by
      refine ⟨s.drop 4, ?_⟩
      conv_lhs => rw [← List.take_append_drop 4 s]
      rw [h4]
      rfl
    subst hr
    cases hb : b64decode r with
    | some bs => simp [fromJson, fromJsonKeyImpl, hb]
    | none => simp [fromJson, fromJsonKeyImpl, hb, isDigit]
  · intro s h4 h2
    obtain ⟨r, hr⟩ : ∃ r, s = 48 :: 120 :: r := by
      refine ⟨s.drop 2, ?_⟩
      conv_lhs => rw [← List.take_append_drop 2 s]
      rw [h2]
      rfl
    subst hr
    cases hb : hexDecode r with
    | some bs => simp [fromJson, fromJsonKeyImpl, h4, hb]
    | none => simp [fromJson, fromJsonKeyImpl, h4, hb, isDigit]
  · intro s h4 h2 h3
    obtain ⟨r, hr⟩ : ∃ r, s = 239 :: 187 :: 191 :: r := by
      refine ⟨s.drop 3, ?_⟩
      conv_lhs => rw [← List.take_append_drop 3 s]
      rw [h3]
      rfl
    subst hr
    simp [fromJson, fromJsonKeyImpl, h4, h2, bomBytes]
  · intro s h4 h2 h3 hall
    simp only [bomBytes] at h3
    cases hp : bigIntParse s with
    | some n => simp [fromJson, fromJsonKeyImpl, h4, h2, h3, hall, hp, bomBytes]
    | none => simp [fromJson, fromJsonKeyImpl, h4, h2, h3, hall, hp, bomBytes]
  · intro s h4 h2 h3 hall
    simp only [bomBytes] at h3
    simp [fromJson, fromJsonKeyImpl, h4, h2, h3, hall, bomBytes]
  · intro ds
    rfl
  · intro s h
    rw [fromJsonString, h]

theorem c7_from_json_string_classification_witness :
    fromJson (.jstr [98, 54, 52, 58, 89, 81, 61, 61]) = .ok (.binary [97]) ∧
    fromJson (.jstr [48, 120, 52, 49]) = .ok (.binary [65]) ∧
    fromJson (.jstr [239, 187, 191, 104, 105]) = .ok (.text [104, 105]) ∧
    fromJson (.jstr [45, 52, 50]) = .ok (.number (-42)) ∧
    fromJson (.jstr [104, 105]) = .error .invalidJson ∧
    fromJson (.jnum [48]) = .error .invalidJson ∧
    fromJsonString [110, 117, 108, 108, 108] = .error .invalidJsonString :=
  ⟨(c7_from_json_string_classification.1 [98, 54, 52, 58, 89, 81, 61, 61]
      (by rfl)).trans (by rfl),
   (c7_from_json_string_classification.2.1 [48, 120, 52, 49]
      (by decide) (by rfl)).trans (by rfl),
   c7_from_json_string_classification.2.2.1 [239, 187, 191, 104, 105]
      (by decide) (by decide) (by rfl),
   (c7_from_json_string_classification.2.2.2.1 [45, 52, 50]
      (by decide) (by decide) (by decide) (by rfl)).trans (by rfl),
   c7_from_json_string_classification.2.2.2.2.1 [104, 105]
      (by decide) (by decide) (by decide) (by rfl),
   c7_from_json_string_classification.2.2.2.2.2.1 [48],
   c7_from_json_string_classification.2.2.2.2.2.2 [110, 117, 108, 108, 108]
      (by rfl)⟩

/-- C2 (counterexample to the claim as stated): the printer escapes only
the newline character, so `Text "\\n"` (a backslash followed by `n`) and
`Text` of a newline print to the same JSON text, and decoding returns the
newline variant: `from_json_string(to_json(v))` is not `v` for
`v = Text "\\n"`. -/
theorem c2_newline_escape_collision :
    toJson (.text [92, 110]) = toJson (.text [10]) ∧
    fromJsonString (toJson (.text [92, 110])) = .ok (.text [10]) ∧
    BencodexValue.text [92, 110] ≠ BencodexValue.text [10] :=
  ⟨by rfl, by rfl, by decide⟩

/-- C2 (amended): for every `BencodexValue` constructible by the Rust
model whose text payloads (including text dictionary keys) contain no
quote, no backslash and no raw control byte other than newline,
serializing with `to_json`/`to_json_with_options` and decoding with
`from_json_string` returns the original value, under both the base64 and
the hex binary-encoding configurations. -/
theorem c2_json_round_trip (v : BencodexValue) (options : BinaryEncoding)
    (hWF : WF v = true) (hsafe : jsonSafe v = true) :
    fromJsonString (toJsonWithOptions v options) = .ok v ∧
    fromJsonString (toJson v) = .ok v := by
  constructor
  · rw [toJsonWithOptions, fromJsonString, parseDoc_printJson options v hWF hsafe]
    exact fromJson_jsonOf options v hWF hsafe
  · rw [toJson, fromJsonString, parseDoc_printJson .base64 v hWF hsafe]
    exact fromJson_jsonOf .base64 v hWF hsafe

theorem c2_json_round_trip_witness :
    (WF (BencodexValue.dictionary [(.binary [1, 2], .number (-7)),
        (.text [104, 10], .list [.null, .boolean true])]) = true ∧
     jsonSafe (BencodexValue.dictionary [(.binary [1, 2], .number (-7)),
        (.text [104, 10], .list [.null, .boolean true])]) = true) ∧
    (fromJsonString (toJsonWithOptions (BencodexValue.dictionary
        [(.binary [1, 2], .number (-7)),
         (.text [104, 10], .list [.null, .boolean true])]) .hex)
      = .ok (BencodexValue.dictionary [(.binary [1, 2], .number (-7)),
        (.text [104, 10], .list [.null, .boolean true])]) ∧
     fromJsonString (toJson (BencodexValue.dictionary
        [(.binary [1, 2], .number (-7)),
         (.text [104, 10], .list [.null, .boolean true])]))
      = .ok (BencodexValue.dictionary [(.binary [1, 2], .number (-7)),
        (.text [104, 10], .list [.null, .boolean true])])) :=
  ⟨⟨by decide, by decide⟩,
    c2_json_round_trip _ .hex (by decide) (by decide)⟩

end BencodexRs
